import Mathlib

/-!
# blockchain-cpp: a shallow embedding of the ledger core

The C++ classes `Transaction`, `MerkleTree`, `Block`, `ProofOfWork`,
`ProofOfStake` and `Blockchain` are rendered as structures with pure
functions on them.

Conventions of the embedding:

* `std::string` is `String`; `s.substr(0, n)` and `std::string(n, '0')` are
  `substr0` and `zeros`.
* `int` and `time_t` fields are `Int` (decimal rendering `operator<<` is
  `toString`).  The `int` counters that a run can drive out of range wrap
  around through `wrapInt32`: `nonce++` in the two nonce searches, and the
  stake sums in `getTotalStake32` and `selectLoop32`.  `getTotalStake` and
  `selectLoop` are the same sums for the runs in which they stay within
  `int`.  The block index is the `size_t -> int` conversion of
  `chain.size()`, the identity on chains shorter than `2^31` blocks.
* `double` amounts are rationals (every finite `double` is one).
* `std::time(nullptr)` and the random draw of `selectValidator` are explicit
  arguments of the operations that read them.
* `crypto::sha256` and the two stream renderings of a `double` are declared
  outside the translated sources; the ledger takes them as the fields of
  `Env`, and every result stated for an `Env` holds for every hash function.
* `SHA256` (`sha256.cpp`) is embedded on byte lists, with `uint32_t` words as
  naturals reduced modulo `2^32`; the round constants and mixing functions of
  its header are the standard ones.  `shaEnv` is the environment whose hash is
  this embedding.
* an operation whose C++ run has no defined result (the nonce search does
  not stop within the given number of iterations, `chain.back()` on an empty
  vector, `std::string(n, '0')` with negative `n`) yields `none`.
* `std::cerr` diagnostics of `isChainValid` are returned as a value
  (`firstViolation`).
-/

/-! ## SHA256 (`sha256.cpp`) -/

namespace crypto

namespace SHA256

/-- The modulus of `uint32_t` arithmetic. -/
def word : Nat := 4294967296

/-- Modelled from the spec: the round constants `SHA256::K` are declared in
the header `crypto/sha256.h`, which is not among the sources; they are taken
to be the 64 round constants of standard SHA-256 ("64 fixed round
constants"). -/
def K : List Nat :=
  [0x428A2F98, 0x71374491, 0xB5C0FBCF, 0xE9B5DBA5, 0x3956C25B, 0x59F111F1, 0x923F82A4, 0xAB1C5ED5,
   0xD807AA98, 0x12835B01, 0x243185BE, 0x550C7DC3, 0x72BE5D74, 0x80DEB1FE, 0x9BDC06A7, 0xC19BF174,
   0xE49B69C1, 0xEFBE4786, 0x0FC19DC6, 0x240CA1CC, 0x2DE92C6F, 0x4A7484AA, 0x5CB0A9DC, 0x76F988DA,
   0x983E5152, 0xA831C66D, 0xB00327C8, 0xBF597FC7, 0xC6E00BF3, 0xD5A79147, 0x06CA6351, 0x14292967,
   0x27B70A85, 0x2E1B2138, 0x4D2C6DFC, 0x53380D13, 0x650A7354, 0x766A0ABB, 0x81C2C92E, 0x92722C85,
   0xA2BFE8A1, 0xA81A664B, 0xC24B8B70, 0xC76C51A3, 0xD192E819, 0xD6990624, 0xF40E3585, 0x106AA070,
   0x19A4C116, 0x1E376C08, 0x2748774C, 0x34B0BCB5, 0x391C0CB3, 0x4ED8AA4A, 0x5B9CCA4F, 0x682E6FF3,
   0x748F82EE, 0x78A5636F, 0x84C87814, 0x8CC70208, 0x90BEFFFA, 0xA4506CEB, 0xBEF9A3F7, 0xC67178F2]

/-- Modelled from the spec: right rotation of a 32-bit word, the "rotation"
the mixing functions of the header are built from. -/
def rotr (x n : Nat) : Nat := ((x >>> n) ||| (x <<< (32 - n))) % word

/-- Modelled from the spec: the "choice" function `ch` of the header,
`(x & y) ^ (~x & z)` as in standard SHA-256. -/
def ch (x y z : Nat) : Nat := (x &&& y) ^^^ ((x ^^^ (word - 1)) &&& z)

/-- Modelled from the spec: the "majority" function `maj` of the header,
`(x & y) ^ (x & z) ^ (y & z)` as in standard SHA-256. -/
def maj (x y z : Nat) : Nat := (x &&& y) ^^^ (x &&& z) ^^^ (y &&& z)

/-- Modelled from the spec: `sigma0` of the header, used by `transform` on
the working variable `a`: the standard `rotr 2 ^ rotr 13 ^ rotr 22`. -/
def sigma0 (x : Nat) : Nat := rotr x 2 ^^^ rotr x 13 ^^^ rotr x 22

/-- Modelled from the spec: `sigma1` of the header, used by `transform` on
the working variable `e`: the standard `rotr 6 ^ rotr 11 ^ rotr 25`. -/
def sigma1 (x : Nat) : Nat := rotr x 6 ^^^ rotr x 11 ^^^ rotr x 25

/-- Modelled from the spec: `gamma0` of the header, used by `transform` in
the message schedule: the standard `rotr 7 ^ rotr 18 ^ (x >> 3)`. -/
def gamma0 (x : Nat) : Nat := rotr x 7 ^^^ rotr x 18 ^^^ (x >>> 3)

/-- Modelled from the spec: `gamma1` of the header, used by `transform` in
the message schedule: the standard `rotr 17 ^ rotr 19 ^ (x >> 10)`. -/
def gamma1 (x : Nat) : Nat := rotr x 17 ^^^ rotr x 19 ^^^ (x >>> 10)

/-- The member `h[8]` as set by `SHA256::SHA256`. -/
def init : List Nat :=
  [0x6a09e667, 0xbb67ae85, 0x3c6ef372, 0xa54ff53a, 0x510e527f, 0x9b05688c, 0x1f83d9ab,
   0x5be0cd19]

/-- The first loop of `SHA256::transform`: the words `w[0..15]`, each read
big-endian from four bytes of the chunk. -/
def schedule16 (data : List Nat) : List Nat :=
  (List.range 16).map (fun i =>
    ((data.getD (i * 4) 0 <<< 24) ||| (data.getD (i * 4 + 1) 0 <<< 16)
      ||| (data.getD (i * 4 + 2) 0 <<< 8) ||| data.getD (i * 4 + 3) 0) % word)

/-- The second loop of `SHA256::transform`: `w[16..63]` appended one by
one. -/
def schedule (data : List Nat) : List Nat :=
  (List.range 48).foldl (fun w k =>
      let i := k + 16
      w ++ [(gamma1 (w.getD (i - 2) 0) + w.getD (i - 7) 0 + gamma0 (w.getD (i - 15) 0)
              + w.getD (i - 16) 0) % word])
    (schedule16 data)

/-- The working variables `a, b, c, d, e, f, g, h_temp` of
`SHA256::transform`. -/
structure Vars where
  a : Nat
  b : Nat
  c : Nat
  d : Nat
  e : Nat
  f : Nat
  g : Nat
  h : Nat

/-- One iteration of the main compression loop of `SHA256::transform`. -/
def round (w : List Nat) (v : Vars) (i : Nat) : Vars :=
  let t1 := (v.h + sigma1 v.e + ch v.e v.f v.g + K.getD i 0 + w.getD i 0) % word
  let t2 := (sigma0 v.a + maj v.a v.b v.c) % word
  { a := (t1 + t2) % word, b := v.a, c := v.b, d := v.c,
    e := (v.d + t1) % word, f := v.e, g := v.f, h := v.g }

/-- `SHA256::transform`: the state `h[8]` after compressing the 64-byte
chunk that starts `data`. -/
def transform (h : List Nat) (data : List Nat) : List Nat :=
  let w := schedule data
  let v0 : Vars :=
    { a := h.getD 0 0, b := h.getD 1 0, c := h.getD 2 0, d := h.getD 3 0,
      e := h.getD 4 0, f := h.getD 5 0, g := h.getD 6 0, h := h.getD 7 0 }
  let v := (List.range 64).foldl (round w) v0
  [(h.getD 0 0 + v.a) % word, (h.getD 1 0 + v.b) % word, (h.getD 2 0 + v.c) % word,
   (h.getD 3 0 + v.d) % word, (h.getD 4 0 + v.e) % word, (h.getD 5 0 + v.f) % word,
   (h.getD 6 0 + v.g) % word, (h.getD 7 0 + v.h) % word]

/-- What `ss << std::hex << x` writes for an unsigned value: its lowercase
hexadecimal digits without leading zeros (`"0"` for zero); `fuel` bounds the
number of digits. -/
def hexDigits : Nat → Nat → List Char
  | 0, _ => []
  | fuel + 1, x =>
    if x < 16 then [Nat.digitChar x] else hexDigits fuel (x / 16) ++ [Nat.digitChar (x % 16)]

/-- What `ss << std::hex << std::setfill('0') << std::setw(8) << x` writes
for a `uint32_t`: the hexadecimal digits of `x`, padded on the left with
`'0'` to eight characters. -/
def hex8 (x : Nat) : List Char :=
  let digits := hexDigits 8 x
  List.replicate (8 - digits.length) '0' ++ digits

/-- `SHA256::finalize`. -/
def finalize (h : List Nat) : String :=
  String.mk ((List.range 8).foldl (fun ss i => ss ++ hex8 (h.getD i 0)) [])

/-- The loop `while ((data.size() % 64) != 56) data.push_back(0x00)` of
`SHA256::hash`, run for at most `fuel` iterations. -/
def padZeros : Nat → List Nat → List Nat
  | 0, data => data
  | fuel + 1, data => if data.length % 64 ≠ 56 then padZeros fuel (data ++ [0]) else data

/-- The pre-processing of `SHA256::hash`: the byte vector `data` before the
chunks are processed.  The input string is given by its bytes (a value that
is not a byte is reduced modulo 256, as by the conversion to `uint8_t`);
`bitLength` is a 64-bit `size_t`.  The zero-padding loop stops within 64
iterations. -/
def pad (input : List Nat) : List Nat :=
  let data := input.map (fun c => c % 256)
  let originalLength := data.length
  let bitLength := (originalLength * 8) % 18446744073709551616
  let data1 := data ++ [0x80]
  let data2 := padZeros 64 data1
  [7, 6, 5, 4, 3, 2, 1, 0].foldl
    (fun d i => d ++ [(bitLength >>> (i * 8)) &&& 0xFF]) data2

/-- The loop `for (size_t i = 0; i < data.size(); i += 64) body(data.data() + i)`
of `SHA256::hash` from offset `i` on, run for at most `fuel` iterations,
with the body as a parameter. -/
def chunkLoop {σ : Type} (body : σ → List Nat → σ) (data : List Nat) : Nat → Nat → σ → σ
  | 0, _, s => s
  | fuel + 1, i, s =>
    if i < data.length then chunkLoop body data fuel (i + 64) (body s (data.drop i)) else s

/-- `SHA256::hash`, on the bytes of the input string: the body of the chunk
loop is `transform`, and the loop makes at most `data.size()` iterations. -/
def hash (input : List Nat) : String :=
  let data := pad input
  finalize (chunkLoop transform data data.length 0 init)

/-- The number of times the chunk loop of `SHA256::hash` runs its body. -/
def compressions (input : List Nat) : Nat :=
  let data := pad input
  chunkLoop (fun count _ => count + 1) data data.length 0 0

end SHA256

/-- The bytes of a string: the UTF-8 encoding of its text. -/
def stringBytes (s : String) : List Nat :=
  s.data.flatMap (fun c => (String.utf8EncodeChar c).map UInt8.toNat)

/-- Modelled from the spec: the free function `crypto::sha256` is declared
in the header `crypto/sha256.h`, which is not among the sources; it is the
"HashEngine" of the specification, `SHA256::hash` applied to the string. -/
def sha256 (input : String) : String := SHA256.hash (stringBytes input)

end crypto

/-! ## The digest format and the padding as the specification words them -/

namespace crypto

/-- A 32-bit word rendered big-endian as 8 zero-padded lowercase hexadecimal
digits: the digit of weight `16^7` first. -/
def bigEndianHex8 (w : Nat) : List Char :=
  [7, 6, 5, 4, 3, 2, 1, 0].map (fun i => Nat.digitChar (w / 16 ^ i % 16))

/-- The big-endian encoding of a 64-bit value in 8 bytes: the byte of weight
`256^7` first. -/
def bigEndian64 (v : Nat) : List Nat :=
  [7, 6, 5, 4, 3, 2, 1, 0].map (fun i => v / 256 ^ i % 256)

/-- The characters of a lowercase hexadecimal rendering. -/
def hexChars : List Char := "0123456789abcdef".data

/-- The `k`-digit big-endian hexadecimal rendering of a value, built from
the least digit: the digits of `x / 16` followed by the digit `x % 16`. -/
def digitsBE : Nat → Nat → List Char
  | 0, _ => []
  | k + 1, x => digitsBE k (x / 16) ++ [Nat.digitChar (x % 16)]

/-- The shape of the state `h[8]` of a hash in progress: eight words, each
in the range of `uint32_t`. -/
def SHA256.GoodState (h : List Nat) : Prop := h.length = 8 ∧ ∀ w ∈ h, w < SHA256.word

end crypto

namespace blockchain

/-- Functions used by the translated sources but declared elsewhere:
`crypto::sha256` (header `crypto/sha256.h`), the default stream rendering of
a `double` and its `std::fixed << std::setprecision(8)` rendering. -/
structure Env where
  sha256 : String → String
  showDouble : ℚ → String
  showFixed8 : ℚ → String

/-- The C++ expression `s.substr(0, n)`: the first `n` characters of `s`, or
all of `s` when it is shorter. -/
def substr0 (s : String) (n : Nat) : String := String.mk (s.data.take n)

/-- The C++ expression `std::string(n, '0')`. -/
def zeros (n : Nat) : String := String.mk (List.replicate n '0')

/-- The value that an `int` holds after an arithmetic operation whose
mathematical result is `x`: `int` has 32 bits, and a result outside
`[-2^31, 2^31)` is reduced modulo `2^32` into that range (two's complement
wrap-around, which is what the usual compilers and targets do with the
overflow that the C++ standard leaves undefined). -/
def wrapInt32 (x : Int) : Int := (x + 2147483648) % 4294967296 - 2147483648

/-- The all-zero sentinel digest, 64 characters `'0'`. -/
def zeroDigest : String :=
  "0000000000000000000000000000000000000000000000000000000000000000"

/-! ## Transaction (`transaction.cpp`) -/

structure Transaction where
  id : String
  sender : String
  receiver : String
  amount : ℚ
  timestamp : Int
  deriving DecidableEq

namespace Transaction

/-- `Transaction::generateId`, on the fields the constructor has set. -/
def generateId (E : Env) (sender receiver : String) (amount : ℚ) (timestamp : Int) : String :=
  substr0 (E.sha256 (sender ++ receiver ++ E.showDouble amount ++ toString timestamp)) 16

/-- `Transaction::Transaction`; `now` is the value of `std::time(nullptr)`. -/
def new (E : Env) (sender receiver : String) (amount : ℚ) (now : Int) : Transaction :=
  { id := generateId E sender receiver amount now
    sender := sender
    receiver := receiver
    amount := amount
    timestamp := now }

/-- `Transaction::toString`. -/
def toStr (E : Env) (t : Transaction) : String :=
  t.id ++ ":" ++ t.sender ++ "->" ++ t.receiver ++ ":" ++ E.showFixed8 t.amount

/-- `Transaction::getHash`. -/
def getHash (E : Env) (t : Transaction) : String := E.sha256 (toStr E t)

/-- `Transaction::isValid`. -/
def isValid (t : Transaction) : Bool :=
  if t.sender = "" ∨ t.receiver = "" then false
  else if t.amount ≤ 0 then false
  else if t.sender = t.receiver then false
  else true

end Transaction

/-! ## MerkleTree (`merkle_tree.cpp`) -/

namespace MerkleTree

/-- The step `if (size % 2 != 0) currentLevel.push_back(currentLevel.back())`. -/
def dupLast (level : List String) : List String :=
  if level.length % 2 ≠ 0 then
    match level.getLast? with
    | some x => level ++ [x]
    | none => level
  else level

/-- The inner `for (i = 0; i < size; i += 2)` loop over a level of even
length: adjacent nodes are concatenated and hashed. -/
def pairUp (E : Env) : List String → List String
  | a :: b :: rest => E.sha256 (a ++ b) :: pairUp E rest
  | _ => []

/-- The loop `while (currentLevel.size() > 1)`, run for at most `fuel`
iterations. -/
def levelLoop (E : Env) : Nat → List String → List String
  | 0, level => level
  | fuel + 1, level =>
    if level.length > 1 then levelLoop E fuel (pairUp E (dupLast level)) else level

/-- `MerkleTree::buildTreeIterative`.  Every iteration of the loop shortens
a level of two or more nodes, so `nodes.length` iterations are enough. -/
def buildTreeIterative (E : Env) (nodes : List String) : String :=
  match nodes with
  | [] => zeroDigest
  | [x] => x
  | _ => (levelLoop E nodes.length nodes).headD ""

/-- The root computed by `MerkleTree::MerkleTree(const std::vector<std::string>&)`. -/
def rootOfHashes (E : Env) (transactionHashes : List String) : String :=
  if transactionHashes = [] then zeroDigest else buildTreeIterative E transactionHashes

/-- The root computed by `MerkleTree::MerkleTree(const std::vector<Transaction>&)`. -/
def rootOfTransactions (E : Env) (transactions : List Transaction) : String :=
  if transactions = [] then zeroDigest
  else buildTreeIterative E (transactions.map (Transaction.getHash E))

/-- The arguments of `crypto::sha256` in the inner loop over a level of even
length: the concatenations `currentLevel[i] + currentLevel[i + 1]`. -/
def pairInputs : List String → List String
  | a :: b :: rest => (a ++ b) :: pairInputs rest
  | _ => []

/-- The arguments of `crypto::sha256` over all iterations of the loop
`while (currentLevel.size() > 1)`, run for at most `fuel` iterations. -/
def levelInputs (E : Env) : Nat → List String → List String
  | 0, _ => []
  | fuel + 1, level =>
    if level.length > 1 then
      pairInputs (dupLast level) ++ levelInputs E fuel (pairUp E (dupLast level))
    else []

/-- The strings that are hashed while `buildTreeIterative` computes the root
of the given leaves. -/
def hashedInputs (E : Env) (leaves : List String) : List String :=
  levelInputs E leaves.length leaves

end MerkleTree

/-! ## Block (`block.h`, `block.cpp`) -/

inductive ConsensusType
  | NONE
  | PROOF_OF_WORK
  | PROOF_OF_STAKE
  deriving DecidableEq

structure Block where
  index : Int
  timestamp : Int
  previousHash : String
  merkleRoot : String
  nonce : Int
  hash : String
  transactions : List Transaction
  consensusType : ConsensusType
  validator : String
  deriving DecidableEq

namespace Block

/-- `Block::calculateHash`. -/
def calculateHash (E : Env) (b : Block) : String :=
  E.sha256 (toString b.index ++ toString b.timestamp ++ b.previousHash ++ b.merkleRoot
    ++ toString b.nonce ++ b.validator)

/-- `Block::Block`; `now` is the value of `std::time(nullptr)`. -/
def new (E : Env) (index : Int) (previousHash : String) (transactions : List Transaction)
    (now : Int) : Block :=
  let b : Block :=
    { index := index
      timestamp := now
      previousHash := previousHash
      merkleRoot := MerkleTree.rootOfTransactions E transactions
      nonce := 0
      hash := ""
      transactions := transactions
      consensusType := ConsensusType.NONE
      validator := "" }
  { b with hash := calculateHash E b }

/-- The loop `while (hash.substr(0, difficulty) != target) { nonce++; hash =
calculateHash(); }` of `Block::mineBlock`, run for at most `fuel` tests of
the loop condition; `none` when the condition still holds after them.  The
member `nonce` is an `int`: `nonce++` at `INT_MAX` gives `INT_MIN`. -/
def mineLoop (E : Env) (difficulty : Nat) : Nat → Block → Option Block
  | 0, _ => none
  | fuel + 1, b =>
    if substr0 b.hash difficulty ≠ zeros difficulty then
      let b1 := { b with nonce := wrapInt32 (b.nonce + 1) }
      mineLoop E difficulty fuel { b1 with hash := calculateHash E b1 }
    else some b

/-- `Block::mineBlock` (the returned duration is not modelled).  The
difficulty is a count of characters: the ledger passes its `powDifficulty`,
which is never negative. -/
def mineBlock (E : Env) (fuel : Nat) (difficulty : Nat) (b : Block) : Option Block :=
  mineLoop E difficulty fuel { b with consensusType := ConsensusType.PROOF_OF_WORK }

/-- `Block::validateBlock` (the returned duration is not modelled). -/
def validateBlock (E : Env) (validatorName : String) (b : Block) : Block :=
  let b1 := { b with consensusType := ConsensusType.PROOF_OF_STAKE
                     validator := validatorName
                     nonce := 0 }
  { b1 with hash := calculateHash E b1 }

/-- `Block::isValid`, called by the ledger with its `powDifficulty`. -/
def isValid (E : Env) (difficulty : Nat) (b : Block) : Bool :=
  if b.hash ≠ calculateHash E b then false
  else if b.consensusType = ConsensusType.PROOF_OF_WORK ∧ difficulty > 0
      ∧ substr0 b.hash difficulty ≠ zeros difficulty then false
  else if b.transactions.any (fun tx => !tx.isValid) then false
  else true

end Block

/-! ## ProofOfWork (`proof_of_work.cpp`) -/

namespace consensus

/-- The members `difficulty` and `target` of `ProofOfWork` (`miningTime` is
a wall-clock measurement and is not modelled).  `difficulty` is never
negative in a constructed object, see `ProofOfWork.new`. -/
structure ProofOfWork where
  difficulty : Nat
  target : String
  deriving DecidableEq

namespace ProofOfWork

/-- `ProofOfWork::ProofOfWork(int)`: `std::string(difficulty, '0')` throws
`std::length_error` for a negative count, so no object is constructed. -/
def new (difficulty : Int) : Option ProofOfWork :=
  if difficulty < 0 then none
  else some { difficulty := difficulty.toNat, target := zeros difficulty.toNat }

/-- `ProofOfWork::validateHash`. -/
def validateHash (p : ProofOfWork) (hash : String) : Bool :=
  decide (substr0 hash p.difficulty = p.target)

/-- The `do { ... } while (!validateHash(hash))` loop of `ProofOfWork::mine`,
entered with the current value of `nonce`, run for at most `fuel` bodies.
The result is the returned hash and the final value of `nonce`.  The
parameter `nonce` is an `int&`: `nonce++` at `INT_MAX` gives `INT_MIN`. -/
def mineLoop (E : Env) (p : ProofOfWork) (data : String) : Nat → Int → Option (String × Int)
  | 0, _ => none
  | fuel + 1, nonce =>
    let hash := E.sha256 (data ++ toString nonce)
    if validateHash p hash then some (hash, wrapInt32 (nonce + 1))
    else mineLoop E p data fuel (wrapInt32 (nonce + 1))

/-- `ProofOfWork::setDifficulty`. -/
def setDifficulty (newDifficulty : Int) (p : ProofOfWork) : ProofOfWork :=
  if newDifficulty < 1 ∨ newDifficulty > 8 then p
  else { difficulty := newDifficulty.toNat, target := zeros newDifficulty.toNat }

end ProofOfWork

/-! ## ProofOfStake (`proof_of_stake.cpp`) -/

structure Validator where
  name : String
  stake : Int
  deriving DecidableEq

/-- The member `validators` of `ProofOfStake`; the random generator is
replaced by the explicit draw passed to `selectValidator`. -/
structure ProofOfStake where
  validators : List Validator
  deriving DecidableEq

namespace ProofOfStake

/-- `ProofOfStake::ProofOfStake`. -/
def new : ProofOfStake := { validators := [] }

/-- `ProofOfStake::getTotalStake` in runs where the sum of the stakes stays
within `int`: the sum as an integer.  `getTotalStake32` is the function with
the arithmetic of `int total`. -/
def getTotalStake (s : ProofOfStake) : Int :=
  s.validators.foldl (fun total v => total + v.stake) 0

/-- Modelled from the spec: `ProofOfStake::getValidatorCount` is defined in
the header `consensus/proof_of_stake.h`, which is not among the sources; the
spec's test "registry is empty" is `getValidatorCount() == 0`, so it is the
number of registered validators. -/
def getValidatorCount (s : ProofOfStake) : Nat := s.validators.length

/-- `ProofOfStake::addValidator`: the returned flag and the registry
afterwards. -/
def addValidator (name : String) (stake : Int) (s : ProofOfStake) : Bool × ProofOfStake :=
  if stake ≤ 0 then (false, s)
  else if s.validators.any (fun v => decide (v.name = name)) then (false, s)
  else (true, { validators := s.validators ++ [{ name := name, stake := stake }] })

/-- `ProofOfStake::removeValidator`: `std::remove_if` keeps the validators
with another name in their order, and the flag tells whether one was
dropped. -/
def removeValidator (name : String) (s : ProofOfStake) : Bool × ProofOfStake :=
  let kept := s.validators.filter (fun v => decide (v.name ≠ name))
  if kept.length ≠ s.validators.length then (true, { validators := kept })
  else (false, s)

/-- The selection loop of `ProofOfStake::selectValidator` in runs where the
cumulative stake stays within `int`: `some name` when the loop returns,
`none` when it runs to its end.  `selectLoop32` is the loop with the
arithmetic of `int cumulative`. -/
def selectLoop (randomValue : Int) : Int → List Validator → Option String
  | _, [] => none
  | cumulative, v :: rest =>
    if randomValue < cumulative + v.stake then some v.name
    else selectLoop randomValue (cumulative + v.stake) rest

/-- `ProofOfStake::selectValidator`; `randomValue` is the draw `dis(gen)`. -/
def selectValidator (randomValue : Int) (s : ProofOfStake) : String :=
  match s.validators with
  | [] => "NoValidator"
  | v0 :: _ =>
    match selectLoop randomValue 0 s.validators with
    | some name => name
    | none => v0.name

/-- `ProofOfStake::getTotalStake` with the arithmetic of `int total`: every
`total += validator.stake` is an `int` addition. -/
def getTotalStake32 (s : ProofOfStake) : Int :=
  s.validators.foldl (fun total v => wrapInt32 (total + v.stake)) 0

/-- The selection loop of `ProofOfStake::selectValidator` with the
arithmetic of `int cumulative`: every `cumulative += validator.stake` is an
`int` addition. -/
def selectLoop32 (randomValue : Int) : Int → List Validator → Option String
  | _, [] => none
  | cumulative, v :: rest =>
    if randomValue < wrapInt32 (cumulative + v.stake) then some v.name
    else selectLoop32 randomValue (wrapInt32 (cumulative + v.stake)) rest

/-- `ProofOfStake::selectValidator` with the arithmetic of `int`;
`randomValue` is the draw `dis(gen)`. -/
def selectValidator32 (randomValue : Int) (s : ProofOfStake) : String :=
  match s.validators with
  | [] => "NoValidator"
  | v0 :: _ =>
    match selectLoop32 randomValue 0 s.validators with
    | some name => name
    | none => v0.name

/-- `ProofOfStake::validateBlock`. -/
def validateBlock (validatorName : String) (s : ProofOfStake) : Bool :=
  s.validators.any (fun v => decide (v.name = validatorName))

end ProofOfStake

end consensus

open consensus

/-! ## Blockchain (`blockchain.cpp`) -/

/-- The members of `Blockchain`.  `powDifficulty` is never negative in a
constructed object, see `Blockchain.new`. -/
structure Blockchain where
  chain : List Block
  powDifficulty : Nat
  pow : ProofOfWork
  pos : ProofOfStake
  deriving DecidableEq

/-- The rule named by a diagnostic of `isChainValid`:
"Previous hash mismatch", "Block is invalid", "PoW difficulty not met",
"Invalid validator". -/
inductive ChainError
  | previousHashMismatch
  | blockInvalid
  | powDifficultyNotMet
  | invalidValidator
  deriving DecidableEq

namespace Blockchain

/-- `Blockchain::createGenesisBlock`; the two arguments are the clock
readings of the `Transaction` and of the `Block` constructor. -/
def createGenesisBlock (E : Env) (txNow blockNow : Int) : Block :=
  Block.new E 0 zeroDigest [Transaction.new E "System" "Network" 0 txNow] blockNow

/-- `Blockchain::Blockchain(int)`: the member `pow` is constructed from the
same argument, so a negative difficulty throws and yields no object. -/
def new (E : Env) (difficulty : Int) (txNow blockNow : Int) : Option Blockchain :=
  match ProofOfWork.new difficulty with
  | none => none
  | some pow =>
    some { chain := [Block.validateBlock E "System" (createGenesisBlock E txNow blockNow)]
           powDifficulty := difficulty.toNat
           pow := pow
           pos := ProofOfStake.new }

/-- `Blockchain::addValidator`. -/
def addValidator (name : String) (stake : Int) (bc : Blockchain) : Bool × Blockchain :=
  let r := bc.pos.addValidator name stake
  (r.1, { bc with pos := r.2 })

/-- `Blockchain::getLastBlock`: `chain.back()`, undefined on an empty chain. -/
def getLastBlock (bc : Blockchain) : Option Block := bc.chain.getLast?

/-- `Blockchain::addBlockPoW`: the returned flag and the state afterwards;
`now` is the clock reading of the `Block` constructor and `fuel` bounds the
nonce search. -/
def addBlockPoW (E : Env) (transactions : List Transaction) (now : Int) (fuel : Nat)
    (bc : Blockchain) : Option (Bool × Blockchain) :=
  if transactions.any (fun tx => !tx.isValid) then some (false, bc)
  else
    match bc.getLastBlock with
    | none => none
    | some last =>
      match Block.mineBlock E fuel bc.powDifficulty
          (Block.new E (bc.chain.length : Int) last.hash transactions now) with
      | none => none
      | some newBlock => some (true, { bc with chain := bc.chain ++ [newBlock] })

/-- `Blockchain::addBlockPoS`: the returned flag and the state afterwards;
`now` is the clock reading of the `Block` constructor and `randomValue` the
draw of `selectValidator`. -/
def addBlockPoS (E : Env) (transactions : List Transaction) (now : Int) (randomValue : Int)
    (bc : Blockchain) : Option (Bool × Blockchain) :=
  if bc.pos.getValidatorCount = 0 then some (false, bc)
  else if transactions.any (fun tx => !tx.isValid) then some (false, bc)
  else
    let validator := bc.pos.selectValidator randomValue
    match bc.getLastBlock with
    | none => none
    | some last =>
      let newBlock := Block.validateBlock E validator
        (Block.new E (bc.chain.length : Int) last.hash transactions now)
      some (true, { bc with chain := bc.chain ++ [newBlock] })

/-- The body of the loop of `Blockchain::isChainValid` for one index:
the rule of the diagnostic it writes for `currentBlock`, `none` when the
block passes the four tests. -/
def checkBlock (E : Env) (powDifficulty : Nat) (pos : ProofOfStake)
    (previousBlock currentBlock : Block) : Option ChainError :=
  if currentBlock.previousHash ≠ previousBlock.hash then
    some ChainError.previousHashMismatch
  else if currentBlock.isValid E powDifficulty = false then
    some ChainError.blockInvalid
  else if currentBlock.consensusType = ConsensusType.PROOF_OF_WORK
      ∧ substr0 currentBlock.hash powDifficulty ≠ zeros powDifficulty then
    some ChainError.powDifficultyNotMet
  else if currentBlock.consensusType = ConsensusType.PROOF_OF_STAKE
      ∧ pos.validateBlock currentBlock.validator = false then
    some ChainError.invalidValidator
  else none

/-- The loop `for (size_t i = 1; i < chain.size(); i++)` of
`Blockchain::isChainValid` from index `i` on: `previousBlock` is
`chain[i - 1]` and the list holds `chain[i], ...`.  The result is the index
and the rule of the first diagnostic, `none` when the loop runs to its end. -/
def scanFrom (E : Env) (powDifficulty : Nat) (pos : ProofOfStake) :
    Nat → Block → List Block → Option (Nat × ChainError)
  | _, _, [] => none
  | i, previousBlock, currentBlock :: rest =>
    match checkBlock E powDifficulty pos previousBlock currentBlock with
    | some rule => some (i, rule)
    | none => scanFrom E powDifficulty pos (i + 1) currentBlock rest

/-- The diagnostic `isChainValid` writes before it returns false: the index
of the block it stops at and the rule that failed. -/
def firstViolation (E : Env) (bc : Blockchain) : Option (Nat × ChainError) :=
  match bc.chain with
  | [] => none
  | genesis :: rest => scanFrom E bc.powDifficulty bc.pos 1 genesis rest

/-- `Blockchain::isChainValid`: true exactly when the loop runs to its end
without a diagnostic. -/
def isChainValid (E : Env) (bc : Blockchain) : Bool := (firstViolation E bc).isNone

/-- `Blockchain::setDifficulty`. -/
def setDifficulty (difficulty : Int) (bc : Blockchain) : Blockchain :=
  if difficulty < 1 ∨ difficulty > 8 then bc
  else { bc with powDifficulty := difficulty.toNat
                 pow := bc.pow.setDifficulty difficulty }

/-- A call of one of the mutating operations of `Blockchain`, with the
environment readings (clock, random draw, iteration bound) of that call. -/
inductive Op
  | addValidator (name : String) (stake : Int)
  | addBlockPoW (transactions : List Transaction) (now : Int) (fuel : Nat)
  | addBlockPoS (transactions : List Transaction) (now : Int) (randomValue : Int)
  | setDifficulty (difficulty : Int)

/-- True for the calls of `setDifficulty`. -/
def Op.isSetDifficulty : Op → Bool
  | Op.setDifficulty _ => true
  | _ => false

/-- The state after one call; `none` when the call has no defined result. -/
def step (E : Env) (bc : Blockchain) : Op → Option Blockchain
  | Op.addValidator name stake => some (bc.addValidator name stake).2
  | Op.addBlockPoW txs now fuel => (bc.addBlockPoW E txs now fuel).map Prod.snd
  | Op.addBlockPoS txs now r => (bc.addBlockPoS E txs now r).map Prod.snd
  | Op.setDifficulty d => some (bc.setDifficulty d)

/-- The state after a sequence of calls, each with a defined result. -/
def run (E : Env) (bc : Blockchain) : List Op → Option Blockchain
  | [] => some bc
  | op :: ops =>
    match step E bc op with
    | none => none
    | some bc1 => run E bc1 ops

/-- The loop body of `isChainValid` applied to the blocks at positions `k`
and `k + 1` of a chain; `none` also when one of the positions is outside
the chain. -/
def pairCheck (E : Env) (powDifficulty : Nat) (pos : ProofOfStake) (chain : List Block)
    (k : Nat) : Option ChainError :=
  match chain[k]?, chain[k + 1]? with
  | some previousBlock, some currentBlock =>
    checkBlock E powDifficulty pos previousBlock currentBlock
  | _, _ => none

end Blockchain

/-! ## The verifier's rules as the specification words them -/

/-- The hash starts with `d` characters `'0'`. -/
def StartsWithZeros (hash : String) (d : Nat) : Prop := List.replicate d '0' <+: hash.data

instance (hash : String) (d : Nat) : Decidable (StartsWithZeros hash d) := by
  unfold StartsWithZeros; infer_instance

/-- The validator name is in the registry. -/
def Registered (pos : ProofOfStake) (name : String) : Prop :=
  ∃ v ∈ pos.validators, v.name = name

instance (pos : ProofOfStake) (name : String) : Decidable (Registered pos name) := by
  unfold Registered; infer_instance

/-- The conditions the specification lists for a block and its predecessor:
linkage, the stored hash is the recomputed one, every transaction is valid,
a PROOF_OF_WORK hash starts with `d` zeros, a PROOF_OF_STAKE validator is
registered. -/
def RulesHold (E : Env) (d : Nat) (pos : ProofOfStake) (previous current : Block) : Prop :=
  current.previousHash = previous.hash
  ∧ current.hash = current.calculateHash E
  ∧ (∀ tx ∈ current.transactions, tx.isValid = true)
  ∧ (current.consensusType = ConsensusType.PROOF_OF_WORK → StartsWithZeros current.hash d)
  ∧ (current.consensusType = ConsensusType.PROOF_OF_STAKE → Registered pos current.validator)

instance (E : Env) (d : Nat) (pos : ProofOfStake) (previous current : Block) :
    Decidable (RulesHold E d pos previous current) := by
  unfold RulesHold; infer_instance

/-- The conditions of the specification hold for `chain[i]` (with
predecessor `chain[i - 1]`) under difficulty `d` and registry `pos`. -/
def BlockOk (E : Env) (d : Nat) (pos : ProofOfStake) (chain : List Block) (i : Nat) : Prop :=
  match chain[i - 1]?, chain[i]? with
  | some previous, some current => RulesHold E d pos previous current
  | _, _ => False

instance (E : Env) (d : Nat) (pos : ProofOfStake) (chain : List Block) (i : Nat) :
    Decidable (BlockOk E d pos chain i) := by
  unfold BlockOk; split <;> infer_instance

/-! ## A small environment for evaluating the definitions -/

/-- A stand-in hash for concrete runs: the sum of the character codes of the
input modulo 5, in decimal (one digit, `"0"` for one input in five). -/
def sampleHash (s : String) : String :=
  toString (s.data.foldl (fun acc c => acc + c.toNat) 0 % 5)

/-- An environment for concrete runs. -/
def sampleEnv : Env :=
  { sha256 := sampleHash
    showDouble := fun _ => "0"
    showFixed8 := fun _ => "0.00000000" }

/-! ## Chains that were not built by the ledger -/

/-- The chain with the stored hash of the block at index `i` replaced by
`h` (the chain itself when it has no such block). -/
def replaceHash (chain : List Block) (i : Nat) (h : String) : List Block :=
  match chain[i]? with
  | some b => chain.set i { b with hash := h }
  | none => chain

/-- A ledger of difficulty 1 whose chain is the sealed genesis block alone,
with one character appended to its stored hash. -/
def staleGenesisLedger (E : Env) : Blockchain :=
  let genesis := Block.validateBlock E "System" (Blockchain.createGenesisBlock E 5 6)
  { chain := [{ genesis with hash := genesis.hash ++ "x" }]
    powDifficulty := 1
    pow := { difficulty := 1, target := "0" }
    pos := ProofOfStake.new }

/-! ## A sample run -/

/-- Calls of a sample run: a validator is registered, one block is sealed
by stake and one is mined. -/
def sampleOps : List Blockchain.Op :=
  [Blockchain.Op.addValidator "alice" 10, Blockchain.Op.addBlockPoS [] 7 3,
    Blockchain.Op.addBlockPoW [] 8 10]

/-- The ledger `Blockchain(1)` as constructed with the sample hash and the
clock readings 5 and 6. -/
def sampleGenesisLedger : Blockchain :=
  match Blockchain.new sampleEnv 1 5 6 with
  | some bc => bc
  | none => { chain := [], powDifficulty := 1, pow := { difficulty := 1, target := "0" },
              pos := ProofOfStake.new }

/-- The ledger `sampleGenesisLedger` after the calls `sampleOps`: a chain of
three blocks. -/
def sampleLedger : Blockchain :=
  match Blockchain.run sampleEnv sampleGenesisLedger sampleOps with
  | some bc => bc
  | none => sampleGenesisLedger

/-- The environment whose hash is the embedded SHA-256; the renderings of a
`double`, which the functions on hash lists and blocks without transactions
do not use, are those of `sampleEnv`. -/
def shaEnv : Env := { sampleEnv with sha256 := crypto.sha256 }

/-! ## Sequences of registry calls and selection by stake -/

/-- A call of one of the two mutators of `ProofOfStake`. -/
inductive RegistryOp
  | add (name : String) (stake : Int)
  | remove (name : String)

/-- The registry after one call of a mutator. -/
def RegistryOp.apply (s : ProofOfStake) : RegistryOp → ProofOfStake
  | RegistryOp.add name stake => (s.addValidator name stake).2
  | RegistryOp.remove name => (s.removeValidator name).2

/-- The registry after a sequence of calls, starting from the registry
`ProofOfStake()` without validators. -/
def registryAfter (ops : List RegistryOp) : ProofOfStake :=
  ops.foldl RegistryOp.apply ProofOfStake.new

/-- The cumulative stake of the first `k` validators in registration
order. -/
def cumulativeStake (s : ProofOfStake) (k : Nat) : Int :=
  ((s.validators.take k).map Validator.stake).sum

/-- The registry after `addValidator` with the stakes 1, `INT_MAX`,
`INT_MAX` and 11: the sum of the stakes is `2^32 + 10`. -/
def overflowRegistry : ProofOfStake :=
  registryAfter [RegistryOp.add "A" 1, RegistryOp.add "B" 2147483647,
    RegistryOp.add "C" 2147483647, RegistryOp.add "D" 11]

/-- The string `ss.str()` that `Block::calculateHash` hashes: the decimal
index, the decimal timestamp, `previousHash`, `merkleRoot`, the decimal nonce
and `validator`, without separators. -/
def Block.hashInput (b : Block) : String :=
  toString b.index ++ toString b.timestamp ++ b.previousHash ++ b.merkleRoot
    ++ toString b.nonce ++ b.validator

/-- A block without transactions whose index, timestamp, nonce and
validator are the given ones; the other fields are fixed. -/
def sampleFieldsBlock (index timestamp nonce : Int) (validator : String) : Block :=
  { index := index
    timestamp := timestamp
    previousHash := zeroDigest
    merkleRoot := zeroDigest
    nonce := nonce
    hash := ""
    transactions := []
    consensusType := ConsensusType.NONE
    validator := validator }

/-! ## A ledger mined with SHA-256 -/

/-- The block that `addBlockPoW` mines at difficulty 2 with SHA-256 on top
of the genesis block of `Blockchain(2)`, without transactions, at the clock
reading 1700000052 (see `minedLedger_built`). -/
def minedBlock : Block :=
  { index := 1
    timestamp := 1700000052
    previousHash := "4bf3331c22ca266448d30994513a99d83464d66cf45183c351daea14e5675070"
    merkleRoot := zeroDigest
    nonce := 1
    hash := "00d9493e1d4011560b257e3ef3fdfc6ef3d933991ee6caf1fb3cb5c77cf82b96"
    transactions := []
    consensusType := ConsensusType.PROOF_OF_WORK
    validator := "" }

/-- The ledger `Blockchain(2)` as constructed with SHA-256 and the clock
readings 1700000000: one sealed genesis block. -/
def minedGenesisLedger : Blockchain :=
  { chain := [Block.validateBlock shaEnv "System"
                (Blockchain.createGenesisBlock shaEnv 1700000000 1700000000)]
    powDifficulty := 2
    pow := { difficulty := 2, target := "00" }
    pos := ProofOfStake.new }

/-- The ledger `minedGenesisLedger` after `addBlockPoW` of a block without
transactions at the clock reading 1700000052: a chain of two blocks, the
second one mined at difficulty 2 (see `minedLedger_built`). -/
def minedLedger : Blockchain :=
  { minedGenesisLedger with chain := minedGenesisLedger.chain ++ [minedBlock] }

end blockchain

/-! # Theorems -/

namespace blockchain

open consensus

/-! ## The scan of `isChainValid` -/

namespace Blockchain

theorem pairCheck_cons_succ (E : Env) (d : Nat) (pos : ProofOfStake) (a : Block)
    (l : List Block) (k : Nat) :
    pairCheck E d pos (a :: l) (k + 1) = pairCheck E d pos l k := by
  simp [pairCheck]

theorem pairCheck_cons_zero (E : Env) (d : Nat) (pos : ProofOfStake) (a c : Block)
    (l : List Block) :
    pairCheck E d pos (a :: c :: l) 0 = checkBlock E d pos a c := by
  simp [pairCheck]

theorem scanFrom_eq_some_iff (E : Env) (d : Nat) (pos : ProofOfStake) (l : List Block) :
    ∀ (i : Nat) (prev : Block) (j : Nat) (e : ChainError),
      scanFrom E d pos i prev l = some (j, e) ↔
        ∃ k, j = i + k ∧ k < l.length ∧ pairCheck E d pos (prev :: l) k = some e ∧
          ∀ m, m < k → pairCheck E d pos (prev :: l) m = none := by
  induction l with
  | nil => intro i prev j e; simp [scanFrom]
  | cons c rest ih =>
    intro i prev j e
    unfold scanFrom
    cases h : checkBlock E d pos prev c with
    | some e1 =>
      constructor
      · intro hje
        simp only [Option.some.injEq, Prod.mk.injEq] at hje
        refine ⟨0, by omega, by simp, ?_, by intro m hm; omega⟩
        rw [pairCheck_cons_zero, h, hje.2]
      · rintro ⟨k, hj, _, hk, hm⟩
        cases k with
        | zero =>
          rw [pairCheck_cons_zero, h] at hk
          simp only [Option.some.injEq] at hk
          simp [hj, hk]
        | succ k1 =>
          have h0 := hm 0 (by omega)
          rw [pairCheck_cons_zero, h] at h0
          cases h0
    | none =>
      simp only
      rw [ih]
      constructor
      · rintro ⟨k, hj, hk, hs, hm⟩
        refine ⟨k + 1, by omega, by simp; omega, ?_, ?_⟩
        · rw [pairCheck_cons_succ]; exact hs
        · intro m hmk
          cases m with
          | zero => rw [pairCheck_cons_zero]; exact h
          | succ m1 => rw [pairCheck_cons_succ]; exact hm m1 (by omega)
      · rintro ⟨k, hj, hk, hs, hm⟩
        cases k with
        | zero => rw [pairCheck_cons_zero, h] at hs; cases hs
        | succ k1 =>
          refine ⟨k1, by omega, by simpa using hk, ?_, ?_⟩
          · rw [pairCheck_cons_succ] at hs; exact hs
          · intro m hmk
            have := hm (m + 1) (by omega)
            rw [pairCheck_cons_succ] at this; exact this

theorem scanFrom_eq_none_iff (E : Env) (d : Nat) (pos : ProofOfStake) (l : List Block) :
    ∀ (i : Nat) (prev : Block),
      scanFrom E d pos i prev l = none ↔
        ∀ m, m < l.length → pairCheck E d pos (prev :: l) m = none := by
  induction l with
  | nil => intro i prev; simp [scanFrom]
  | cons c rest ih =>
    intro i prev
    unfold scanFrom
    cases h : checkBlock E d pos prev c with
    | some e1 =>
      simp only [false_iff, reduceCtorEq]
      intro hall
      have h0 := hall 0 (by simp)
      rw [pairCheck_cons_zero, h] at h0
      cases h0
    | none =>
      simp only
      rw [ih]
      constructor
      · intro hall m hm
        cases m with
        | zero => rw [pairCheck_cons_zero]; exact h
        | succ m1 => rw [pairCheck_cons_succ]; exact hall m1 (by simpa using hm)
      · intro hall m hm
        have := hall (m + 1) (by simpa using hm)
        rw [pairCheck_cons_succ] at this; exact this

/-- The diagnostic of `isChainValid` names index `i` and rule `e` exactly
when the loop body fails with `e` at `i` and passes at every index from 1 up
to `i`. -/
theorem firstViolation_eq_some_iff (E : Env) (bc : Blockchain) (i : Nat) (e : ChainError) :
    firstViolation E bc = some (i, e) ↔
      1 ≤ i ∧ i < bc.chain.length ∧
        pairCheck E bc.powDifficulty bc.pos bc.chain (i - 1) = some e ∧
        ∀ j, 1 ≤ j → j < i → pairCheck E bc.powDifficulty bc.pos bc.chain (j - 1) = none := by
  unfold firstViolation
  cases hc : bc.chain with
  | nil => simp
  | cons g rest =>
    simp only [scanFrom_eq_some_iff, List.length_cons]
    constructor
    · rintro ⟨k, hi, hk, hs, hm⟩
      subst hi
      refine ⟨by omega, by omega, by simpa using hs, ?_⟩
      intro j hj1 hj2
      exact hm (j - 1) (by omega)
    · rintro ⟨hi1, hi2, hs, hm⟩
      refine ⟨i - 1, by omega, by omega, hs, ?_⟩
      intro m hmk
      have := hm (m + 1) (by omega) (by omega)
      simpa using this

/-- The loop of `isChainValid` writes no diagnostic exactly when the loop
body passes at every index from 1 on. -/
theorem firstViolation_eq_none_iff (E : Env) (bc : Blockchain) :
    firstViolation E bc = none ↔
      ∀ i, 1 ≤ i → i < bc.chain.length →
        pairCheck E bc.powDifficulty bc.pos bc.chain (i - 1) = none := by
  unfold firstViolation
  cases hc : bc.chain with
  | nil => simp
  | cons g rest =>
    simp only [scanFrom_eq_none_iff, List.length_cons]
    constructor
    · intro hall i hi1 hi2
      exact hall (i - 1) (by omega)
    · intro hall m hm
      have := hall (m + 1) (by omega) (by omega)
      simpa using this

theorem isChainValid_eq_true_iff (E : Env) (bc : Blockchain) :
    isChainValid E bc = true ↔ firstViolation E bc = none := by
  unfold isChainValid
  cases firstViolation E bc <;> simp

theorem isChainValid_eq_false_iff (E : Env) (bc : Blockchain) :
    isChainValid E bc = false ↔ ∃ i e, firstViolation E bc = some (i, e) := by
  unfold isChainValid
  cases h : firstViolation E bc with
  | none => simp
  | some x => obtain ⟨i, e⟩ := x; simp

end Blockchain

/-! ## The loop body against the rules of the specification -/

theorem substr0_eq_zeros_iff (hash : String) (d : Nat) :
    substr0 hash d = zeros d ↔ StartsWithZeros hash d := by
  unfold substr0 zeros StartsWithZeros
  rw [String.ext_iff]
  show List.take d hash.data = List.replicate d '0' ↔ _
  constructor
  · intro h
    rw [← h]
    exact List.take_prefix d hash.data
  · rintro ⟨t, ht⟩
    rw [← ht]
    have hl : (List.replicate d '0').length = d := List.length_replicate d '0'
    have := List.take_left (List.replicate d '0') t
    rw [hl] at this
    exact this

theorem StartsWithZeros_zero (hash : String) : StartsWithZeros hash 0 := by
  unfold StartsWithZeros
  simp

theorem consensus.ProofOfStake.validateBlock_eq_true_iff (pos : ProofOfStake) (name : String) :
    pos.validateBlock name = true ↔ Registered pos name := by
  unfold ProofOfStake.validateBlock Registered
  simp [List.any_eq_true]

theorem Block.isValid_eq_true_iff (E : Env) (d : Nat) (b : Block) :
    b.isValid E d = true ↔
      b.hash = b.calculateHash E
      ∧ (b.consensusType = ConsensusType.PROOF_OF_WORK → 0 < d → substr0 b.hash d = zeros d)
      ∧ ∀ tx ∈ b.transactions, tx.isValid = true := by
  unfold Block.isValid
  split_ifs with h1 h2 h3
  · constructor
    · intro h; cases h
    · rintro ⟨ha, _, _⟩; exact absurd ha h1
  · constructor
    · intro h; cases h
    · rintro ⟨_, hb, _⟩; exact absurd (hb h2.1 h2.2.1) h2.2.2
  · constructor
    · intro h; cases h
    · rintro ⟨_, _, hc⟩
      rw [List.any_eq_true] at h3
      obtain ⟨tx, htx, hv⟩ := h3
      rw [hc tx htx] at hv
      cases hv
  · refine ⟨fun _ => ⟨not_not.1 h1, ?_, ?_⟩, fun _ => rfl⟩
    · intro ha hb
      by_contra hc
      exact h2 ⟨ha, hb, hc⟩
    · intro tx htx
      by_contra hv
      apply h3
      rw [List.any_eq_true]
      refine ⟨tx, htx, ?_⟩
      cases hx : tx.isValid
      · rfl
      · exact absurd hx hv

namespace Blockchain

/-- The loop body of `isChainValid` passes a block exactly when the rules
the specification lists hold for it. -/
theorem checkBlock_eq_none_iff (E : Env) (d : Nat) (pos : ProofOfStake) (p c : Block) :
    checkBlock E d pos p c = none ↔ RulesHold E d pos p c := by
  unfold checkBlock RulesHold
  split_ifs with h1 h2 h3 h4
  · constructor
    · intro h; cases h
    · rintro ⟨ha, _⟩; exact absurd ha h1
  · constructor
    · intro h; cases h
    · rintro ⟨_, ha, hb, hc, _⟩
      have : c.isValid E d = true := by
        rw [Block.isValid_eq_true_iff]
        exact ⟨ha, fun hpow _ => (substr0_eq_zeros_iff _ _).2 (hc hpow), hb⟩
      rw [h2] at this
      cases this
  · constructor
    · intro h; cases h
    · rintro ⟨_, _, _, hc, _⟩
      exact h3.2 ((substr0_eq_zeros_iff _ _).2 (hc h3.1))
  · constructor
    · intro h; cases h
    · rintro ⟨_, _, _, _, hd⟩
      have := (ProofOfStake.validateBlock_eq_true_iff pos c.validator).2 (hd h4.1)
      rw [h4.2] at this
      cases this
  · refine ⟨fun _ => ?_, fun _ => rfl⟩
    have hv : c.isValid E d = true := by
      cases hx : c.isValid E d
      · exact absurd hx h2
      · rfl
    obtain ⟨v1, _, v3⟩ := (Block.isValid_eq_true_iff E d c).1 hv
    refine ⟨not_not.1 h1, v1, v3, ?_, ?_⟩
    · intro ha
      by_contra hb
      exact h3 ⟨ha, fun hc => hb ((substr0_eq_zeros_iff _ _).1 hc)⟩
    · intro ha
      rw [← ProofOfStake.validateBlock_eq_true_iff]
      cases hx : pos.validateBlock c.validator
      · exact absurd ⟨ha, hx⟩ h4
      · rfl

/-- Inside the chain, the loop body passes at index `i` exactly when the
rules of the specification hold for `chain[i]`. -/
theorem pairCheck_eq_none_iff (E : Env) (d : Nat) (pos : ProofOfStake) (chain : List Block)
    (i : Nat) (h1 : 1 ≤ i) (h2 : i < chain.length) :
    pairCheck E d pos chain (i - 1) = none ↔ BlockOk E d pos chain i := by
  unfold pairCheck BlockOk
  have e1 : i - 1 + 1 = i := by omega
  have hp : chain[i - 1]? = some (chain[i - 1]) := List.getElem?_eq_getElem (by omega)
  have hc : chain[i]? = some (chain[i]) := List.getElem?_eq_getElem h2
  rw [e1, hp, hc]
  exact checkBlock_eq_none_iff E d pos _ _

end Blockchain

/-! ## Sealing a block -/

namespace Block

theorem calculateHash_new (E : Env) (index : Int) (previousHash : String)
    (transactions : List Transaction) (now : Int) :
    (Block.new E index previousHash transactions now).hash
      = calculateHash E (Block.new E index previousHash transactions now) := rfl

theorem calculateHash_validateBlock (E : Env) (name : String) (b : Block) :
    (validateBlock E name b).hash = calculateHash E (validateBlock E name b) := rfl

/-- The nonce search changes only `nonce` and `hash`. -/
theorem mineLoop_frame (E : Env) (d : Nat) :
    ∀ (fuel : Nat) (b b1 : Block), mineLoop E d fuel b = some b1 →
      b1.index = b.index ∧ b1.timestamp = b.timestamp ∧ b1.previousHash = b.previousHash
      ∧ b1.merkleRoot = b.merkleRoot ∧ b1.transactions = b.transactions
      ∧ b1.consensusType = b.consensusType ∧ b1.validator = b.validator := by
  intro fuel
  induction fuel with
  | zero => intro b b1 h; simp [mineLoop] at h
  | succ n ih =>
    intro b b1 h
    unfold mineLoop at h
    split_ifs at h with hc
    · have hrec := ih _ _ h
      exact hrec
    · simp only [Option.some.injEq] at h
      subst h
      exact ⟨rfl, rfl, rfl, rfl, rfl, rfl, rfl⟩

/-- The nonce search stops only on a hash that meets the target. -/
theorem mineLoop_target (E : Env) (d : Nat) :
    ∀ (fuel : Nat) (b b1 : Block), mineLoop E d fuel b = some b1 →
      substr0 b1.hash d = zeros d := by
  intro fuel
  induction fuel with
  | zero => intro b b1 h; simp [mineLoop] at h
  | succ n ih =>
    intro b b1 h
    unfold mineLoop at h
    split_ifs at h with hc
    · exact ih _ _ h
    · simp only [Option.some.injEq] at h
      subst h
      exact not_not.1 hc

/-- The nonce search keeps the stored hash equal to the recomputed one. -/
theorem mineLoop_hash (E : Env) (d : Nat) :
    ∀ (fuel : Nat) (b b1 : Block), mineLoop E d fuel b = some b1 →
      b.hash = calculateHash E b → b1.hash = calculateHash E b1 := by
  intro fuel
  induction fuel with
  | zero => intro b b1 h; simp [mineLoop] at h
  | succ n ih =>
    intro b b1 h hb
    unfold mineLoop at h
    split_ifs at h with hc
    · exact ih _ _ h rfl
    · simp only [Option.some.injEq] at h
      subst h
      exact hb

end Block

/-! ## The validator registry -/

namespace consensus.ProofOfStake

theorem selectLoop_mem (r : Int) :
    ∀ (vs : List Validator) (c : Int) (name : String),
      selectLoop r c vs = some name → ∃ v ∈ vs, v.name = name := by
  intro vs
  induction vs with
  | nil => intro c name h; simp [selectLoop] at h
  | cons v rest ih =>
    intro c name h
    unfold selectLoop at h
    split_ifs at h with hc
    · simp only [Option.some.injEq] at h
      exact ⟨v, List.mem_cons_self _ _, h⟩
    · obtain ⟨w, hw, hn⟩ := ih _ _ h
      exact ⟨w, List.mem_cons_of_mem _ hw, hn⟩

/-- On a non-empty registry `selectValidator` returns a registered name,
whatever the draw. -/
theorem selectValidator_registered (r : Int) (pos : ProofOfStake)
    (h : pos.getValidatorCount ≠ 0) : Registered pos (pos.selectValidator r) := by
  unfold selectValidator Registered
  cases hv : pos.validators with
  | nil => simp [getValidatorCount, hv] at h
  | cons v0 rest =>
    simp only
    cases hs : selectLoop r 0 (v0 :: rest) with
    | none => exact ⟨v0, List.mem_cons_self _ _, rfl⟩
    | some name => exact selectLoop_mem r _ _ _ hs

/-- Registration only adds names to the registry. -/
theorem addValidator_registered (name : String) (stake : Int) (pos : ProofOfStake)
    (n : String) (h : Registered pos n) : Registered (pos.addValidator name stake).2 n := by
  unfold addValidator
  split_ifs
  · exact h
  · exact h
  · obtain ⟨v, hv, hn⟩ := h
    exact ⟨v, List.mem_append_left _ hv, hn⟩

end consensus.ProofOfStake

/-! ## Appending to a verified chain -/

namespace Blockchain

theorem pairCheck_append_left (E : Env) (d : Nat) (pos : ProofOfStake) (chain : List Block)
    (b : Block) (k : Nat) (h : k + 1 < chain.length) :
    pairCheck E d pos (chain ++ [b]) k = pairCheck E d pos chain k := by
  unfold pairCheck
  rw [List.getElem?_append_left (by omega), List.getElem?_append_left h]

theorem pairCheck_append_last (E : Env) (d : Nat) (pos : ProofOfStake) (chain : List Block)
    (b last : Block) (h : chain.getLast? = some last) :
    pairCheck E d pos (chain ++ [b]) (chain.length - 1) = checkBlock E d pos last b := by
  have hne : chain ≠ [] := by
    intro hnil
    rw [hnil] at h
    cases h
  have hlen : 0 < chain.length := List.length_pos.2 hne
  unfold pairCheck
  rw [List.getLast?_eq_getElem?] at h
  have e1 : chain.length - 1 + 1 = chain.length := by omega
  rw [e1, List.getElem?_concat_length, List.getElem?_append_left (by omega), h]

/-- A block that passes the loop body against the last block extends a
chain without diagnostic to a chain without diagnostic. -/
theorem firstViolation_append (E : Env) (bc : Blockchain) (b last : Block)
    (hlast : bc.chain.getLast? = some last)
    (hvalid : firstViolation E bc = none)
    (hb : checkBlock E bc.powDifficulty bc.pos last b = none) :
    firstViolation E { bc with chain := bc.chain ++ [b] } = none := by
  rw [firstViolation_eq_none_iff] at hvalid ⊢
  intro i hi1 hi2
  simp only [List.length_append, List.length_singleton] at hi2
  by_cases hi : i < bc.chain.length
  · show pairCheck E bc.powDifficulty bc.pos (bc.chain ++ [b]) (i - 1) = none
    rw [pairCheck_append_left E _ _ _ _ _ (by omega)]
    exact hvalid i hi1 hi
  · have hi3 : i = bc.chain.length := by omega
    show pairCheck E bc.powDifficulty bc.pos (bc.chain ++ [b]) (i - 1) = none
    rw [hi3, pairCheck_append_last E _ _ _ _ last hlast]
    exact hb

/-- A registry with more names passes every block the smaller one passes. -/
theorem checkBlock_mono (E : Env) (d : Nat) (pos pos1 : ProofOfStake) (p c : Block)
    (hreg : ∀ n, Registered pos n → Registered pos1 n)
    (h : checkBlock E d pos p c = none) : checkBlock E d pos1 p c = none := by
  rw [checkBlock_eq_none_iff] at h ⊢
  obtain ⟨h1, h2, h3, h4, h5⟩ := h
  exact ⟨h1, h2, h3, h4, fun hc => hreg _ (h5 hc)⟩

theorem pairCheck_mono (E : Env) (d : Nat) (pos pos1 : ProofOfStake) (chain : List Block)
    (k : Nat) (hreg : ∀ n, Registered pos n → Registered pos1 n)
    (h : pairCheck E d pos chain k = none) : pairCheck E d pos1 chain k = none := by
  unfold pairCheck at h ⊢
  cases hp : chain[k]? with
  | none => rfl
  | some p =>
    cases hc : chain[k + 1]? with
    | none => rfl
    | some c =>
      rw [hp, hc] at h
      exact checkBlock_mono E d pos pos1 p c hreg h

end Blockchain

/-! ## The operations of the ledger -/

namespace Blockchain

theorem any_invalid_eq_false_iff (txs : List Transaction) :
    txs.any (fun tx => !tx.isValid) = false ↔ ∀ tx ∈ txs, tx.isValid = true := by
  rw [List.any_eq_false]
  constructor
  · intro h tx htx
    have := h tx htx
    cases hx : tx.isValid
    · rw [hx] at this; exact absurd rfl this
    · rfl
  · intro h tx htx
    rw [h tx htx]
    simp

theorem any_invalid_eq_true_iff (txs : List Transaction) :
    txs.any (fun tx => !tx.isValid) = true ↔ ∃ tx ∈ txs, tx.isValid = false := by
  rw [List.any_eq_true]
  constructor
  · rintro ⟨tx, htx, hv⟩
    refine ⟨tx, htx, ?_⟩
    cases hx : tx.isValid
    · rfl
    · rw [hx] at hv; cases hv
  · rintro ⟨tx, htx, hv⟩
    exact ⟨tx, htx, by rw [hv]; rfl⟩

/-- The two outcomes of `addBlockPoW`: refusal with the state untouched, or
one mined block appended. -/
theorem addBlockPoW_cases (E : Env) (txs : List Transaction) (now : Int) (fuel : Nat)
    (bc : Blockchain) (ok : Bool) (bc1 : Blockchain)
    (h : bc.addBlockPoW E txs now fuel = some (ok, bc1)) :
    (ok = false ∧ bc1 = bc ∧ ∃ tx ∈ txs, tx.isValid = false)
    ∨ (ok = true ∧ (∀ tx ∈ txs, tx.isValid = true) ∧ ∃ last b,
        bc.chain.getLast? = some last
        ∧ Block.mineBlock E fuel bc.powDifficulty
            (Block.new E (bc.chain.length : Int) last.hash txs now) = some b
        ∧ bc1 = { bc with chain := bc.chain ++ [b] }) := by
  unfold addBlockPoW at h
  split_ifs at h with hany
  · simp only [Option.some.injEq, Prod.mk.injEq] at h
    exact Or.inl ⟨h.1.symm, h.2.symm, (any_invalid_eq_true_iff txs).1 hany⟩
  · have hall := (any_invalid_eq_false_iff txs).1 (by simpa using hany)
    unfold getLastBlock at h
    cases hl : bc.chain.getLast? with
    | none => rw [hl] at h; cases h
    | some last =>
      rw [hl] at h
      simp only at h
      cases hm : Block.mineBlock E fuel bc.powDifficulty
          (Block.new E (bc.chain.length : Int) last.hash txs now) with
      | none => rw [hm] at h; cases h
      | some b =>
        rw [hm] at h
        simp only [Option.some.injEq, Prod.mk.injEq] at h
        exact Or.inr ⟨h.1.symm, hall, last, b, rfl, hm, h.2.symm⟩

/-- The two outcomes of `addBlockPoS`: refusal with the state untouched, or
one block sealed by the selected validator appended. -/
theorem addBlockPoS_cases (E : Env) (txs : List Transaction) (now : Int) (r : Int)
    (bc : Blockchain) (ok : Bool) (bc1 : Blockchain)
    (h : bc.addBlockPoS E txs now r = some (ok, bc1)) :
    (ok = false ∧ bc1 = bc
      ∧ (bc.pos.getValidatorCount = 0 ∨ ∃ tx ∈ txs, tx.isValid = false))
    ∨ (ok = true ∧ bc.pos.getValidatorCount ≠ 0 ∧ (∀ tx ∈ txs, tx.isValid = true) ∧ ∃ last,
        bc.chain.getLast? = some last
        ∧ bc1 = { bc with chain := bc.chain ++
            [Block.validateBlock E (bc.pos.selectValidator r)
              (Block.new E (bc.chain.length : Int) last.hash txs now)] }) := by
  unfold addBlockPoS at h
  split_ifs at h with hcount hany
  · simp only [Option.some.injEq, Prod.mk.injEq] at h
    exact Or.inl ⟨h.1.symm, h.2.symm, Or.inl hcount⟩
  · simp only [Option.some.injEq, Prod.mk.injEq] at h
    exact Or.inl ⟨h.1.symm, h.2.symm, Or.inr ((any_invalid_eq_true_iff txs).1 hany)⟩
  · have hall := (any_invalid_eq_false_iff txs).1 (by simpa using hany)
    unfold getLastBlock at h
    cases hl : bc.chain.getLast? with
    | none => rw [hl] at h; cases h
    | some last =>
      rw [hl] at h
      simp only [Option.some.injEq, Prod.mk.injEq] at h
      exact Or.inr ⟨h.1.symm, hcount, hall, last, rfl, h.2.symm⟩

/-- An invariant kept by every call of an allowed operation holds after
every sequence of them. -/
theorem run_induction (E : Env) (P : Blockchain → Prop) (allowed : Op → Prop)
    (hstep : ∀ bc op bc1, allowed op → P bc → step E bc op = some bc1 → P bc1) :
    ∀ (ops : List Op) (bc bc1 : Blockchain), (∀ op ∈ ops, allowed op) → P bc →
      run E bc ops = some bc1 → P bc1 := by
  intro ops
  induction ops with
  | nil =>
    intro bc bc1 _ hP h
    simp only [run, Option.some.injEq] at h
    rw [← h]; exact hP
  | cons op rest ih =>
    intro bc bc1 hall hP h
    unfold run at h
    cases hs : step E bc op with
    | none => rw [hs] at h; cases h
    | some bc2 =>
      rw [hs] at h
      exact ih bc2 bc1 (fun o ho => hall o (List.mem_cons_of_mem _ ho))
        (hstep bc op bc2 (hall op (List.mem_cons_self _ _)) hP hs) h

/-- What a call does to the chain: nothing, or one block appended whose
index is the old length, whose `previousHash` is the hash of the old last
block and whose Merkle root is the root of its transactions. -/
theorem step_chain (E : Env) (bc : Blockchain) (op : Op) (bc1 : Blockchain)
    (h : step E bc op = some bc1) :
    bc1.chain = bc.chain
    ∨ ∃ last b, bc.chain.getLast? = some last ∧ bc1.chain = bc.chain ++ [b]
        ∧ b.index = (bc.chain.length : Int) ∧ b.previousHash = last.hash
        ∧ b.merkleRoot = MerkleTree.rootOfTransactions E b.transactions := by
  cases op with
  | addValidator name stake =>
    simp only [step, Option.some.injEq] at h
    rw [← h]; exact Or.inl rfl
  | setDifficulty d =>
    simp only [step, Option.some.injEq] at h
    rw [← h]
    unfold setDifficulty
    split_ifs <;> exact Or.inl rfl
  | addBlockPoW txs now fuel =>
    simp only [step, Option.map_eq_some'] at h
    obtain ⟨⟨ok, bc2⟩, hadd, hsnd⟩ := h
    simp only at hsnd
    subst hsnd
    rcases addBlockPoW_cases E txs now fuel bc ok bc2 hadd with
      ⟨_, hbc, _⟩ | ⟨_, _, last, b, hlast, hmine, hbc⟩
    · rw [hbc]; exact Or.inl rfl
    · right
      obtain ⟨hi, _, hp, hm, ht, _⟩ := Block.mineLoop_frame E _ _ _ _ hmine
      exact ⟨last, b, hlast, by rw [hbc], hi, hp, by rw [hm, ht]; rfl⟩
  | addBlockPoS txs now r =>
    simp only [step, Option.map_eq_some'] at h
    obtain ⟨⟨ok, bc2⟩, hadd, hsnd⟩ := h
    simp only at hsnd
    subst hsnd
    rcases addBlockPoS_cases E txs now r bc ok bc2 hadd with
      ⟨_, hbc, _⟩ | ⟨_, _, _, last, hlast, hbc⟩
    · rw [hbc]; exact Or.inl rfl
    · right
      exact ⟨last, _, hlast, by rw [hbc], rfl, rfl, rfl⟩

end Blockchain

/-! ## Chains built by the ledger are valid (C1) -/

namespace Blockchain

/-- A freshly mined block passes the loop body of `isChainValid` against
the block whose hash it was built on. -/
theorem checkBlock_mined (E : Env) (d : Nat) (pos : ProofOfStake) (last b : Block)
    (index : Int) (txs : List Transaction) (now : Int) (fuel : Nat)
    (htx : ∀ tx ∈ txs, tx.isValid = true)
    (hmine : Block.mineBlock E fuel d (Block.new E index last.hash txs now) = some b) :
    checkBlock E d pos last b = none := by
  rw [checkBlock_eq_none_iff]
  obtain ⟨_, _, hp, _, ht, hc, _⟩ := Block.mineLoop_frame E _ _ _ _ hmine
  refine ⟨hp, Block.mineLoop_hash E _ _ _ _ hmine rfl, ?_, ?_, ?_⟩
  · rw [ht]; exact htx
  · intro _
    exact (substr0_eq_zeros_iff _ _).1 (Block.mineLoop_target E _ _ _ _ hmine)
  · intro hpos
    rw [hc] at hpos
    cases hpos

/-- A block sealed by a registered validator passes the loop body of
`isChainValid` against the block whose hash it was built on. -/
theorem checkBlock_staked (E : Env) (d : Nat) (pos : ProofOfStake) (last : Block)
    (index : Int) (txs : List Transaction) (now : Int) (name : String)
    (htx : ∀ tx ∈ txs, tx.isValid = true) (hreg : Registered pos name) :
    checkBlock E d pos last
      (Block.validateBlock E name (Block.new E index last.hash txs now)) = none := by
  rw [checkBlock_eq_none_iff]
  refine ⟨rfl, rfl, htx, ?_, fun _ => hreg⟩
  intro hpow
  cases hpow

/-- Every call other than `setDifficulty` keeps a chain without diagnostic
free of diagnostics. -/
theorem step_valid (E : Env) (bc : Blockchain) (op : Op) (bc1 : Blockchain)
    (hop : op.isSetDifficulty = false) (hvalid : firstViolation E bc = none)
    (h : step E bc op = some bc1) : firstViolation E bc1 = none := by
  cases op with
  | setDifficulty d => cases hop
  | addValidator name stake =>
    simp only [step, Option.some.injEq] at h
    rw [← h]
    rw [firstViolation_eq_none_iff] at hvalid ⊢
    intro i hi1 hi2
    exact pairCheck_mono E _ bc.pos _ _ _
      (fun n hn => ProofOfStake.addValidator_registered name stake bc.pos n hn)
      (hvalid i hi1 hi2)
  | addBlockPoW txs now fuel =>
    simp only [step, Option.map_eq_some'] at h
    obtain ⟨⟨ok, bc2⟩, hadd, hsnd⟩ := h
    simp only at hsnd
    subst hsnd
    rcases addBlockPoW_cases E txs now fuel bc ok bc2 hadd with
      ⟨_, hbc, _⟩ | ⟨_, htx, last, b, hlast, hmine, hbc⟩
    · rw [hbc]; exact hvalid
    · rw [hbc]
      exact firstViolation_append E bc b last hlast hvalid
        (checkBlock_mined E _ _ last b _ txs now fuel htx hmine)
  | addBlockPoS txs now r =>
    simp only [step, Option.map_eq_some'] at h
    obtain ⟨⟨ok, bc2⟩, hadd, hsnd⟩ := h
    simp only at hsnd
    subst hsnd
    rcases addBlockPoS_cases E txs now r bc ok bc2 hadd with
      ⟨_, hbc, _⟩ | ⟨_, hcount, htx, last, hlast, hbc⟩
    · rw [hbc]; exact hvalid
    · rw [hbc]
      exact firstViolation_append E bc _ last hlast hvalid
        (checkBlock_staked E _ _ last _ txs now _ htx
          (ProofOfStake.selectValidator_registered r bc.pos hcount))

/-- The chain of a freshly constructed ledger is the sealed genesis block. -/
theorem new_chain (E : Env) (d : Int) (txNow blockNow : Int) (bc0 : Blockchain)
    (h : Blockchain.new E d txNow blockNow = some bc0) :
    bc0.chain = [Block.validateBlock E "System" (createGenesisBlock E txNow blockNow)] := by
  unfold Blockchain.new at h
  cases hp : ProofOfWork.new d with
  | none => rw [hp] at h; cases h
  | some pow =>
    rw [hp] at h
    simp only [Option.some.injEq] at h
    rw [← h]

/-- C1. For every difficulty the constructor accepts (in particular every
`d` with `1 ≤ d ≤ 8`) and every chain obtained from `Blockchain(d)` by a
finite sequence of `addValidator`, `addBlockPoW` and `addBlockPoS` calls
(each nonce search having terminated, no `setDifficulty` call, no validator
removed), `isChainValid` returns true. -/
theorem C1_built_chain_is_valid (E : Env) (d : Int) (txNow blockNow : Int)
    (ops : List Op) (bc0 bc : Blockchain)
    (hnew : Blockchain.new E d txNow blockNow = some bc0)
    (hops : ∀ op ∈ ops, op.isSetDifficulty = false)
    (hrun : run E bc0 ops = some bc) :
    isChainValid E bc = true := by
  rw [isChainValid_eq_true_iff]
  refine run_induction E (fun b => firstViolation E b = none)
    (fun op => op.isSetDifficulty = false) (fun b op b1 => step_valid E b op b1)
    ops bc0 bc hops ?_ hrun
  show firstViolation E bc0 = none
  unfold firstViolation
  rw [new_chain E d txNow blockNow bc0 hnew]
  rfl

/-- A run for C1: a validator is registered, one block is sealed by stake
and one is mined at difficulty 1. -/
theorem C1_built_chain_is_valid_witness :
    Blockchain.new sampleEnv 1 5 6 = some sampleGenesisLedger
    ∧ (∀ op ∈ sampleOps, op.isSetDifficulty = false)
    ∧ run sampleEnv sampleGenesisLedger sampleOps = some sampleLedger
    ∧ sampleLedger.chain.length = 3
    ∧ isChainValid sampleEnv sampleLedger = true :=
  ⟨by decide, by decide, by decide, by decide,
    C1_built_chain_is_valid sampleEnv 1 5 6 sampleOps sampleGenesisLedger sampleLedger
      (by decide) (by decide) (by decide)⟩

end Blockchain

/-! ## The verifier against the rules of the specification (C2, C3, C4) -/

namespace Blockchain

/-- C2. For every chain, registry and difficulty (in particular every `d`
with `1 ≤ d ≤ 8`), `isChainValid` returns true if and only if every index
`i` with `1 ≤ i < n` satisfies the five rules (linkage, stored hash equal to
the recomputed one, valid transactions, leading zeros for PROOF_OF_WORK,
registered validator for PROOF_OF_STAKE); it returns false exactly when it
writes a diagnostic, and the index of that diagnostic is the least index
violating one of the rules. -/
theorem C2_isChainValid_iff_rules (E : Env) (bc : Blockchain) :
    (isChainValid E bc = true ↔
      ∀ i, 1 ≤ i → i < bc.chain.length → BlockOk E bc.powDifficulty bc.pos bc.chain i)
    ∧ (isChainValid E bc = false ↔ ∃ i e, firstViolation E bc = some (i, e))
    ∧ ∀ i e, firstViolation E bc = some (i, e) →
        1 ≤ i ∧ i < bc.chain.length
        ∧ ¬ BlockOk E bc.powDifficulty bc.pos bc.chain i
        ∧ ∀ j, 1 ≤ j → j < i → BlockOk E bc.powDifficulty bc.pos bc.chain j := by
  refine ⟨?_, isChainValid_eq_false_iff E bc, ?_⟩
  · rw [isChainValid_eq_true_iff, firstViolation_eq_none_iff]
    constructor
    · intro h i h1 h2
      exact (pairCheck_eq_none_iff E _ _ _ i h1 h2).1 (h i h1 h2)
    · intro h i h1 h2
      exact (pairCheck_eq_none_iff E _ _ _ i h1 h2).2 (h i h1 h2)
  · intro i e h
    obtain ⟨h1, h2, hs, hbefore⟩ := (firstViolation_eq_some_iff E bc i e).1 h
    refine ⟨h1, h2, ?_, ?_⟩
    · intro hok
      rw [(pairCheck_eq_none_iff E _ _ _ i h1 h2).2 hok] at hs
      cases hs
    · intro j hj1 hj2
      exact (pairCheck_eq_none_iff E _ _ _ j hj1 (by omega)).1 (hbefore j hj1 hj2)

end Blockchain

namespace Blockchain

/-- The loop body of `isChainValid` reads only the stored hash of the
previous block. -/
theorem checkBlock_congr_previous (E : Env) (d : Nat) (pos : ProofOfStake) (p p1 c : Block)
    (h : p1.hash = p.hash) : checkBlock E d pos p1 c = checkBlock E d pos p c := by
  unfold checkBlock
  rw [h]

theorem scanFrom_congr_previous (E : Env) (d : Nat) (pos : ProofOfStake) (i : Nat)
    (p p1 : Block) (l : List Block) (h : p1.hash = p.hash) :
    scanFrom E d pos i p1 l = scanFrom E d pos i p l := by
  cases l with
  | nil => rfl
  | cons c rest =>
    unfold scanFrom
    rw [checkBlock_congr_previous E d pos p p1 c h]

/-- Whatever the hash function, the single-block ledger `staleGenesisLedger`
passes `isChainValid` although the stored hash of its genesis block is not
the hash recomputed from the block's fields. -/
theorem staleGenesisLedger_passes (E : Env) :
    isChainValid E (staleGenesisLedger E) = true
    ∧ ∃ g, (staleGenesisLedger E).chain[0]? = some g ∧ g.hash ≠ Block.calculateHash E g := by
  refine ⟨rfl, _, rfl, ?_⟩
  intro h
  change (Block.validateBlock E "System" (createGenesisBlock E 5 6)).hash ++ "x"
    = (Block.validateBlock E "System" (createGenesisBlock E 5 6)).hash at h
  have hlen := congrArg String.length h
  simp only [String.length_append] at hlen
  have e2 : "x".length = 1 := by decide
  omega

/-- C4, counterexample.  With the sample hash, the stored hash of the
genesis block of `staleGenesisLedger` differs from the hash recomputed from
its fields, and `isChainValid` returns true. -/
theorem C4_stale_genesis_passes :
    ((staleGenesisLedger sampleEnv).chain[0]?).map
        (fun g => decide (g.hash = Block.calculateHash sampleEnv g)) = some false
    ∧ isChainValid sampleEnv (staleGenesisLedger sampleEnv) = true := by
  constructor
  · decide
  · decide

/-- C4, amended.  The genesis block is exempt from the linkage check and
from the self-consistency check: the loop of `isChainValid` starts at index
1 and reads of the genesis block only its stored hash, for the linkage of
block 1.  Replacing the genesis block by any block with the same stored hash
changes neither the diagnostic nor the result, and a chain that is the
genesis block alone always passes. -/
theorem C4_genesis_is_not_verified (E : Env) (bc : Blockchain) (g g1 : Block)
    (rest : List Block) (hchain : bc.chain = g :: rest) (hhash : g1.hash = g.hash) :
    firstViolation E { bc with chain := g1 :: rest } = firstViolation E bc
    ∧ isChainValid E { bc with chain := g1 :: rest } = isChainValid E bc
    ∧ (rest = [] → isChainValid E bc = true) := by
  have h1 : firstViolation E { bc with chain := g1 :: rest } = firstViolation E bc := by
    unfold firstViolation
    rw [hchain]
    exact scanFrom_congr_previous E _ _ 1 g g1 rest hhash
  refine ⟨h1, ?_, ?_⟩
  · unfold isChainValid
    rw [h1]
  · intro hrest
    unfold isChainValid firstViolation
    rw [hchain, hrest]
    rfl

/-- An instance of the amended C4: the genesis block of `staleGenesisLedger`
may be replaced by one with another nonce and the same stored hash. -/
theorem C4_genesis_is_not_verified_witness :
    ∃ g, (staleGenesisLedger sampleEnv).chain = [g]
      ∧ firstViolation sampleEnv
          { staleGenesisLedger sampleEnv with chain := [{ g with nonce := 41 }] }
        = firstViolation sampleEnv (staleGenesisLedger sampleEnv)
      ∧ isChainValid sampleEnv
          { staleGenesisLedger sampleEnv with chain := [{ g with nonce := 41 }] }
        = isChainValid sampleEnv (staleGenesisLedger sampleEnv)
      ∧ (([] : List Block) = [] → isChainValid sampleEnv (staleGenesisLedger sampleEnv) = true) :=
  ⟨_, rfl,
    C4_genesis_is_not_verified sampleEnv (staleGenesisLedger sampleEnv) _ _ [] rfl rfl⟩

end Blockchain

/-! ## Tampering with a stored hash (C5) -/

namespace Blockchain

theorem replaceHash_eq_set (chain : List Block) (i : Nat) (h : String) (b : Block)
    (hb : chain[i]? = some b) :
    replaceHash chain i h = chain.set i { b with hash := h } := by
  unfold replaceHash
  rw [hb]

theorem getElem?_lt_length (chain : List Block) (i : Nat) (b : Block)
    (hb : chain[i]? = some b) : i < chain.length := by
  by_contra hge
  rw [List.getElem?_eq_none (by omega)] at hb
  cases hb

/-- A block whose stored hash is not the recomputed one, linked to its
predecessor, gets the diagnostic "Block is invalid". -/
theorem checkBlock_stale (E : Env) (d : Nat) (pos : ProofOfStake) (p c : Block)
    (hlink : c.previousHash = p.hash) (hstale : c.hash ≠ Block.calculateHash E c) :
    checkBlock E d pos p c = some ChainError.blockInvalid := by
  have hv : c.isValid E d = false := by
    unfold Block.isValid
    rw [if_pos hstale]
  unfold checkBlock
  rw [if_neg (by simpa using hlink), if_pos hv]

/-- C5, counterexample.  The sample ledger passes `isChainValid`; with the
stored hash of its genesis block (index 0) replaced by the different string
`"tampered"`, the first violation `isChainValid` reports is at index 1, not
at index 0. -/
theorem C5_genesis_tamper_reported_at_one :
    isChainValid sampleEnv sampleLedger = true
    ∧ (sampleLedger.chain[0]?).map (fun g => decide (g.hash = "tampered")) = some false
    ∧ firstViolation sampleEnv
        { sampleLedger with chain := replaceHash sampleLedger.chain 0 "tampered" }
      = some (1, ChainError.previousHashMismatch) := by
  refine ⟨?_, ?_, ?_⟩
  · decide
  · decide
  · decide

/-- C5, amended.  On a chain that passes `isChainValid`, replacing the
stored hash of the block at an index `i ≥ 1` by any different string makes
`isChainValid` return false, and the first violation it reports is at
exactly index `i` ("Block is invalid").  For the genesis block (`i = 0`) the
change is never reported at index 0: with two or more blocks the first
violation is the linkage of block 1, and a chain that is the genesis block
alone still passes. -/
theorem C5_tampered_hash_detected (E : Env) (bc : Blockchain) (i : Nat) (b : Block)
    (h : String) (hvalid : isChainValid E bc = true) (hb : bc.chain[i]? = some b)
    (hne : h ≠ b.hash) :
    (1 ≤ i →
      firstViolation E { bc with chain := replaceHash bc.chain i h }
        = some (i, ChainError.blockInvalid)
      ∧ isChainValid E { bc with chain := replaceHash bc.chain i h } = false)
    ∧ (i = 0 → 2 ≤ bc.chain.length →
      firstViolation E { bc with chain := replaceHash bc.chain i h }
        = some (1, ChainError.previousHashMismatch))
    ∧ (i = 0 → bc.chain.length = 1 →
      isChainValid E { bc with chain := replaceHash bc.chain i h } = true) := by
  have hlt := getElem?_lt_length bc.chain i b hb
  rw [replaceHash_eq_set bc.chain i h b hb]
  rw [isChainValid_eq_true_iff, firstViolation_eq_none_iff] at hvalid
  refine ⟨?_, ?_, ?_⟩
  · intro hi
    have hfirst : firstViolation E { bc with chain := bc.chain.set i { b with hash := h } }
        = some (i, ChainError.blockInvalid) := by
      rw [firstViolation_eq_some_iff]
      refine ⟨hi, by simpa using hlt, ?_, ?_⟩
      · have hold := hvalid i hi hlt
        show pairCheck E bc.powDifficulty bc.pos (bc.chain.set i { b with hash := h }) (i - 1)
          = some ChainError.blockInvalid
        unfold pairCheck at hold ⊢
        have e1 : i - 1 + 1 = i := by omega
        rw [e1] at hold ⊢
        rw [List.getElem?_set_ne (by omega), List.getElem?_set_self hlt]
        rw [hb] at hold
        cases hp : bc.chain[i - 1]? with
        | none =>
          rw [List.getElem?_eq_none_iff] at hp
          omega
        | some p =>
          rw [hp] at hold
          simp only at hold ⊢
          obtain ⟨hlink, hhash, _⟩ := (checkBlock_eq_none_iff E _ _ p b).1 hold
          apply checkBlock_stale
          · exact hlink
          · show h ≠ Block.calculateHash E b
            rw [← hhash]
            exact hne
      · intro j hj1 hj2
        have hold := hvalid j hj1 (by omega)
        show pairCheck E bc.powDifficulty bc.pos (bc.chain.set i { b with hash := h }) (j - 1)
          = none
        unfold pairCheck at hold ⊢
        have e1 : j - 1 + 1 = j := by omega
        rw [e1] at hold ⊢
        rw [List.getElem?_set_ne (by omega), List.getElem?_set_ne (by omega)]
        exact hold
    refine ⟨hfirst, ?_⟩
    rw [isChainValid_eq_false_iff]
    exact ⟨_, _, hfirst⟩
  · intro hi hlen
    subst hi
    rw [firstViolation_eq_some_iff]
    refine ⟨le_refl 1, by simpa using hlen, ?_, ?_⟩
    · have hold := hvalid 1 (le_refl 1) (by omega)
      show pairCheck E bc.powDifficulty bc.pos (bc.chain.set 0 { b with hash := h }) (1 - 1)
        = some ChainError.previousHashMismatch
      unfold pairCheck at hold ⊢
      simp only [Nat.sub_self, Nat.zero_add] at hold ⊢
      rw [List.getElem?_set_self hlt, List.getElem?_set_ne (by omega)]
      rw [hb] at hold
      cases hc : bc.chain[1]? with
      | none =>
        rw [List.getElem?_eq_none_iff] at hc
        omega
      | some c =>
        rw [hc] at hold
        simp only at hold ⊢
        obtain ⟨hlink, _⟩ := (checkBlock_eq_none_iff E _ _ b c).1 hold
        unfold checkBlock
        rw [if_pos]
        show c.previousHash ≠ h
        rw [hlink]
        exact fun heq => hne heq.symm
    · intro j hj1 hj2
      omega
  · intro hi hlen
    rw [isChainValid_eq_true_iff, firstViolation_eq_none_iff]
    intro j hj1 hj2
    simp only [List.length_set] at hj2
    omega

/-- An instance of the amended C5 on the sample ledger: tampering with the
mined block at index 2 is reported at index 2. -/
theorem C5_tampered_hash_detected_witness :
    ∃ b, sampleLedger.chain[2]? = some b ∧ "tampered" ≠ b.hash
      ∧ firstViolation sampleEnv
          { sampleLedger with chain := replaceHash sampleLedger.chain 2 "tampered" }
        = some (2, ChainError.blockInvalid)
      ∧ isChainValid sampleEnv
          { sampleLedger with chain := replaceHash sampleLedger.chain 2 "tampered" } = false :=
  ⟨_, rfl, by decide,
    (C5_tampered_hash_detected sampleEnv sampleLedger 2 _ "tampered" (by decide) rfl
      (by decide)).1 (by decide)⟩

end Blockchain

/-! ## Removing a validator that sealed a block (C6) -/

namespace consensus.ProofOfStake

/-- After `removeValidator(name)` the registered names are the old ones
except `name`. -/
theorem removeValidator_registered_iff (name : String) (pos : ProofOfStake) (n : String) :
    Registered (pos.removeValidator name).2 n ↔ Registered pos n ∧ n ≠ name := by
  unfold removeValidator Registered
  simp only
  split_ifs with hlen
  · constructor
    · rintro ⟨v, hv, hn⟩
      rw [List.mem_filter] at hv
      refine ⟨⟨v, hv.1, hn⟩, ?_⟩
      rw [← hn]
      simpa using hv.2
    · rintro ⟨⟨v, hv, hn⟩, hne⟩
      refine ⟨v, ?_, hn⟩
      rw [List.mem_filter]
      refine ⟨hv, ?_⟩
      rw [hn]
      simpa using hne
  · have hall := List.filter_length_eq_length.1 (not_not.1 hlen)
    constructor
    · rintro ⟨v, hv, hn⟩
      refine ⟨⟨v, hv, hn⟩, ?_⟩
      rw [← hn]
      simpa using hall v hv
    · rintro ⟨h, _⟩
      exact h

/-- The flag returned by `removeValidator(name)` tells whether `name` was
registered. -/
theorem removeValidator_flag (name : String) (pos : ProofOfStake) :
    (pos.removeValidator name).1 = true ↔ Registered pos name := by
  unfold removeValidator Registered
  simp only
  split_ifs with hlen
  · simp only [true_iff]
    by_contra hno
    apply hlen
    rw [List.filter_length_eq_length]
    intro a ha
    have : a.name ≠ name := fun hn => hno ⟨a, ha, hn⟩
    simpa using this
  · have hall := List.filter_length_eq_length.1 (not_not.1 hlen)
    simp only [Bool.false_eq_true, false_iff]
    rintro ⟨v, hv, hn⟩
    have := hall v hv
    rw [hn] at this
    simp at this

end consensus.ProofOfStake

namespace Blockchain

/-- A block that passes the first three tests of the loop body and is
sealed by a validator missing from the registry gets the diagnostic
"Invalid validator". -/
theorem checkBlock_unregistered (E : Env) (d : Nat) (pos : ProofOfStake) (p c : Block)
    (hlink : c.previousHash = p.hash) (hhash : c.hash = Block.calculateHash E c)
    (htx : ∀ tx ∈ c.transactions, tx.isValid = true)
    (hpos : c.consensusType = ConsensusType.PROOF_OF_STAKE)
    (hreg : ¬ Registered pos c.validator) :
    checkBlock E d pos p c = some ChainError.invalidValidator := by
  have hv : c.isValid E d = true := by
    rw [Block.isValid_eq_true_iff]
    refine ⟨hhash, ?_, htx⟩
    intro hpow
    rw [hpos] at hpow
    cases hpow
  have hvb : pos.validateBlock c.validator = false := by
    cases hx : pos.validateBlock c.validator
    · rfl
    · exact absurd ((ProofOfStake.validateBlock_eq_true_iff pos c.validator).1 hx) hreg
  unfold checkBlock
  rw [if_neg (by simpa using hlink), if_neg (by simp [hv]), if_neg, if_pos ⟨hpos, hvb⟩]
  rintro ⟨hpow, _⟩
  rw [hpos] at hpow
  cases hpow

/-- C6. On a chain and registry that pass `isChainValid`, let the block at
an index `i ≥ 1` be sealed by PROOF_OF_STAKE with validator name `v`.  Then
`removeValidator(v)` succeeds, and afterwards `isChainValid` returns false;
the diagnostic is at the least index `j ≥ 1` whose block is sealed by
PROOF_OF_STAKE with validator `v`, its rule is "Invalid validator", and every
block before `j` still satisfies all the rules. -/
theorem C6_removed_validator_detected (E : Env) (bc : Blockchain) (i : Nat) (b : Block)
    (v : String) (hvalid : isChainValid E bc = true) (hi : 1 ≤ i)
    (hb : bc.chain[i]? = some b)
    (hpos : b.consensusType = ConsensusType.PROOF_OF_STAKE) (hv : b.validator = v) :
    (bc.pos.removeValidator v).1 = true
    ∧ isChainValid E { bc with pos := (bc.pos.removeValidator v).2 } = false
    ∧ ∃ j c, 1 ≤ j ∧ j ≤ i ∧ bc.chain[j]? = some c
        ∧ c.consensusType = ConsensusType.PROOF_OF_STAKE ∧ c.validator = v
        ∧ (∀ k c1, 1 ≤ k → k < j → bc.chain[k]? = some c1 →
            ¬ (c1.consensusType = ConsensusType.PROOF_OF_STAKE ∧ c1.validator = v))
        ∧ firstViolation E { bc with pos := (bc.pos.removeValidator v).2 }
            = some (j, ChainError.invalidValidator)
        ∧ ∀ k, 1 ≤ k → k < j →
            BlockOk E bc.powDifficulty (bc.pos.removeValidator v).2 bc.chain k := by
  classical
  rw [isChainValid_eq_true_iff, firstViolation_eq_none_iff] at hvalid
  -- the rules hold at every scanned index of the original chain
  have hrules : ∀ k c1, 1 ≤ k → bc.chain[k]? = some c1 →
      ∃ p, bc.chain[k - 1]? = some p ∧ RulesHold E bc.powDifficulty bc.pos p c1 := by
    intro k c1 hk hc1
    have hlt := getElem?_lt_length bc.chain k c1 hc1
    have hok := (pairCheck_eq_none_iff E _ _ _ k hk hlt).1 (hvalid k hk hlt)
    unfold BlockOk at hok
    rw [hc1] at hok
    cases hp : bc.chain[k - 1]? with
    | none => rw [hp] at hok; exact hok.elim
    | some p => rw [hp] at hok; exact ⟨p, rfl, hok⟩
  -- the least scanned index sealed by `v`
  have hex : ∃ k, 1 ≤ k ∧ ∃ c, bc.chain[k]? = some c
      ∧ c.consensusType = ConsensusType.PROOF_OF_STAKE ∧ c.validator = v :=
    ⟨i, hi, b, hb, hpos, hv⟩
  obtain ⟨hj1, c, hc, hcpos, hcv⟩ := Nat.find_spec hex
  have hji : Nat.find hex ≤ i := Nat.find_min' hex ⟨hi, b, hb, hpos, hv⟩
  have hmin : ∀ k c1, 1 ≤ k → k < Nat.find hex → bc.chain[k]? = some c1 →
      ¬ (c1.consensusType = ConsensusType.PROOF_OF_STAKE ∧ c1.validator = v) := by
    intro k c1 hk hlt hc1 hboth
    exact Nat.find_min hex hlt ⟨hk, c1, hc1, hboth⟩
  have hjlt := getElem?_lt_length bc.chain _ c hc
  -- `v` was registered, so it is removed
  obtain ⟨p, hp, hpc⟩ := hrules _ c hj1 hc
  have hregv : Registered bc.pos v := by
    rw [← hcv]
    exact hpc.2.2.2.2 hcpos
  have hgone : ¬ Registered (bc.pos.removeValidator v).2 c.validator := by
    rw [ProofOfStake.removeValidator_registered_iff]
    rintro ⟨_, hne⟩
    exact hne hcv
  -- blocks before `j` still pass
  have hbefore : ∀ k, 1 ≤ k → k < Nat.find hex →
      pairCheck E bc.powDifficulty (bc.pos.removeValidator v).2 bc.chain (k - 1) = none := by
    intro k hk hlt
    have hklen : k < bc.chain.length := by omega
    rw [pairCheck_eq_none_iff E _ _ _ k hk hklen]
    unfold BlockOk
    have hck : bc.chain[k]? = some (bc.chain[k]) := List.getElem?_eq_getElem hklen
    obtain ⟨q, hq, hqc⟩ := hrules k _ hk hck
    rw [hq, hck]
    refine ⟨hqc.1, hqc.2.1, hqc.2.2.1, hqc.2.2.2.1, ?_⟩
    intro hcp
    rw [ProofOfStake.removeValidator_registered_iff]
    refine ⟨hqc.2.2.2.2 hcp, ?_⟩
    intro hcv2
    exact hmin k _ hk hlt hck ⟨hcp, hcv2⟩
  have hfirst : firstViolation E { bc with pos := (bc.pos.removeValidator v).2 }
      = some (Nat.find hex, ChainError.invalidValidator) := by
    rw [firstViolation_eq_some_iff]
    refine ⟨hj1, hjlt, ?_, hbefore⟩
    show pairCheck E bc.powDifficulty (bc.pos.removeValidator v).2 bc.chain (Nat.find hex - 1)
      = some ChainError.invalidValidator
    unfold pairCheck
    have e1 : Nat.find hex - 1 + 1 = Nat.find hex := by omega
    rw [e1, hp, hc]
    exact checkBlock_unregistered E _ _ p c hpc.1 hpc.2.1 hpc.2.2.1 hcpos hgone
  refine ⟨(ProofOfStake.removeValidator_flag v bc.pos).2 hregv, ?_, Nat.find hex, c, hj1, hji,
    hc, hcpos, hcv, hmin, hfirst, ?_⟩
  · rw [isChainValid_eq_false_iff]
    exact ⟨_, _, hfirst⟩
  · intro k hk hlt
    exact (pairCheck_eq_none_iff E _ _ _ k hk (by omega)).1 (hbefore k hk hlt)

/-- An instance of C6 on the sample ledger: block 1 was sealed by `alice`;
once `alice` is removed the scan stops at block 1 with "Invalid validator". -/
theorem C6_removed_validator_detected_witness :
    ∃ b, sampleLedger.chain[1]? = some b
      ∧ b.consensusType = ConsensusType.PROOF_OF_STAKE ∧ b.validator = "alice"
      ∧ isChainValid sampleEnv sampleLedger = true
      ∧ isChainValid sampleEnv
          { sampleLedger with pos := (sampleLedger.pos.removeValidator "alice").2 } = false
      ∧ firstViolation sampleEnv
          { sampleLedger with pos := (sampleLedger.pos.removeValidator "alice").2 }
        = some (1, ChainError.invalidValidator) :=
  ⟨_, rfl, by decide, by decide, by decide,
    (C6_removed_validator_detected sampleEnv sampleLedger 1 _ "alice" (by decide)
      (by decide) rfl (by decide) (by decide)).2.1,
    by decide⟩

end Blockchain

/-! ## Invariants of the chain state (C7, C10) -/

namespace Blockchain

theorem getLast?_eq_getElem?_pred (chain : List Block) (last : Block)
    (h : chain.getLast? = some last) :
    0 < chain.length ∧ chain[chain.length - 1]? = some last := by
  have hne : chain ≠ [] := by
    intro hnil
    rw [hnil] at h
    cases h
  rw [List.getLast?_eq_getElem?] at h
  exact ⟨List.length_pos.2 hne, h⟩

/-- C7. Linkage is an invariant of the chain state: in every chain reached
from the `Blockchain` constructor by any sequence of `addBlockPoW`,
`addBlockPoS`, `addValidator` and `setDifficulty` calls, for every `i > 0`
inside the chain, `chain[i].previousHash` equals `chain[i-1].hash`. -/
theorem C7_linkage_invariant (E : Env) (d : Int) (txNow blockNow : Int)
    (ops : List Op) (bc0 bc : Blockchain)
    (hnew : Blockchain.new E d txNow blockNow = some bc0)
    (hrun : run E bc0 ops = some bc) :
    ∀ i, 0 < i → i < bc.chain.length →
      ∃ p c, bc.chain[i - 1]? = some p ∧ bc.chain[i]? = some c ∧ c.previousHash = p.hash := by
  refine run_induction E
    (fun s => ∀ i, 0 < i → i < s.chain.length →
      ∃ p c, s.chain[i - 1]? = some p ∧ s.chain[i]? = some c ∧ c.previousHash = p.hash)
    (fun _ => True) ?_ ops bc0 bc (fun _ _ => trivial) ?_ hrun
  · intro s op s1 _ hP hstep
    rcases step_chain E s op s1 hstep with hsame | ⟨last, b, hlast, happ, _, hprev, _⟩
    · rw [hsame]; exact hP
    · intro i hi0 hi
      rw [happ] at hi ⊢
      simp only [List.length_append, List.length_singleton] at hi
      obtain ⟨hlen, hlastidx⟩ := getLast?_eq_getElem?_pred s.chain last hlast
      by_cases hlt : i < s.chain.length
      · obtain ⟨p, c, hp, hc, hpc⟩ := hP i hi0 hlt
        refine ⟨p, c, ?_, ?_, hpc⟩
        · rw [List.getElem?_append_left (by omega)]; exact hp
        · rw [List.getElem?_append_left hlt]; exact hc
      · have hieq : i = s.chain.length := by omega
        refine ⟨last, b, ?_, ?_, hprev⟩
        · rw [hieq, List.getElem?_append_left (by omega)]; exact hlastidx
        · rw [hieq]; exact List.getElem?_concat_length _ _
  · intro i hi0 hi
    rw [new_chain E d txNow blockNow bc0 hnew] at hi
    simp only [List.length_singleton] at hi
    omega

/-- An instance of C7: block 2 of the sample ledger is linked to block 1. -/
theorem C7_linkage_invariant_witness :
    Blockchain.new sampleEnv 1 5 6 = some sampleGenesisLedger
    ∧ run sampleEnv sampleGenesisLedger sampleOps = some sampleLedger
    ∧ ∃ p c, sampleLedger.chain[2 - 1]? = some p ∧ sampleLedger.chain[2]? = some c
        ∧ c.previousHash = p.hash :=
  ⟨by decide, by decide,
    C7_linkage_invariant sampleEnv 1 5 6 sampleOps sampleGenesisLedger sampleLedger
      (by decide) (by decide) 2 (by decide) (by decide)⟩

end Blockchain

namespace Blockchain

/-- C10. The chain is append-only with consecutive indices: a successful
`addBlockPoW` or `addBlockPoS` appends exactly one block, whose index is the
previous chain length, and leaves the earlier blocks as they were; so every
chain reached from the constructor extends the initial chain, is non-empty,
has the sealed genesis block with index 0 at position 0, and
`chain[i].index = i` for every position `i`. -/
theorem C10_append_only_consecutive (E : Env) (d : Int) (txNow blockNow : Int)
    (ops : List Op) (bc0 bc : Blockchain)
    (hnew : Blockchain.new E d txNow blockNow = some bc0)
    (hrun : run E bc0 ops = some bc) :
    (∀ txs now fuel bc1, bc.addBlockPoW E txs now fuel = some (true, bc1) →
      ∃ b, bc1.chain = bc.chain ++ [b] ∧ b.index = (bc.chain.length : Int))
    ∧ (∀ txs now r bc1, bc.addBlockPoS E txs now r = some (true, bc1) →
      ∃ b, bc1.chain = bc.chain ++ [b] ∧ b.index = (bc.chain.length : Int))
    ∧ bc0.chain <+: bc.chain
    ∧ bc.chain ≠ []
    ∧ bc.chain[0]? = some (Block.validateBlock E "System" (createGenesisBlock E txNow blockNow))
    ∧ (Block.validateBlock E "System" (createGenesisBlock E txNow blockNow)).index = 0
    ∧ ∀ i, i < bc.chain.length → ∃ b, bc.chain[i]? = some b ∧ b.index = (i : Int) := by
  have hgen := new_chain E d txNow blockNow bc0 hnew
  refine ⟨?_, ?_, ?_⟩
  · intro txs now fuel bc1 hadd
    rcases addBlockPoW_cases E txs now fuel bc true bc1 hadd with
      ⟨hfalse, _⟩ | ⟨_, _, last, b, _, hmine, hbc⟩
    · cases hfalse
    · exact ⟨b, by rw [hbc], (Block.mineLoop_frame E _ _ _ _ hmine).1⟩
  · intro txs now r bc1 hadd
    rcases addBlockPoS_cases E txs now r bc true bc1 hadd with
      ⟨hfalse, _⟩ | ⟨_, _, _, last, _, hbc⟩
    · cases hfalse
    · exact ⟨_, by rw [hbc], rfl⟩
  · have hinv := run_induction E
      (fun s => bc0.chain <+: s.chain
        ∧ ∀ i, i < s.chain.length → ∃ b, s.chain[i]? = some b ∧ b.index = (i : Int))
      (fun _ => True) ?_ ops bc0 bc (fun _ _ => trivial) ?_ hrun
    · obtain ⟨hpre, hidx⟩ := hinv
      have hpos : 0 < bc.chain.length := by
        have := hpre.length_le
        rw [hgen] at this
        simp only [List.length_singleton] at this
        omega
      refine ⟨hpre, List.length_pos.1 hpos, ?_, rfl, hidx⟩
      obtain ⟨t, ht⟩ := hpre
      rw [← ht, hgen]
      simp
    · intro s op s1 _ hP hstep
      rcases step_chain E s op s1 hstep with hsame | ⟨last, b, _, happ, hindex, _, _⟩
      · rw [hsame]; exact hP
      · rw [happ]
        refine ⟨hP.1.trans (List.prefix_append _ _), ?_⟩
        intro i hi
        simp only [List.length_append, List.length_singleton] at hi
        by_cases hlt : i < s.chain.length
        · obtain ⟨c, hc, hci⟩ := hP.2 i hlt
          exact ⟨c, by rw [List.getElem?_append_left hlt]; exact hc, hci⟩
        · have hieq : i = s.chain.length := by omega
          refine ⟨b, ?_, ?_⟩
          · rw [hieq]; exact List.getElem?_concat_length _ _
          · rw [hieq]; exact hindex
    · refine ⟨List.prefix_refl _, ?_⟩
      intro i hi
      rw [hgen] at hi ⊢
      simp only [List.length_singleton] at hi
      have hi0 : i = 0 := by omega
      subst hi0
      exact ⟨_, rfl, rfl⟩

/-- An instance of C10 on the sample ledger: its three blocks have the
indices 0, 1, 2 and its first block is the sealed genesis block. -/
theorem C10_append_only_consecutive_witness :
    Blockchain.new sampleEnv 1 5 6 = some sampleGenesisLedger
    ∧ run sampleEnv sampleGenesisLedger sampleOps = some sampleLedger
    ∧ sampleLedger.chain.map Block.index = [0, 1, 2]
    ∧ sampleGenesisLedger.chain <+: sampleLedger.chain
    ∧ sampleLedger.chain ≠ []
    ∧ sampleLedger.chain[0]?
        = some (Block.validateBlock sampleEnv "System" (createGenesisBlock sampleEnv 5 6)) :=
  ⟨by decide, by decide, by decide,
    (C10_append_only_consecutive sampleEnv 1 5 6 sampleOps sampleGenesisLedger sampleLedger
      (by decide) (by decide)).2.2.1,
    by decide, by decide⟩

/-! ## Sealing keeps the stored hash fresh (C8) -/

/-- C8. The stored block hash is never stale: after the `Block`
constructor, after `mineBlock` (when it terminates) applied to a block whose
stored hash equals the recomputed one, and after `validateBlock`, the stored
hash equals `calculateHash` over the block's current index, timestamp,
previousHash, merkleRoot, nonce and validator. -/
theorem C8_hash_never_stale (E : Env) :
    (∀ (index : Int) (previousHash : String) (txs : List Transaction) (now : Int),
      (Block.new E index previousHash txs now).hash
        = Block.calculateHash E (Block.new E index previousHash txs now))
    ∧ (∀ (fuel d : Nat) (b b1 : Block), b.hash = Block.calculateHash E b →
        Block.mineBlock E fuel d b = some b1 → b1.hash = Block.calculateHash E b1)
    ∧ (∀ (name : String) (b : Block),
        (Block.validateBlock E name b).hash
          = Block.calculateHash E (Block.validateBlock E name b))
    ∧ (∀ b : Block, Block.calculateHash E b
        = E.sha256 (toString b.index ++ toString b.timestamp ++ b.previousHash ++ b.merkleRoot
            ++ toString b.nonce ++ b.validator)) := by
  refine ⟨fun _ _ _ _ => rfl, ?_, fun _ _ => rfl, fun _ => rfl⟩
  intro fuel d b b1 hb hmine
  exact Block.mineLoop_hash E d fuel _ b1 hmine hb

/-- An instance of C8: mining the block built on hash `"4"` at difficulty 1
with the sample hash stops at nonce 2 with a fresh stored hash. -/
theorem C8_hash_never_stale_witness :
    ∃ b1, Block.mineBlock sampleEnv 10 1 (Block.new sampleEnv 2 "4" [] 8) = some b1
      ∧ b1.nonce = 2
      ∧ b1.hash = Block.calculateHash sampleEnv b1 :=
  ⟨_, rfl, by decide,
    (C8_hash_never_stale sampleEnv).2.1 10 1 (Block.new sampleEnv 2 "4" [] 8) _ rfl rfl⟩

end Blockchain

/-! ## Refused additions leave the chain alone (C9) -/

namespace Blockchain

/-- C9. Adding a block is atomic on failure.  `addBlockPoW` returns false
and leaves the ledger unchanged whenever some transaction of the batch fails
`Transaction::isValid`; `addBlockPoS` returns false and leaves the ledger
unchanged whenever the registry is empty or some transaction of the batch
fails `Transaction::isValid`.  In every other case each returns true with
one block appended: `addBlockPoW` whenever its nonce search terminates,
`addBlockPoS` always (the chain of a ledger holds at least the genesis
block, so `chain.back()` is defined). -/
theorem C9_add_block_atomic (E : Env) (txs : List Transaction) (now : Int)
    (bc : Blockchain) :
    (∀ fuel, (∃ tx ∈ txs, tx.isValid = false) →
      bc.addBlockPoW E txs now fuel = some (false, bc))
    ∧ (∀ r, (bc.pos.validators = [] ∨ ∃ tx ∈ txs, tx.isValid = false) →
      bc.addBlockPoS E txs now r = some (false, bc))
    ∧ (∀ fuel ok bc1, (∀ tx ∈ txs, tx.isValid = true) →
      bc.addBlockPoW E txs now fuel = some (ok, bc1) → ok = true)
    ∧ (∀ r ok bc1, bc.pos.validators ≠ [] → (∀ tx ∈ txs, tx.isValid = true) →
      bc.addBlockPoS E txs now r = some (ok, bc1) → ok = true)
    ∧ (∀ fuel last b, (∀ tx ∈ txs, tx.isValid = true) → bc.chain.getLast? = some last →
      Block.mineBlock E fuel bc.powDifficulty
        (Block.new E (bc.chain.length : Int) last.hash txs now) = some b →
      bc.addBlockPoW E txs now fuel = some (true, { bc with chain := bc.chain ++ [b] }))
    ∧ (∀ r last, bc.pos.validators ≠ [] → (∀ tx ∈ txs, tx.isValid = true) →
      bc.chain.getLast? = some last →
      bc.addBlockPoS E txs now r = some (true, { bc with chain := bc.chain ++
        [Block.validateBlock E (bc.pos.selectValidator r)
          (Block.new E (bc.chain.length : Int) last.hash txs now)] })) := by
  have hcount : bc.pos.getValidatorCount = 0 ↔ bc.pos.validators = [] := by
    unfold ProofOfStake.getValidatorCount
    exact List.length_eq_zero
  refine ⟨?_, ?_, ?_, ?_, ?_, ?_⟩
  · intro fuel hbad
    unfold addBlockPoW
    rw [if_pos ((any_invalid_eq_true_iff txs).2 hbad)]
  · intro r hbad
    unfold addBlockPoS
    rcases hbad with hempty | hbad
    · rw [if_pos (hcount.2 hempty)]
    · by_cases hc : bc.pos.getValidatorCount = 0
      · rw [if_pos hc]
      · rw [if_neg hc, if_pos ((any_invalid_eq_true_iff txs).2 hbad)]
  · intro fuel ok bc1 hall hadd
    rcases addBlockPoW_cases E txs now fuel bc ok bc1 hadd with
      ⟨_, _, tx, htx, hv⟩ | ⟨hok, _⟩
    · rw [hall tx htx] at hv
      cases hv
    · exact hok
  · intro r ok bc1 hne hall hadd
    rcases addBlockPoS_cases E txs now r bc ok bc1 hadd with
      ⟨_, _, hempty | ⟨tx, htx, hv⟩⟩ | ⟨hok, _⟩
    · exact absurd (hcount.1 hempty) hne
    · rw [hall tx htx] at hv
      cases hv
    · exact hok
  · intro fuel last b hall hlast hmine
    have hany : ¬ (txs.any (fun tx => !tx.isValid) = true) := by
      rw [(any_invalid_eq_false_iff txs).2 hall]
      simp
    unfold addBlockPoW getLastBlock
    rw [if_neg hany, hlast]
    simp only
    rw [hmine]
  · intro r last hne hall hlast
    have hany : ¬ (txs.any (fun tx => !tx.isValid) = true) := by
      rw [(any_invalid_eq_false_iff txs).2 hall]
      simp
    have hc : ¬ bc.pos.getValidatorCount = 0 := fun h => hne (hcount.1 h)
    unfold addBlockPoS getLastBlock
    rw [if_neg hc, if_neg hany, hlast]

/-- An instance of C9 on the sample ledger: a batch holding a transaction
with an empty sender is refused by `addBlockPoW`, and the ledger is
unchanged. -/
theorem C9_add_block_atomic_witness :
    (∃ tx ∈ [({ id := "t1", sender := "", receiver := "bob", amount := 1, timestamp := 9 }
        : Transaction)], tx.isValid = false)
    ∧ sampleLedger.addBlockPoW sampleEnv
        [{ id := "t1", sender := "", receiver := "bob", amount := 1, timestamp := 9 }] 9 10
      = some (false, sampleLedger) :=
  ⟨by decide,
    (C9_add_block_atomic sampleEnv
      [{ id := "t1", sender := "", receiver := "bob", amount := 1, timestamp := 9 }] 9
      sampleLedger).1 10 (by decide)⟩

end Blockchain

/-! ## The level loop of the Merkle tree stops within its bound -/

namespace MerkleTree

theorem pairUp_length (E : Env) : ∀ l : List String, (pairUp E l).length = l.length / 2
  | [] => rfl
  | [_] => by simp [pairUp]
  | a :: b :: rest => by
    simp only [pairUp, List.length_cons, pairUp_length E rest]
    omega

theorem dupLast_length (l : List String) :
    (dupLast l).length = l.length + l.length % 2 := by
  unfold dupLast
  split_ifs with hodd
  · cases hl : l.getLast? with
    | none =>
      rw [List.getLast?_eq_none_iff] at hl
      rw [hl] at hodd
      simp at hodd
    | some x =>
      simp only [List.length_append, List.length_singleton]
      omega
  · omega

/-- With as many iterations as the level has nodes, the loop of
`buildTreeIterative` ends on a level of exactly one node. -/
theorem levelLoop_length (E : Env) :
    ∀ (fuel : Nat) (l : List String), 1 ≤ l.length → l.length ≤ fuel + 1 →
      (levelLoop E fuel l).length = 1 := by
  intro fuel
  induction fuel with
  | zero =>
    intro l h1 h2
    simp only [levelLoop]
    omega
  | succ n ih =>
    intro l h1 h2
    unfold levelLoop
    split_ifs with hgt
    · apply ih
      · rw [pairUp_length, dupLast_length]; omega
      · rw [pairUp_length, dupLast_length]; omega
    · omega

end MerkleTree

end blockchain

namespace blockchain

open consensus

/-! ## The genesis block (C11) -/

namespace Blockchain

theorem zeroDigest_eq_zeros : zeroDigest = zeros 64 := by decide

/-- C11. The genesis block of a freshly constructed `Blockchain` is the only
block of the chain; it has index 0, a `previousHash` of 64 characters `'0'`
and exactly one transaction, its stored hash equals the hash recomputed
from its fields, and its stored `merkleRoot` equals the Merkle root
recomputed from its transaction list. -/
theorem C11_genesis_block (E : Env) (d : Int) (txNow blockNow : Int) (bc0 : Blockchain)
    (hnew : Blockchain.new E d txNow blockNow = some bc0) :
    ∃ g, bc0.chain = [g]
      ∧ g.index = 0
      ∧ g.previousHash = zeros 64
      ∧ g.transactions.length = 1
      ∧ g.hash = Block.calculateHash E g
      ∧ g.merkleRoot = MerkleTree.rootOfTransactions E g.transactions := by
  refine ⟨_, new_chain E d txNow blockNow bc0 hnew, rfl, ?_, rfl, rfl, rfl⟩
  exact zeroDigest_eq_zeros

/-- An instance of C11: the genesis block of the sample ledger. -/
theorem C11_genesis_block_witness :
    Blockchain.new sampleEnv 1 5 6 = some sampleGenesisLedger
    ∧ ∃ g, sampleGenesisLedger.chain = [g]
      ∧ g.index = 0
      ∧ g.previousHash = zeros 64
      ∧ g.transactions.length = 1
      ∧ g.hash = Block.calculateHash sampleEnv g
      ∧ g.merkleRoot = MerkleTree.rootOfTransactions sampleEnv g.transactions :=
  ⟨by decide, C11_genesis_block sampleEnv 1 5 6 sampleGenesisLedger (by decide)⟩

end Blockchain

/-! ## Small Merkle trees (C15, C16, C17) -/

namespace MerkleTree

/-- C15. For every leaf `a`, the Merkle root of the single-leaf list `[a]`
is `a` itself, whatever the hash function: no hashing is applied. -/
theorem C15_single_leaf_root (E : Env) (a : String) :
    rootOfHashes E [a] = a ∧ buildTreeIterative E [a] = a := by
  simp [rootOfHashes, buildTreeIterative]

theorem rootOfHashes_pair (E : Env) (a b : String) :
    rootOfHashes E [a, b] = E.sha256 (a ++ b) := by
  simp [rootOfHashes, buildTreeIterative, levelLoop, dupLast, pairUp]

theorem rootOfHashes_triple (E : Env) (a b c : String) :
    rootOfHashes E [a, b, c] = E.sha256 (E.sha256 (a ++ b) ++ E.sha256 (c ++ c)) := by
  simp [rootOfHashes, buildTreeIterative, levelLoop, dupLast, pairUp]

theorem rootOfHashes_quadruple (E : Env) (a b c d : String) :
    rootOfHashes E [a, b, c, d] = E.sha256 (E.sha256 (a ++ b) ++ E.sha256 (c ++ d)) := by
  simp [rootOfHashes, buildTreeIterative, levelLoop, dupLast, pairUp]

set_option maxRecDepth 100000 in
/-- C16, counterexample.  With SHA-256 as the hash, the Merkle root of
`["A"]` is `"A"`, the Merkle root of `["A", "A"]` is the digest of `"AA"`,
and they differ. -/
theorem C16_single_and_doubled_leaf_differ :
    rootOfHashes shaEnv ["A"] = "A"
    ∧ rootOfHashes shaEnv ["A", "A"]
        = "58bb119c35513a451d24dc20ef0e9031ec85b35bfc919d263e7e5d9868909cb5"
    ∧ rootOfHashes shaEnv ["A"] ≠ rootOfHashes shaEnv ["A", "A"] := by
  refine ⟨by decide, ?_, ?_⟩
  · decide
  · decide

/-- C16, amended.  For every leaf `a`, the Merkle root of `[a]` is `a`
itself, while the Merkle root of `[a, a]` is `sha256(a ++ a)`; the two are
equal exactly when `sha256(a ++ a) = a`.  The odd-duplication rule applies
where the level loop runs, from three nodes on: the root of `[a, b, c]`
equals the root of `[a, b, c, c]`. -/
theorem C16_doubled_leaf_root (E : Env) (a b c : String) :
    rootOfHashes E [a] = a
    ∧ rootOfHashes E [a, a] = E.sha256 (a ++ a)
    ∧ (rootOfHashes E [a] = rootOfHashes E [a, a] ↔ E.sha256 (a ++ a) = a)
    ∧ rootOfHashes E [a, b, c] = rootOfHashes E [a, b, c, c] := by
  have h1 : rootOfHashes E [a] = a := by
    simp [rootOfHashes, buildTreeIterative]
  refine ⟨h1, rootOfHashes_pair E a a, ?_, ?_⟩
  · rw [rootOfHashes_pair, h1]
    exact eq_comm
  · rw [rootOfHashes_triple, rootOfHashes_quadruple]

/-- C17. For every three leaves `a`, `b`, `c`, the Merkle root of
`[a, b, c]` equals `sha256(sha256(a ++ b) ++ sha256(c ++ c))`, with `++` the
concatenation of the strings: the last node of the odd level is paired with
a copy of itself. -/
theorem C17_three_leaf_root (E : Env) (a b c : String) :
    rootOfHashes E [a, b, c] = E.sha256 (E.sha256 (a ++ b) ++ E.sha256 (c ++ c)) := by
  simp [rootOfHashes, buildTreeIterative, levelLoop, dupLast, pairUp]

set_option maxRecDepth 100000 in
/-- The three-leaf tree over `"A"`, `"B"`, `"C"` with SHA-256 as the hash:
its root is the digest of the two concatenated pair digests. -/
theorem three_leaf_root_ABC :
    rootOfHashes shaEnv ["A", "B", "C"]
      = crypto.sha256 (crypto.sha256 "AB" ++ crypto.sha256 "CC")
    ∧ rootOfHashes shaEnv ["A", "B", "C"]
      = "d4615e911eb989ec8464e234308111abdeb249b8678fc892706b2ef7a8f563e1" := by
  refine ⟨by decide, ?_⟩
  decide

end MerkleTree

end blockchain

namespace blockchain

open consensus

/-! ## Mining a fresh block (C19) -/

namespace Block

/-- C19. For every freshly constructed block and every difficulty `d` (in
particular `1 ≤ d ≤ 8`), if `mineBlock(d)` terminates then the stored hash
begins with `d` characters `'0'`, `consensusType` is PROOF_OF_WORK,
`validator` is still the empty string, and `index`, `timestamp`,
`previousHash`, `merkleRoot` and `transactions` are those the constructor
set. -/
theorem C19_mined_block (E : Env) (index : Int) (previousHash : String)
    (txs : List Transaction) (now : Int) (fuel d : Nat) (b1 : Block)
    (hmine : mineBlock E fuel d (Block.new E index previousHash txs now) = some b1) :
    StartsWithZeros b1.hash d
    ∧ substr0 b1.hash d = zeros d
    ∧ b1.consensusType = ConsensusType.PROOF_OF_WORK
    ∧ b1.validator = ""
    ∧ b1.index = index
    ∧ b1.timestamp = now
    ∧ b1.previousHash = previousHash
    ∧ b1.merkleRoot = MerkleTree.rootOfTransactions E txs
    ∧ b1.transactions = txs := by
  obtain ⟨h1, h2, h3, h4, h5, h6, h7⟩ := mineLoop_frame E d fuel _ b1 hmine
  have ht := mineLoop_target E d fuel _ b1 hmine
  exact ⟨(substr0_eq_zeros_iff _ _).1 ht, ht, h6, h7, h1, h2, h3, h4, h5⟩

/-- An instance of C19: mining the fresh block built on hash `"4"` at
difficulty 1 with the sample hash. -/
theorem C19_mined_block_witness :
    ∃ b1, mineBlock sampleEnv 10 1 (Block.new sampleEnv 2 "4" [] 8) = some b1
      ∧ b1.hash = "0" ∧ b1.nonce = 2
      ∧ StartsWithZeros b1.hash 1
      ∧ b1.consensusType = ConsensusType.PROOF_OF_WORK
      ∧ b1.validator = "" :=
  ⟨_, rfl, by decide, by decide,
    (C19_mined_block sampleEnv 2 "4" [] 8 10 1 _ rfl).1,
    (C19_mined_block sampleEnv 2 "4" [] 8 10 1 _ rfl).2.2.1,
    (C19_mined_block sampleEnv 2 "4" [] 8 10 1 _ rfl).2.2.2.1⟩

end Block

/-! ## Changing the difficulty (C20) -/

namespace Blockchain

/-- C20. `setDifficulty` of `ProofOfWork` and of `Blockchain` with a value
outside `[1, 8]` leaves the object unchanged, difficulty and target
included; with a value `v` inside `[1, 8]` it sets the difficulty to `v`
and the target to the string of `v` characters `'0'` and changes nothing
else.  The value is never clamped. -/
theorem C20_setDifficulty (v : Int) (p : ProofOfWork) (bc : Blockchain) :
    ((v < 1 ∨ 8 < v) → p.setDifficulty v = p ∧ bc.setDifficulty v = bc)
    ∧ ((1 ≤ v ∧ v ≤ 8) →
        ((p.setDifficulty v).difficulty : Int) = v
        ∧ (p.setDifficulty v).target = zeros v.toNat
        ∧ ((bc.setDifficulty v).powDifficulty : Int) = v
        ∧ ((bc.setDifficulty v).pow.difficulty : Int) = v
        ∧ (bc.setDifficulty v).pow.target = zeros v.toNat
        ∧ (bc.setDifficulty v).chain = bc.chain
        ∧ (bc.setDifficulty v).pos = bc.pos) := by
  constructor
  · intro hout
    have hcond : v < 1 ∨ v > 8 := hout
    constructor
    · unfold ProofOfWork.setDifficulty
      rw [if_pos hcond]
    · unfold setDifficulty
      rw [if_pos hcond]
  · intro hin
    have hcond : ¬ (v < 1 ∨ v > 8) := by omega
    have hnat : ((v.toNat : Nat) : Int) = v := Int.toNat_of_nonneg (by omega)
    have hp : p.setDifficulty v = { difficulty := v.toNat, target := zeros v.toNat } := by
      unfold ProofOfWork.setDifficulty
      rw [if_neg hcond]
    have hpow : bc.pow.setDifficulty v = { difficulty := v.toNat, target := zeros v.toNat } := by
      unfold ProofOfWork.setDifficulty
      rw [if_neg hcond]
    have hb : bc.setDifficulty v
        = { bc with powDifficulty := v.toNat, pow := bc.pow.setDifficulty v } := by
      unfold setDifficulty
      rw [if_neg hcond]
    rw [hp, hb, hpow]
    exact ⟨hnat, rfl, hnat, hnat, rfl, rfl, rfl⟩

/-- Instances of C20 on the sample ledger: 9 and 0 are refused, 3 is
taken. -/
theorem C20_setDifficulty_witness :
    sampleLedger.setDifficulty 9 = sampleLedger
    ∧ sampleLedger.setDifficulty 0 = sampleLedger
    ∧ sampleLedger.pow.setDifficulty 9 = sampleLedger.pow
    ∧ ((sampleLedger.setDifficulty 3).powDifficulty : Int) = 3
    ∧ (sampleLedger.setDifficulty 3).pow.target = "000" :=
  ⟨((C20_setDifficulty 9 sampleLedger.pow sampleLedger).1 (by decide)).2,
    ((C20_setDifficulty 0 sampleLedger.pow sampleLedger).1 (by decide)).2,
    ((C20_setDifficulty 9 sampleLedger.pow sampleLedger).1 (by decide)).1,
    ((C20_setDifficulty 3 sampleLedger.pow sampleLedger).2 (by decide)).2.2.1,
    ((C20_setDifficulty 3 sampleLedger.pow sampleLedger).2 (by decide)).2.2.2.2.1⟩

end Blockchain

end blockchain

namespace crypto

namespace SHA256

/-! ## The padding of `SHA256::hash` (C14) -/

theorem padZeros_eq (fuel : Nat) :
    ∀ data : List Nat, (120 - data.length % 64) % 64 ≤ fuel →
      padZeros fuel data = data ++ List.replicate ((120 - data.length % 64) % 64) 0 := by
  induction fuel with
  | zero =>
    intro data h
    have h0 : (120 - data.length % 64) % 64 = 0 := by omega
    simp [padZeros, h0]
  | succ n ih =>
    intro data h
    unfold padZeros
    split_ifs with hc
    · have hlen : (data ++ [0]).length = data.length + 1 := by simp
      rw [ih (data ++ [0]) (by rw [hlen]; omega), hlen]
      have hz : (120 - data.length % 64) % 64 = (120 - (data.length + 1) % 64) % 64 + 1 := by
        omega
      rw [hz, List.replicate_succ, List.append_assoc]
      rfl
    · have h0 : (120 - data.length % 64) % 64 = 0 := by omega
      simp [h0]

theorem lengthByte_eq (v i : Nat) : (v >>> (i * 8)) &&& 0xFF = v / 256 ^ i % 256 := by
  have h255 : (0xFF : Nat) = 2 ^ 8 - 1 := by norm_num
  rw [h255, Nat.and_pow_two_sub_one_eq_mod, Nat.shiftRight_eq_div_pow, Nat.mul_comm, Nat.pow_mul]

/-- The byte vector built by `SHA256::hash` in closed form. -/
theorem pad_eq (input : List Nat) :
    pad input = input.map (fun c => c % 256) ++ [0x80]
      ++ List.replicate ((119 - input.length % 64) % 64) 0
      ++ bigEndian64 ((input.length * 8) % 18446744073709551616) := by
  unfold pad
  simp only [List.foldl_cons, List.foldl_nil, lengthByte_eq]
  rw [padZeros_eq 64 _ (by omega)]
  have hlen : (List.map (fun c => c % 256) input ++ [0x80]).length = input.length + 1 := by simp
  have hz : (120 - (input.length + 1) % 64) % 64 = (119 - input.length % 64) % 64 := by omega
  rw [hlen, hz]
  simp [bigEndian64]

theorem pad_length (input : List Nat) :
    (pad input).length = 64 * ((input.length + 8) / 64 + 1) := by
  rw [pad_eq]
  simp only [List.length_append, List.length_map, List.length_singleton, List.length_replicate,
    bigEndian64, List.length_cons, List.length_nil]
  omega

/-- The chunk loop with a counting body runs once per 64 bytes. -/
theorem chunkLoop_count (data : List Nat) (q : Nat) (hlen : data.length = 64 * q) :
    ∀ (fuel j c : Nat), j ≤ q → q - j ≤ fuel →
      chunkLoop (fun count _ => count + 1) data fuel (64 * j) c = c + (q - j) := by
  intro fuel
  induction fuel with
  | zero =>
    intro j c hj hf
    simp only [chunkLoop]
    omega
  | succ n ih =>
    intro j c hj hf
    unfold chunkLoop
    split_ifs with hlt
    · have hj1 : j + 1 ≤ q := by omega
      have e : 64 * j + 64 = 64 * (j + 1) := by ring
      rw [e, ih (j + 1) (c + 1) hj1 (by omega)]
      omega
    · omega

/-- C14. For every input of `n` bytes, the padded message built by
`SHA256::hash` is the `n` input bytes, then the byte `0x80`, then zero bytes,
then the 8 bytes of the big-endian encoding of `8 * n` modulo `2^64`; its
length is the least multiple of 64 that is at least `n + 9`, and the chunk
loop compresses `(n + 8) / 64 + 1` blocks. -/
theorem C14_padding (input : List Nat) :
    pad input = input.map (fun c => c % 256) ++ [0x80]
      ++ List.replicate (64 * ((input.length + 8) / 64 + 1) - input.length - 9) 0
      ++ bigEndian64 ((8 * input.length) % 2 ^ 64)
    ∧ ((∀ c ∈ input, c < 256) → (pad input).take input.length = input)
    ∧ (pad input).length = 64 * ((input.length + 8) / 64 + 1)
    ∧ 64 ∣ (pad input).length
    ∧ input.length + 9 ≤ (pad input).length
    ∧ (∀ m, 64 ∣ m → input.length + 9 ≤ m → (pad input).length ≤ m)
    ∧ compressions input = (input.length + 8) / 64 + 1 := by
  have hz : (119 - input.length % 64) % 64
      = 64 * ((input.length + 8) / 64 + 1) - input.length - 9 := by omega
  have hpad := pad_eq input
  rw [hz, Nat.mul_comm input.length 8] at hpad
  have h64 : (18446744073709551616 : Nat) = 2 ^ 64 := by norm_num
  rw [h64] at hpad
  have hlen := pad_length input
  refine ⟨hpad, ?_, hlen, ?_, ?_, ?_, ?_⟩
  · intro hbytes
    have hmap : input.map (fun c => c % 256) = input := by
      conv_rhs => rw [← List.map_id input]
      apply List.map_congr_left
      intro c hc
      exact Nat.mod_eq_of_lt (hbytes c hc)
    rw [hpad, hmap, List.append_assoc, List.append_assoc]
    exact List.take_left _ _
  · rw [hlen]
    exact Dvd.intro _ rfl
  · rw [hlen]
    omega
  · intro m hm hle
    rw [hlen]
    obtain ⟨k, hk⟩ := hm
    omega
  · unfold compressions
    have := chunkLoop_count (pad input) ((input.length + 8) / 64 + 1) hlen
      (pad input).length 0 0 (Nat.zero_le _) (by rw [hlen]; omega)
    simpa using this

end SHA256

end crypto

namespace crypto

namespace SHA256

/-! ## The digest of `SHA256::hash` (C12, C13) -/

set_option maxRecDepth 100000 in
/-- C12. `SHA256::hash` of the empty input is the SHA-256 digest of the
empty message (the round constants and mixing functions of the header being
the standard ones). -/
theorem C12_empty_input_digest :
    hash [] = "e3b0c44298fc1c149afbf4c8996fb92427ae41e4649b934ca495991b7852b855"
    ∧ crypto.sha256 "" = "e3b0c44298fc1c149afbf4c8996fb92427ae41e4649b934ca495991b7852b855" := by
  constructor
  · decide
  · decide

set_option maxRecDepth 100000 in
/-- The digests of `"abc"` and of the padded two-chunk input of 56 bytes
`'a'`, as every SHA-256 implementation computes them. -/
theorem hash_known_answers :
    crypto.sha256 "abc" = "ba7816bf8f01cfea414140de5dae2223b00361a396177a9cb410ff61f20015ad"
    ∧ hash (List.replicate 56 0x61)
        = "b35439a4ac6f0948b6d6f9e3c6af0f5f590ce20f1bde7090ef7970686ec6738a" := by
  constructor
  · decide
  · decide

theorem goodState_init : GoodState init := by
  unfold GoodState init word
  decide

theorem goodState_transform (h data : List Nat) : GoodState (transform h data) := by
  unfold GoodState transform
  refine ⟨rfl, ?_⟩
  intro w hw
  have hpos : 0 < word := by unfold word; norm_num
  simp only [List.mem_cons, List.mem_singleton, List.not_mem_nil, or_false] at hw
  rcases hw with h | h | h | h | h | h | h | h <;> (rw [h]; exact Nat.mod_lt _ hpos)

/-- A property of the state kept by the body holds after the chunk loop. -/
theorem chunkLoop_invariant {σ : Type} (P : σ → Prop) (body : σ → List Nat → σ)
    (hbody : ∀ s chunk, P s → P (body s chunk)) (data : List Nat) :
    ∀ (fuel i : Nat) (s : σ), P s → P (chunkLoop body data fuel i s) := by
  intro fuel
  induction fuel with
  | zero => intro i s hs; exact hs
  | succ n ih =>
    intro i s hs
    unfold chunkLoop
    split_ifs
    · exact ih _ _ (hbody _ _ hs)
    · exact hs

theorem digitsBE_length (k : Nat) : ∀ x, (digitsBE k x).length = k := by
  induction k with
  | zero => intro x; rfl
  | succ n ih => intro x; simp [digitsBE, ih]

theorem digitsBE_zero (k : Nat) : digitsBE k 0 = List.replicate k '0' := by
  induction k with
  | zero => rfl
  | succ n ih =>
    simp only [digitsBE, Nat.zero_div, Nat.zero_mod, ih]
    rw [List.replicate_succ']
    rfl

theorem hexDigits_length_le (fuel : Nat) : ∀ x, (hexDigits fuel x).length ≤ fuel := by
  induction fuel with
  | zero => intro x; simp [hexDigits]
  | succ n ih =>
    intro x
    unfold hexDigits
    split_ifs
    · simp
    · simp only [List.length_append, List.length_singleton]
      have := ih (x / 16)
      omega

/-- Padding the stream digits of a value below `16^k` with zeros to `k`
characters gives its `k`-digit big-endian rendering. -/
theorem pad_hexDigits (k : Nat) :
    ∀ x, x < 16 ^ (k + 1) →
      List.replicate (k + 1 - (hexDigits (k + 1) x).length) '0' ++ hexDigits (k + 1) x
        = digitsBE (k + 1) x := by
  induction k with
  | zero =>
    intro x hx
    have hx16 : x < 16 := by simpa using hx
    simp [hexDigits, digitsBE, hx16, Nat.mod_eq_of_lt hx16]
  | succ n ih =>
    intro x hx
    unfold hexDigits
    split_ifs with hlt
    · have hdiv : x / 16 = 0 := Nat.div_eq_of_lt hlt
      have hmod : x % 16 = x := Nat.mod_eq_of_lt hlt
      show List.replicate (n + 1 + 1 - [Nat.digitChar x].length) '0' ++ [Nat.digitChar x]
        = digitsBE (n + 1) (x / 16) ++ [Nat.digitChar (x % 16)]
      rw [hdiv, hmod, digitsBE_zero]
      rfl
    · have hx2 : x / 16 < 16 ^ (n + 1) := by
        rw [Nat.div_lt_iff_lt_mul (by norm_num)]
        calc x < 16 ^ (n + 1 + 1) := hx
          _ = 16 ^ (n + 1) * 16 := by ring
      have hih := ih (x / 16) hx2
      have hle := hexDigits_length_le (n + 1) (x / 16)
      simp only [List.length_append, List.length_singleton]
      have e : n + 1 + 1 - ((hexDigits (n + 1) (x / 16)).length + 1)
          = n + 1 - (hexDigits (n + 1) (x / 16)).length := by omega
      rw [e, ← List.append_assoc, hih]
      rfl

theorem digitsBE_eight (w : Nat) : digitsBE 8 w = bigEndianHex8 w := by
  simp only [digitsBE, bigEndianHex8, List.map_cons, List.map_nil, List.nil_append,
    List.cons_append, List.singleton_append, Nat.div_div_eq_div_mul]
  norm_num

theorem hex8_eq (w : Nat) (hw : w < word) : hex8 w = bigEndianHex8 w := by
  unfold hex8
  have h := pad_hexDigits 7 w (by unfold word at hw; norm_num; exact hw)
  rw [← digitsBE_eight, ← h]

theorem digitChar_mem_hexChars : ∀ d, d < 16 → Nat.digitChar d ∈ hexChars := by
  decide

theorem bigEndianHex8_chars (w : Nat) : ∀ c ∈ bigEndianHex8 w, c ∈ hexChars := by
  intro c hc
  unfold bigEndianHex8 at hc
  rw [List.mem_map] at hc
  obtain ⟨i, _, hi⟩ := hc
  rw [← hi]
  exact digitChar_mem_hexChars _ (Nat.mod_lt _ (by norm_num))

theorem bigEndianHex8_length (w : Nat) : (bigEndianHex8 w).length = 8 := rfl

theorem finalize_eq (h : List Nat) (hgood : GoodState h) :
    (finalize h).data = h.flatMap bigEndianHex8 := by
  obtain ⟨hlen, hw⟩ := hgood
  match h, hlen with
  | [h0, h1, h2, h3, h4, h5, h6, h7], _ =>
    have e : ∀ w ∈ [h0, h1, h2, h3, h4, h5, h6, h7], hex8 w = bigEndianHex8 w :=
      fun w hmem => hex8_eq w (hw w hmem)
    simp only [finalize, List.range, List.range.loop, List.foldl_cons, List.foldl_nil,
      List.getD_cons_zero, List.getD_cons_succ, List.nil_append, List.flatMap_cons,
      List.flatMap_nil, List.append_nil, List.append_assoc]
    rw [e h0 (by simp), e h1 (by simp), e h2 (by simp), e h3 (by simp), e h4 (by simp),
      e h5 (by simp), e h6 (by simp), e h7 (by simp)]

/-- The final state of `SHA256::hash` has eight 32-bit words. -/
theorem goodState_final (input : List Nat) :
    GoodState (chunkLoop transform (pad input) (pad input).length 0 init) :=
  chunkLoop_invariant GoodState transform (fun s chunk _ => goodState_transform s chunk)
    (pad input) _ 0 init goodState_init

theorem hash_data (input : List Nat) :
    (hash input).data
      = (chunkLoop transform (pad input) (pad input).length 0 init).flatMap bigEndianHex8 :=
  finalize_eq _ (goodState_final input)

/-- Every digest has 64 characters. -/
theorem hash_length (input : List Nat) : (hash input).length = 64 := by
  show (hash input).data.length = 64
  rw [hash_data]
  have hgood := goodState_final input
  generalize chunkLoop transform (pad input) (pad input).length 0 init = h at hgood
  obtain ⟨hlen, _⟩ := hgood
  match h, hlen with
  | [h0, h1, h2, h3, h4, h5, h6, h7], _ =>
    simp [bigEndianHex8_length]

/-- C13. For every input byte string, the empty one included,
`SHA256::hash` returns a string of exactly 64 characters, each one of
`0-9a-f`, which is the concatenation of the 8 final 32-bit state words, each
rendered big-endian as 8 zero-padded hexadecimal digits. -/
theorem C13_digest_format (input : List Nat) :
    ∃ h : List Nat, h = chunkLoop transform (pad input) (pad input).length 0 init
      ∧ h.length = 8
      ∧ (∀ w ∈ h, w < 2 ^ 32)
      ∧ (hash input).data = h.flatMap bigEndianHex8
      ∧ (hash input).length = 64
      ∧ ∀ c ∈ (hash input).data, c ∈ hexChars := by
  have hgood := goodState_final input
  refine ⟨_, rfl, hgood.1, ?_, hash_data input, hash_length input, ?_⟩
  · intro w hw
    have := hgood.2 w hw
    unfold word at this
    norm_num
    exact this
  · intro c hc
    rw [hash_data, List.mem_flatMap] at hc
    obtain ⟨w, _, hcw⟩ := hc
    exact bigEndianHex8_chars w c hcw

end SHA256

end crypto

namespace blockchain

open consensus

/-! ## The Merkle root and the order of the leaves (C18) -/

namespace MerkleTree

theorem string_append_inj (a b c d : String) (hlen : a.length = c.length)
    (h : a ++ b = c ++ d) : a = c ∧ b = d := by
  rw [String.ext_iff, String.data_append, String.data_append] at h
  have hl : a.data.length = c.data.length := hlen
  obtain ⟨h1, h2⟩ := List.append_inj h hl
  exact ⟨String.ext_iff.2 h1, String.ext_iff.2 h2⟩

/-- The inner loop hashes the strings of `pairInputs`, in order. -/
theorem pairUp_eq_map (E : Env) : ∀ l : List String, pairUp E l = (pairInputs l).map E.sha256
  | [] => rfl
  | [_] => rfl
  | a :: b :: rest => by
    simp only [pairUp, pairInputs, List.map_cons, pairUp_eq_map E rest]

/-- Pairing two levels of the same even length whose nodes all have length
`L` gives different levels, unless the levels are equal or two different
concatenations of adjacent nodes have the same digest. -/
theorem pairUp_inj (E : Env) (L : Nat) :
    ∀ (n : Nat) (p q : List String), p.length = 2 * n → q.length = 2 * n →
      (∀ a ∈ p, a.length = L) → (∀ a ∈ q, a.length = L) →
      pairUp E p = pairUp E q →
      p = q ∨ ∃ s ∈ pairInputs p, ∃ t ∈ pairInputs q, s ≠ t ∧ E.sha256 s = E.sha256 t := by
  intro n
  induction n with
  | zero =>
    intro p q hp hq _ _ _
    left
    have hp0 : p = [] := List.length_eq_zero.1 (by simpa using hp)
    have hq0 : q = [] := List.length_eq_zero.1 (by simpa using hq)
    rw [hp0, hq0]
  | succ k ih =>
    intro p q hp hq hpL hqL heq
    match p, q, hp, hq with
    | a :: b :: r, c :: d :: t, hp, hq =>
      simp only [pairUp, List.cons.injEq] at heq
      obtain ⟨hhead, htail⟩ := heq
      by_cases hcat : a ++ b = c ++ d
      · have hac : a.length = c.length := by
          rw [hpL a (by simp), hqL c (by simp)]
        obtain ⟨h1, h2⟩ := string_append_inj a b c d hac hcat
        have hr : r.length = 2 * k := by simp only [List.length_cons] at hp; omega
        have ht : t.length = 2 * k := by simp only [List.length_cons] at hq; omega
        rcases ih r t hr ht (fun x hx => hpL x (by simp [hx])) (fun x hx => hqL x (by simp [hx]))
          htail with h3 | ⟨s, hs, u, hu, hne, hsu⟩
        · left; rw [h1, h2, h3]
        · right
          exact ⟨s, List.mem_cons_of_mem _ hs, u, List.mem_cons_of_mem _ hu, hne, hsu⟩
      · right
        exact ⟨a ++ b, List.mem_cons_self _ _, c ++ d, List.mem_cons_self _ _, hcat, hhead⟩

theorem pairUp_node_length (E : Env) (L : Nat) (hout : ∀ s, (E.sha256 s).length = L) :
    ∀ (p : List String), ∀ a ∈ pairUp E p, a.length = L
  | [] => by intro a ha; simp [pairUp] at ha
  | [_] => by intro a ha; simp [pairUp] at ha
  | x :: y :: r => by
    intro a ha
    simp only [pairUp, List.mem_cons] at ha
    rcases ha with ha | ha
    · rw [ha]; exact hout _
    · exact pairUp_node_length E L hout r a ha

theorem dupLast_mem (l : List String) : ∀ a ∈ dupLast l, a ∈ l := by
  intro a ha
  unfold dupLast at ha
  split_ifs at ha with hodd
  · cases hl : l.getLast? with
    | none => rw [hl] at ha; exact ha
    | some x =>
      rw [hl] at ha
      simp only [List.mem_append, List.mem_singleton] at ha
      rcases ha with ha | ha
      · exact ha
      · rw [ha]
        exact List.mem_of_getLast?_eq_some hl
  · exact ha

theorem dupLast_inj (l m : List String) (hlen : l.length = m.length)
    (h : dupLast l = dupLast m) : l = m := by
  unfold dupLast at h
  rw [hlen] at h
  split_ifs at h with hodd
  · cases hl : l.getLast? with
    | none =>
      rw [List.getLast?_eq_none_iff] at hl
      rw [hl] at hlen
      rw [hl, List.length_eq_zero.1 hlen.symm]
    | some x =>
      cases hm : m.getLast? with
      | none =>
        rw [List.getLast?_eq_none_iff] at hm
        rw [hm] at hlen
        rw [hm, List.length_eq_zero.1 hlen]
      | some y =>
        rw [hl, hm] at h
        exact (List.append_inj h hlen).1
  · exact h

/-- Two levels of the same length whose nodes all have the length of a
digest are reduced by the level loop to different results, unless they are
equal or two different strings hashed on the way have the same digest. -/
theorem levelLoop_inj (E : Env) (L : Nat) (hout : ∀ s, (E.sha256 s).length = L) :
    ∀ (fuel : Nat) (l m : List String), l.length = m.length → 1 ≤ l.length →
      l.length ≤ fuel + 1 → (∀ a ∈ l, a.length = L) → (∀ a ∈ m, a.length = L) →
      levelLoop E fuel l = levelLoop E fuel m →
      l = m ∨ ∃ s ∈ levelInputs E fuel l, ∃ t ∈ levelInputs E fuel m,
        s ≠ t ∧ E.sha256 s = E.sha256 t := by
  intro fuel
  induction fuel with
  | zero =>
    intro l m _ _ _ _ _ h
    left
    simpa [levelLoop] using h
  | succ n ih =>
    intro l m hlen h1 hfuel hlL hmL h
    unfold levelLoop at h
    rw [← hlen] at h
    split_ifs at h with hgt
    · have hdl : (dupLast l).length = 2 * ((l.length + l.length % 2) / 2) := by
        rw [dupLast_length]; omega
      have hdm : (dupLast m).length = 2 * ((l.length + l.length % 2) / 2) := by
        rw [dupLast_length, ← hlen]; omega
      have hpl : (pairUp E (dupLast l)).length = (l.length + l.length % 2) / 2 := by
        rw [pairUp_length, hdl]; omega
      have hpm : (pairUp E (dupLast m)).length = (l.length + l.length % 2) / 2 := by
        rw [pairUp_length, hdm]; omega
      have hil : levelInputs E (n + 1) l
          = pairInputs (dupLast l) ++ levelInputs E n (pairUp E (dupLast l)) := by
        rw [levelInputs, if_pos hgt]
      have him : levelInputs E (n + 1) m
          = pairInputs (dupLast m) ++ levelInputs E n (pairUp E (dupLast m)) := by
        rw [levelInputs, if_pos (by omega)]
      rw [hil, him]
      rcases ih _ _ (by rw [hpl, hpm]) (by rw [hpl]; omega) (by rw [hpl]; omega)
        (pairUp_node_length E L hout _) (pairUp_node_length E L hout _) h
        with hp | ⟨s, hs, t, ht, hne, hst⟩
      · rcases pairUp_inj E L _ _ _ hdl hdm (fun a ha => hlL a (dupLast_mem l a ha))
          (fun a ha => hmL a (dupLast_mem m a ha)) hp with hd | ⟨s, hs, t, ht, hne, hst⟩
        · left; exact dupLast_inj l m hlen hd
        · right
          exact ⟨s, List.mem_append_left _ hs, t, List.mem_append_left _ ht, hne, hst⟩
      · right
        exact ⟨s, List.mem_append_right _ hs, t, List.mem_append_right _ ht, hne, hst⟩
    · left; exact h

/-- Leaf lists of the same length whose leaves all have the length of a
digest have different roots, unless they are equal or two different strings
hashed while the two roots are computed have the same digest. -/
theorem rootOfHashes_inj (E : Env) (L : Nat) (hout : ∀ s, (E.sha256 s).length = L)
    (l m : List String) (hlen : l.length = m.length)
    (hlL : ∀ a ∈ l, a.length = L) (hmL : ∀ a ∈ m, a.length = L)
    (h : rootOfHashes E l = rootOfHashes E m) :
    l = m ∨ ∃ s ∈ hashedInputs E l, ∃ t ∈ hashedInputs E m,
      s ≠ t ∧ E.sha256 s = E.sha256 t := by
  match l, m, hlen with
  | [], [], _ => left; rfl
  | [x], [y], _ =>
    left
    simpa [rootOfHashes, buildTreeIterative] using h
  | x1 :: x2 :: r, y1 :: y2 :: t, hlen =>
    have hl1 := levelLoop_length E (x1 :: x2 :: r).length (x1 :: x2 :: r) (by simp) (by omega)
    have hm1 := levelLoop_length E (y1 :: y2 :: t).length (y1 :: y2 :: t) (by simp) (by omega)
    simp only [rootOfHashes, buildTreeIterative, reduceCtorEq, if_false] at h
    obtain ⟨u, hu⟩ := List.length_eq_one.1 hl1
    obtain ⟨v, hv⟩ := List.length_eq_one.1 hm1
    rw [hu, hv] at h
    simp only [List.headD_cons] at h
    have hloop : levelLoop E (x1 :: x2 :: r).length (x1 :: x2 :: r)
        = levelLoop E (x1 :: x2 :: r).length (y1 :: y2 :: t) := by
      rw [hu, hlen, hv, h]
    have hres := levelLoop_inj E L hout (x1 :: x2 :: r).length _ _ hlen (by simp) (by omega)
      hlL hmL hloop
    unfold hashedInputs
    rw [← hlen]
    exact hres

/-- Whatever the hash function, the leaf lists `["a", "aa"]` and
`["aa", "a"]` have the same Merkle root: both concatenations are `"aaa"`. -/
theorem swapped_leaves_same_root (E : Env) :
    rootOfHashes E ["a", "aa"] = rootOfHashes E ["aa", "a"] := by
  rw [rootOfHashes_pair, rootOfHashes_pair]
  have h : "a" ++ "aa" = "aa" ++ "a" := by decide
  rw [h]

/-- C18, counterexample.  The list `["aa", "a"]` is a reordering of
`["a", "aa"]` into a different sequence; with SHA-256 as the hash both have
the Merkle root `sha256("aaa")`. -/
theorem C18_reordering_keeps_root :
    List.Perm ["a", "aa"] ["aa", "a"]
    ∧ (["a", "aa"] : List String) ≠ ["aa", "a"]
    ∧ rootOfHashes shaEnv ["a", "aa"] = crypto.sha256 "aaa"
    ∧ rootOfHashes shaEnv ["aa", "a"] = crypto.sha256 "aaa"
    ∧ rootOfHashes shaEnv ["a", "aa"] = rootOfHashes shaEnv ["aa", "a"] := by
  refine ⟨List.Perm.swap _ _ _, by decide, ?_, ?_, ?_⟩
  · rw [rootOfHashes_pair]; rfl
  · rw [rootOfHashes_pair]; rfl
  · rw [rootOfHashes_pair, rootOfHashes_pair]; rfl

/-- C18, amended.  The Merkle root is computed from the leaves in the order
given.  For a hash whose digests all have length `L` and a list of leaves
that all have length `L` (digests), every reordering into a different
sequence changes the root, provided that no two different strings among
those hashed while the two roots are computed (the concatenations of
adjacent nodes, `hashedInputs`) have the same digest. -/
theorem C18_reordering_changes_root (E : Env) (L : Nat)
    (hout : ∀ s, (E.sha256 s).length = L) (l m : List String) (hperm : l.Perm m)
    (hlL : ∀ a ∈ l, a.length = L) (hne : l ≠ m)
    (hfree : ∀ s ∈ hashedInputs E l, ∀ t ∈ hashedInputs E m,
      E.sha256 s = E.sha256 t → s = t) :
    rootOfHashes E l ≠ rootOfHashes E m := by
  intro h
  rcases rootOfHashes_inj E L hout l m hperm.length_eq hlL
    (fun a ha => hlL a (hperm.mem_iff.2 ha)) h with heq | ⟨s, hs, t, ht, hst, hdig⟩
  · exact hne heq
  · exact hst (hfree s hs t ht hdig)

theorem sha256_length (s : String) : (shaEnv.sha256 s).length = 64 :=
  crypto.SHA256.hash_length _

set_option maxRecDepth 100000 in
/-- The digests of the two concatenations of the digests of `"A"` and
`"B"`. -/
theorem swapped_digests_hashes :
    shaEnv.sha256 ("559aead08264d5795d3909718cdd05abd49572e84fe55590eef31a88a08fdffd"
        ++ "df7e70e5021544f4834bbee64a9e3789febc4be81470df629cad6ddb03320a5c")
      = "b30ab174f7459cdd40a3acdf15d0c9444fec2adcfb9d579aa154c084885edd0a"
    ∧ shaEnv.sha256 ("df7e70e5021544f4834bbee64a9e3789febc4be81470df629cad6ddb03320a5c"
        ++ "559aead08264d5795d3909718cdd05abd49572e84fe55590eef31a88a08fdffd")
      = "7c09e6a60e044bb88e0351f5f27214b0a47c2468c2662bff4bbe4612ff47f783" := by
  constructor
  · decide
  · decide

set_option maxRecDepth 100000 in
/-- An instance of the amended C18 with SHA-256: for the digests of `"A"`
and `"B"` one string is hashed per root, the two digests differ, and
swapping the leaves changes the Merkle root. -/
theorem C18_reordering_changes_root_witness :
    List.Perm ["559aead08264d5795d3909718cdd05abd49572e84fe55590eef31a88a08fdffd",
        "df7e70e5021544f4834bbee64a9e3789febc4be81470df629cad6ddb03320a5c"]
      ["df7e70e5021544f4834bbee64a9e3789febc4be81470df629cad6ddb03320a5c",
        "559aead08264d5795d3909718cdd05abd49572e84fe55590eef31a88a08fdffd"]
    ∧ hashedInputs shaEnv
          ["559aead08264d5795d3909718cdd05abd49572e84fe55590eef31a88a08fdffd",
            "df7e70e5021544f4834bbee64a9e3789febc4be81470df629cad6ddb03320a5c"]
        = ["559aead08264d5795d3909718cdd05abd49572e84fe55590eef31a88a08fdffd"
            ++ "df7e70e5021544f4834bbee64a9e3789febc4be81470df629cad6ddb03320a5c"]
    ∧ hashedInputs shaEnv
          ["df7e70e5021544f4834bbee64a9e3789febc4be81470df629cad6ddb03320a5c",
            "559aead08264d5795d3909718cdd05abd49572e84fe55590eef31a88a08fdffd"]
        = ["df7e70e5021544f4834bbee64a9e3789febc4be81470df629cad6ddb03320a5c"
            ++ "559aead08264d5795d3909718cdd05abd49572e84fe55590eef31a88a08fdffd"]
    ∧ rootOfHashes shaEnv
          ["559aead08264d5795d3909718cdd05abd49572e84fe55590eef31a88a08fdffd",
            "df7e70e5021544f4834bbee64a9e3789febc4be81470df629cad6ddb03320a5c"]
        ≠ rootOfHashes shaEnv
          ["df7e70e5021544f4834bbee64a9e3789febc4be81470df629cad6ddb03320a5c",
            "559aead08264d5795d3909718cdd05abd49572e84fe55590eef31a88a08fdffd"] :=
  ⟨List.Perm.swap _ _ _, rfl, rfl,
    C18_reordering_changes_root shaEnv 64 sha256_length _ _ (List.Perm.swap _ _ _)
      (by decide) (by decide)
      (by
        intro s hs t ht hst
        have hs1 : s = "559aead08264d5795d3909718cdd05abd49572e84fe55590eef31a88a08fdffd"
            ++ "df7e70e5021544f4834bbee64a9e3789febc4be81470df629cad6ddb03320a5c" :=
          List.mem_singleton.1 hs
        have ht1 : t = "df7e70e5021544f4834bbee64a9e3789febc4be81470df629cad6ddb03320a5c"
            ++ "559aead08264d5795d3909718cdd05abd49572e84fe55590eef31a88a08fdffd" :=
          List.mem_singleton.1 ht
        rw [hs1, ht1, swapped_digests_hashes.1, swapped_digests_hashes.2] at hst
        exact absurd hst (by decide))⟩

end MerkleTree

end blockchain

namespace blockchain

open consensus

/-! ## The configured difficulty (C21) -/

namespace consensus.ProofOfWork

/-- The constructor of `ProofOfWork` stores every difficulty that is not
negative, with the matching target. -/
theorem new_eq (d : Int) (hd : 0 ≤ d) :
    ProofOfWork.new d = some { difficulty := d.toNat, target := zeros d.toNat } := by
  unfold ProofOfWork.new
  rw [if_neg (by omega)]

/-- The target is the string of `difficulty` zeros after the constructor and
after every `setDifficulty`. -/
theorem target_invariant (d : Int) (p0 : ProofOfWork) (hnew : ProofOfWork.new d = some p0)
    (vs : List Int) :
    (vs.foldl (fun p v => p.setDifficulty v) p0).target
      = zeros (vs.foldl (fun p v => p.setDifficulty v) p0).difficulty := by
  have h0 : p0.target = zeros p0.difficulty := by
    unfold ProofOfWork.new at hnew
    split_ifs at hnew
    simp only [Option.some.injEq] at hnew
    rw [← hnew]
  clear hnew
  induction vs generalizing p0 with
  | nil => exact h0
  | cons v rest ih =>
    apply ih
    show (p0.setDifficulty v).target = zeros (p0.setDifficulty v).difficulty
    unfold setDifficulty
    split_ifs
    · exact h0
    · rfl

end consensus.ProofOfWork

namespace Blockchain

/-- C21, the code at the failing inputs.  The constructors of `ProofOfWork`
and of `Blockchain` reject no difficulty outside `[1, 8]` except the
negative ones: `ProofOfWork(9)` and `ProofOfWork(0)` are constructed with
difficulty 9 and 0, and `Blockchain(9)` and `Blockchain(0)` with
`powDifficulty` 9 and 0, while `setDifficulty(9)` on a ledger of difficulty 1
is refused. -/
theorem C21_constructors_accept_out_of_range :
    ProofOfWork.new 9 = some { difficulty := 9, target := "000000000" }
    ∧ ProofOfWork.new 0 = some { difficulty := 0, target := "" }
    ∧ (Blockchain.new sampleEnv 9 5 6).map (fun bc => (bc.powDifficulty, bc.pow))
        = some (9, { difficulty := 9, target := "000000000" })
    ∧ (Blockchain.new sampleEnv 0 5 6).map (fun bc => (bc.powDifficulty, bc.pow))
        = some (0, { difficulty := 0, target := "" })
    ∧ (sampleGenesisLedger.setDifficulty 9).powDifficulty = 1
    ∧ ProofOfWork.new (-1) = none := by
  refine ⟨by decide, by decide, by decide, by decide, by decide, by decide⟩

end Blockchain

end blockchain

namespace blockchain

open consensus

/-! ## The arithmetic of `int` -/

/-- Inside the range of `int` the wrap-around does nothing. -/
theorem wrapInt32_of_range (x : Int) (h1 : -2147483648 ≤ x) (h2 : x ≤ 2147483647) :
    wrapInt32 x = x := by
  unfold wrapInt32
  omega

/-- Wrapping an intermediate sum does not change the wrapped total. -/
theorem wrapInt32_add (x y : Int) : wrapInt32 (wrapInt32 x + y) = wrapInt32 (x + y) := by
  unfold wrapInt32
  omega

namespace consensus.ProofOfStake

/-- The accumulation loop of `getTotalStake` adds the sum of the stakes to
its start value. -/
theorem foldl_stake (vs : List Validator) :
    ∀ a : Int, vs.foldl (fun total v => total + v.stake) a = a + (vs.map Validator.stake).sum := by
  induction vs with
  | nil => intro a; simp
  | cons w rest ih =>
    intro a
    simp only [List.foldl_cons, List.map_cons, List.sum_cons, ih]
    ring

/-- The loop of `getTotalStake` computes the sum of the stakes. -/
theorem getTotalStake_eq_sum (s : ProofOfStake) :
    s.getTotalStake = (s.validators.map Validator.stake).sum := by
  unfold getTotalStake
  rw [foldl_stake]
  ring

/-- The selection loop entered with cumulative stake `c ≤ r` and a draw
below the total returns the first validator whose cumulative stake exceeds
the draw. -/
theorem selectLoop_spec (r : Int) :
    ∀ (vs : List Validator) (c : Int), c ≤ r → r < c + (vs.map Validator.stake).sum →
      ∃ k v, vs[k]? = some v ∧ selectLoop r c vs = some v.name
        ∧ r < c + ((vs.take (k + 1)).map Validator.stake).sum
        ∧ ∀ j, j < k → c + ((vs.take (j + 1)).map Validator.stake).sum ≤ r := by
  intro vs
  induction vs with
  | nil =>
    intro c h1 h2
    simp only [List.map_nil, List.sum_nil] at h2
    omega
  | cons w rest ih =>
    intro c h1 h2
    simp only [List.map_cons, List.sum_cons] at h2
    by_cases hlt : r < c + w.stake
    · refine ⟨0, w, by simp, ?_, ?_, ?_⟩
      · unfold selectLoop
        rw [if_pos hlt]
      · simpa using hlt
      · intro j hj
        omega
    · obtain ⟨k, v, hk, hsel, hup, hlow⟩ := ih (c + w.stake) (by omega) (by omega)
      refine ⟨k + 1, v, by simpa using hk, ?_, ?_, ?_⟩
      · unfold selectLoop
        rw [if_neg hlt]
        exact hsel
      · simp only [List.take_succ_cons, List.map_cons, List.sum_cons]
        omega
      · intro j hj
        cases j with
        | zero => simp; omega
        | succ i =>
          have := hlow i (by omega)
          simp only [List.take_succ_cons, List.map_cons, List.sum_cons]
          omega

/-- With one validator, `selectValidator` returns it whatever the draw. -/
theorem selectValidator_single (r : Int) (v : Validator) :
    selectValidator r { validators := [v] } = v.name := by
  unfold selectValidator
  simp only [selectLoop]
  split_ifs <;> rfl

/-- The loop of `getTotalStake32` computes the wrapped sum. -/
theorem foldl_stake32 (vs : List Validator) :
    ∀ a : Int, vs.foldl (fun total v => wrapInt32 (total + v.stake)) (wrapInt32 a)
      = wrapInt32 (a + (vs.map Validator.stake).sum) := by
  induction vs with
  | nil => intro a; simp
  | cons w rest ih =>
    intro a
    simp only [List.foldl_cons, List.map_cons, List.sum_cons]
    rw [wrapInt32_add, ih, add_assoc]

/-- The value of `getTotalStake32` is the sum of the stakes reduced to the
range of `int`. -/
theorem getTotalStake32_eq_wrap (s : ProofOfStake) :
    s.getTotalStake32 = wrapInt32 ((s.validators.map Validator.stake).sum) := by
  unfold getTotalStake32
  have h0 : (0 : Int) = wrapInt32 0 := by decide
  rw [h0, foldl_stake32, zero_add]

/-- While the cumulative stake stays within `int`, the selection loop in
`int` arithmetic is the selection loop on the integers. -/
theorem selectLoop32_eq (r : Int) :
    ∀ (vs : List Validator) (c : Int), 0 ≤ c → (∀ v ∈ vs, 0 < v.stake) →
      c + (vs.map Validator.stake).sum ≤ 2147483647 →
      selectLoop32 r c vs = selectLoop r c vs := by
  intro vs
  induction vs with
  | nil => intro c _ _ _; rfl
  | cons w rest ih =>
    intro c hc hpos hsum
    simp only [List.map_cons, List.sum_cons] at hsum
    have hw : 0 < w.stake := hpos w (by simp)
    have hrest : 0 ≤ (rest.map Validator.stake).sum :=
      List.sum_nonneg (by
        intro x hx
        rw [List.mem_map] at hx
        obtain ⟨v, hv, hvx⟩ := hx
        have := hpos v (by simp [hv])
        omega)
    have hwrap : wrapInt32 (c + w.stake) = c + w.stake :=
      wrapInt32_of_range _ (by omega) (by omega)
    unfold selectLoop32 selectLoop
    rw [hwrap, ih (c + w.stake) (by omega) (fun v hv => hpos v (by simp [hv])) (by omega)]

/-- C22, counterexample.  The registry built by `addValidator` with the
stakes 1, `INT_MAX`, `INT_MAX`, 11 has positive stakes, its `int` total is
10, and for the draw 5, which lies in `[0, 10)`, `selectValidator` returns
`"D"`, although the first validator whose cumulative stake exceeds 5 is
`"B"` (cumulative stakes 1 and `2^31`). -/
theorem C22_overflow_selects_later :
    overflowRegistry.validators
      = [{ name := "A", stake := 1 }, { name := "B", stake := 2147483647 },
          { name := "C", stake := 2147483647 }, { name := "D", stake := 11 }]
    ∧ overflowRegistry.getTotalStake32 = 10
    ∧ overflowRegistry.selectValidator32 5 = "D"
    ∧ cumulativeStake overflowRegistry 1 = 1
    ∧ cumulativeStake overflowRegistry 2 = 2147483648
    ∧ (overflowRegistry.validators[1]?).map Validator.name = some "B" := by
  refine ⟨by decide, by decide, by decide, by decide, by decide, by decide⟩

/-- C22, amended.  For every registry whose stakes are all positive and sum
to at most `INT_MAX` (no `int` overflow), and every draw `r` with
`0 ≤ r < totalStake` (so the registry is not empty), `selectValidator`
returns the name of the first validator in registration order whose
cumulative stake exceeds `r`: the validator at a position `k` with `r` below
the cumulative stake of the first `k + 1` validators and not below that of
any shorter prefix.  The result is a registered name, the loop returns (the
fallback after it is not reached), and a registry with exactly one validator
selects that validator. -/
theorem C22_selectValidator_first_exceeding (s : ProofOfStake) (r : Int)
    (hpos : ∀ v ∈ s.validators, 0 < v.stake)
    (hsum : (s.validators.map Validator.stake).sum ≤ 2147483647)
    (hr0 : 0 ≤ r) (hr : r < s.getTotalStake32) :
    s.getTotalStake32 = (s.validators.map Validator.stake).sum
    ∧ (∃ k v, s.validators[k]? = some v ∧ s.selectValidator32 r = v.name
      ∧ r < cumulativeStake s (k + 1)
      ∧ ∀ j, j < k → cumulativeStake s (j + 1) ≤ r)
    ∧ Registered s (s.selectValidator32 r)
    ∧ (∃ name, selectLoop32 r 0 s.validators = some name)
    ∧ (∀ v, s.validators = [v] → s.selectValidator32 r = v.name) := by
  have hnonneg : 0 ≤ (s.validators.map Validator.stake).sum :=
    List.sum_nonneg (by
      intro x hx
      rw [List.mem_map] at hx
      obtain ⟨v, hv, hvx⟩ := hx
      have := hpos v hv
      omega)
  have htotal : s.getTotalStake32 = (s.validators.map Validator.stake).sum := by
    rw [getTotalStake32_eq_wrap]
    exact wrapInt32_of_range _ (by omega) hsum
  rw [htotal] at hr
  have hloop : selectLoop32 r 0 s.validators = selectLoop r 0 s.validators :=
    selectLoop32_eq r s.validators 0 (le_refl 0) hpos (by omega)
  obtain ⟨k, v, hk, hsel, hup, hlow⟩ := selectLoop_spec r s.validators 0 hr0 (by omega)
  have hname : s.selectValidator32 r = v.name := by
    unfold selectValidator32
    cases hvs : s.validators with
    | nil => rw [hvs] at hk; simp at hk
    | cons v0 rest =>
      simp only
      rw [← hvs, hloop, hsel]
  refine ⟨htotal, ⟨k, v, hk, hname, ?_, ?_⟩, ?_, ⟨v.name, by rw [hloop, hsel]⟩, ?_⟩
  · unfold cumulativeStake
    omega
  · intro j hj
    have := hlow j hj
    unfold cumulativeStake
    omega
  · rw [hname]
    exact ⟨v, List.getElem?_mem hk, rfl⟩
  · intro w hw
    rw [hname]
    rw [hw] at hk
    cases k with
    | zero =>
      simp only [List.getElem?_cons_zero, Option.some.injEq] at hk
      rw [hk]
    | succ i => simp at hk

/-- An instance of the amended C22: with stakes 10, 20, 30 the total is 60,
the draw 29 selects the second validator and the draw 30 the third. -/
theorem C22_selectValidator_first_exceeding_witness :
    getTotalStake32 { validators :=
        [{ name := "alice", stake := 10 }, { name := "bob", stake := 20 },
          { name := "carol", stake := 30 }] } = 60
    ∧ selectValidator32 29 { validators :=
        [{ name := "alice", stake := 10 }, { name := "bob", stake := 20 },
          { name := "carol", stake := 30 }] } = "bob"
    ∧ selectValidator32 30 { validators :=
        [{ name := "alice", stake := 10 }, { name := "bob", stake := 20 },
          { name := "carol", stake := 30 }] } = "carol"
    ∧ Registered { validators :=
        [{ name := "alice", stake := 10 }, { name := "bob", stake := 20 },
          { name := "carol", stake := 30 }] }
        (selectValidator32 29 { validators :=
          [{ name := "alice", stake := 10 }, { name := "bob", stake := 20 },
            { name := "carol", stake := 30 }] }) :=
  ⟨by decide, by decide, by decide,
    (C22_selectValidator_first_exceeding { validators :=
        [{ name := "alice", stake := 10 }, { name := "bob", stake := 20 },
          { name := "carol", stake := 30 }] } 29 (by decide) (by decide) (by decide)
      (by decide)).2.2.1⟩

end consensus.ProofOfStake

end blockchain

namespace blockchain

open consensus

namespace consensus.ProofOfStake

/-- A sum of positive stakes is not negative. -/
theorem stake_sum_nonneg (vs : List Validator) (hpos : ∀ v ∈ vs, 0 < v.stake) :
    0 ≤ (vs.map Validator.stake).sum := by
  induction vs with
  | nil => simp
  | cons w rest ih =>
    simp only [List.map_cons, List.sum_cons]
    have h1 := hpos w (List.mem_cons_self _ _)
    have h2 := ih (fun v hv => hpos v (List.mem_cons_of_mem _ hv))
    omega

/-- Among the draws from `c` up to `c` plus the total stake, those for which
the selection loop, entered with cumulative stake `c`, returns the name of a
given validator are as many as its stake. -/
theorem card_selectLoop (vs : List Validator) :
    ∀ (c : Int), (∀ v ∈ vs, 0 < v.stake) → (vs.map Validator.name).Nodup →
      ∀ v ∈ vs,
        ((Finset.Ico c (c + (vs.map Validator.stake).sum)).filter
          (fun r => selectLoop r c vs = some v.name)).card = v.stake.toNat := by
  induction vs with
  | nil => intro c _ _ v hv; cases hv
  | cons w rest ih =>
    intro c hpos hnodup v hv
    have hw : 0 < w.stake := hpos w (List.mem_cons_self _ _)
    have hrest : ∀ u ∈ rest, 0 < u.stake := fun u hu => hpos u (List.mem_cons_of_mem _ hu)
    have hS := stake_sum_nonneg rest hrest
    simp only [List.map_cons, List.nodup_cons] at hnodup
    obtain ⟨hwnotin, hnodup_rest⟩ := hnodup
    simp only [List.map_cons, List.sum_cons]
    have hsplit : Finset.Ico c (c + (w.stake + (rest.map Validator.stake).sum))
        = Finset.Ico c (c + w.stake)
          ∪ Finset.Ico (c + w.stake) (c + w.stake + (rest.map Validator.stake).sum) := by
      rw [Finset.Ico_union_Ico_eq_Ico (by omega) (by omega)]
      congr 1
      ring
    rw [hsplit, Finset.filter_union,
      Finset.card_union_of_disjoint (Finset.disjoint_filter_filter
        (Finset.Ico_disjoint_Ico_consecutive _ _ _))]
    -- first part: every draw selects `w`
    have hfirst : ∀ r ∈ Finset.Ico c (c + w.stake),
        selectLoop r c (w :: rest) = some w.name := by
      intro r hr
      rw [Finset.mem_Ico] at hr
      unfold selectLoop
      rw [if_pos hr.2]
    -- second part: the loop goes on with the rest
    have hsecond : ∀ r ∈ Finset.Ico (c + w.stake) (c + w.stake + (rest.map Validator.stake).sum),
        selectLoop r c (w :: rest) = selectLoop r (c + w.stake) rest := by
      intro r hr
      rw [Finset.mem_Ico] at hr
      have hge : ¬ r < c + w.stake := by omega
      simp only [selectLoop, hge, if_false]
    have hsecond_filter :
        (Finset.Ico (c + w.stake) (c + w.stake + (rest.map Validator.stake).sum)).filter
            (fun r => selectLoop r c (w :: rest) = some v.name)
          = (Finset.Ico (c + w.stake) (c + w.stake + (rest.map Validator.stake).sum)).filter
            (fun r => selectLoop r (c + w.stake) rest = some v.name) := by
      apply Finset.filter_congr
      intro r hr
      rw [hsecond r hr]
    rw [hsecond_filter]
    by_cases hname : v.name = w.name
    · -- `v` is the first validator: the names of the rest differ from its name
      have hall : (Finset.Ico c (c + w.stake)).filter
          (fun r => selectLoop r c (w :: rest) = some v.name) = Finset.Ico c (c + w.stake) := by
        apply Finset.filter_true_of_mem
        intro r hr
        rw [hfirst r hr, hname]
      have hnone : (Finset.Ico (c + w.stake) (c + w.stake + (rest.map Validator.stake).sum)).filter
          (fun r => selectLoop r (c + w.stake) rest = some v.name) = ∅ := by
        apply Finset.filter_false_of_mem
        intro r _ hsel
        obtain ⟨u, hu, hun⟩ := selectLoop_mem r rest _ _ hsel
        apply hwnotin
        rw [List.mem_map]
        exact ⟨u, hu, by rw [hun, hname]⟩
      have hvw : v.stake = w.stake := by
        rcases List.mem_cons.1 hv with h | h
        · rw [h]
        · exfalso
          apply hwnotin
          rw [List.mem_map]
          exact ⟨v, h, hname⟩
      have e : c + w.stake - c = w.stake := by omega
      rw [hall, hnone, Int.card_Ico, Finset.card_empty, hvw, e, Nat.add_zero]
    · have hvrest : v ∈ rest := by
        rcases List.mem_cons.1 hv with h | h
        · exact absurd (by rw [h]) hname
        · exact h
      have hnone : (Finset.Ico c (c + w.stake)).filter
          (fun r => selectLoop r c (w :: rest) = some v.name) = ∅ := by
        apply Finset.filter_false_of_mem
        intro r hr hsel
        rw [hfirst r hr] at hsel
        simp only [Option.some.injEq] at hsel
        exact hname hsel.symm
      rw [hnone, Finset.card_empty, Nat.zero_add]
      exact ih (c + w.stake) hrest hnodup_rest v hvrest

/-- C23. For every registry with pairwise distinct names and positive
stakes (total stake `T`, integers without overflow) and every registered
validator `v`, the draws `r` in `[0, T)` for which `selectValidator` returns
`v.name` are exactly `v.stake` many, out of `T` draws: under a uniform draw
the probability of selecting `v` is `v.stake / T`. -/
theorem C23_selection_count (s : ProofOfStake)
    (hnodup : (s.validators.map Validator.name).Nodup)
    (hpos : ∀ v ∈ s.validators, 0 < v.stake) (v : Validator) (hv : v ∈ s.validators) :
    (((Finset.Ico 0 s.getTotalStake).filter
        (fun r => s.selectValidator r = v.name)).card : Int) = v.stake
    ∧ ((Finset.Ico 0 s.getTotalStake).card : Int) = s.getTotalStake
    ∧ 0 < s.getTotalStake
    ∧ ((((Finset.Ico 0 s.getTotalStake).filter
          (fun r => s.selectValidator r = v.name)).card : ℚ)
        / ((Finset.Ico 0 s.getTotalStake).card : ℚ)
        = (v.stake : ℚ) / (s.getTotalStake : ℚ)) := by
  have hT : s.getTotalStake = (s.validators.map Validator.stake).sum := getTotalStake_eq_sum s
  have hvpos : 0 < v.stake := hpos v hv
  have hTpos : 0 < s.getTotalStake := by
    rw [hT]
    obtain ⟨k, hk⟩ := List.mem_iff_getElem?.1 hv
    have hsum := stake_sum_nonneg s.validators hpos
    have hsplit : s.validators = s.validators.take k ++ s.validators.drop k :=
      (List.take_append_drop k s.validators).symm
    have hdrop : s.validators.drop k = v :: s.validators.drop (k + 1) := by
      have hlt : k < s.validators.length := by
        by_contra hge
        rw [List.getElem?_eq_none (by omega)] at hk
        cases hk
      rw [List.drop_eq_getElem_cons hlt]
      congr 1
      rw [List.getElem?_eq_getElem hlt] at hk
      exact Option.some.inj hk
    rw [hsplit, hdrop]
    simp only [List.map_append, List.map_cons, List.sum_append, List.sum_cons]
    have h1 := stake_sum_nonneg (s.validators.take k)
      (fun u hu => hpos u (List.mem_of_mem_take hu))
    have h2 := stake_sum_nonneg (s.validators.drop (k + 1))
      (fun u hu => hpos u (List.mem_of_mem_drop hu))
    omega
  have hfilter : (Finset.Ico 0 s.getTotalStake).filter (fun r => s.selectValidator r = v.name)
      = (Finset.Ico 0 (0 + (s.validators.map Validator.stake).sum)).filter
          (fun r => selectLoop r 0 s.validators = some v.name) := by
    rw [Int.zero_add, ← hT]
    apply Finset.filter_congr
    intro r hr
    rw [Finset.mem_Ico] at hr
    obtain ⟨k, u, hk, hsel, _, _⟩ :=
      selectLoop_spec r s.validators 0 hr.1 (by rw [hT] at hr; omega)
    have hname : s.selectValidator r = u.name := by
      unfold selectValidator
      cases hvs : s.validators with
      | nil => rw [hvs] at hk; simp at hk
      | cons v0 rest =>
        simp only
        rw [← hvs, hsel]
    rw [hname, hsel]
    simp
  have hcount : (((Finset.Ico 0 s.getTotalStake).filter
      (fun r => s.selectValidator r = v.name)).card : Int) = v.stake := by
    rw [hfilter, card_selectLoop s.validators 0 hpos hnodup v hv]
    exact Int.toNat_of_nonneg (by omega)
  have hall : ((Finset.Ico 0 s.getTotalStake).card : Int) = s.getTotalStake := by
    rw [Int.card_Ico, Int.sub_zero]
    exact Int.toNat_of_nonneg (by omega)
  refine ⟨hcount, hall, hTpos, ?_⟩
  have h1 : (((Finset.Ico 0 s.getTotalStake).filter
      (fun r => s.selectValidator r = v.name)).card : ℚ) = (v.stake : ℚ) := by
    exact_mod_cast hcount
  have h2 : ((Finset.Ico 0 s.getTotalStake).card : ℚ) = (s.getTotalStake : ℚ) := by
    exact_mod_cast hall
  rw [h1, h2]

/-- An instance of C23: with stakes 10, 20, 30 the second validator is
selected by 20 of the 60 draws. -/
theorem C23_selection_count_witness :
    (([{ name := "alice", stake := 10 }, { name := "bob", stake := 20 },
        { name := "carol", stake := 30 }] : List Validator).map Validator.name).Nodup
    ∧ (∀ v ∈ ([{ name := "alice", stake := 10 }, { name := "bob", stake := 20 },
        { name := "carol", stake := 30 }] : List Validator), 0 < v.stake)
    ∧ getTotalStake { validators :=
        [{ name := "alice", stake := 10 }, { name := "bob", stake := 20 },
          { name := "carol", stake := 30 }] } = 60
    ∧ (((Finset.Ico 0 (getTotalStake { validators :=
          [{ name := "alice", stake := 10 }, { name := "bob", stake := 20 },
            { name := "carol", stake := 30 }] })).filter
        (fun r => selectValidator r { validators :=
          [{ name := "alice", stake := 10 }, { name := "bob", stake := 20 },
            { name := "carol", stake := 30 }] }
          = (Validator.mk "bob" 20).name)).card : Int) = (Validator.mk "bob" 20).stake :=
  ⟨by decide, by decide, by decide,
    (C23_selection_count { validators :=
        [{ name := "alice", stake := 10 }, { name := "bob", stake := 20 },
          { name := "carol", stake := 30 }] } (by decide) (by decide)
      { name := "bob", stake := 20 } (by decide)).1⟩

end consensus.ProofOfStake

end blockchain

namespace blockchain

open consensus

/-! ## Sealing by stake (C24) -/

namespace Block

/-- C24. For every block and every validator name `v`, `validateBlock(v)`
sets `consensusType` to PROOF_OF_STAKE, `validator` to `v` and `nonce` to 0,
sets `hash` to the hash recomputed over the updated fields, and leaves
`index`, `timestamp`, `previousHash`, `merkleRoot` and `transactions`
unchanged. -/
theorem C24_validateBlock_frame (E : Env) (b : Block) (v : String) :
    (validateBlock E v b).consensusType = ConsensusType.PROOF_OF_STAKE
    ∧ (validateBlock E v b).validator = v
    ∧ (validateBlock E v b).nonce = 0
    ∧ (validateBlock E v b).hash = calculateHash E (validateBlock E v b)
    ∧ (validateBlock E v b).hash
        = E.sha256 (toString b.index ++ toString b.timestamp ++ b.previousHash ++ b.merkleRoot
            ++ toString (0 : Int) ++ v)
    ∧ (validateBlock E v b).index = b.index
    ∧ (validateBlock E v b).timestamp = b.timestamp
    ∧ (validateBlock E v b).previousHash = b.previousHash
    ∧ (validateBlock E v b).merkleRoot = b.merkleRoot
    ∧ (validateBlock E v b).transactions = b.transactions :=
  ⟨rfl, rfl, rfl, rfl, rfl, rfl, rfl, rfl, rfl, rfl⟩

end Block

/-! ## The mutators of the registry (C25, C26, C27) -/

namespace consensus.ProofOfStake

/-- The search by name of `addValidator` and `removeValidator` succeeds
exactly when the name is registered. -/
theorem any_name_eq_true_iff (s : ProofOfStake) (name : String) :
    s.validators.any (fun v => decide (v.name = name)) = true ↔ Registered s name := by
  unfold Registered
  simp [List.any_eq_true]

/-- C25. `addValidator(name, stake)` returns false and leaves the registry
unchanged if and only if `stake <= 0` or a validator with that name is
already registered; otherwise it returns true and the registry is the old
one with `(name, stake)` appended at the end. -/
theorem C25_addValidator (s : ProofOfStake) (name : String) (stake : Int) :
    ((s.addValidator name stake).1 = false ↔ (stake ≤ 0 ∨ Registered s name))
    ∧ ((stake ≤ 0 ∨ Registered s name) → (s.addValidator name stake).2 = s)
    ∧ (¬ (stake ≤ 0 ∨ Registered s name) →
        (s.addValidator name stake).1 = true
        ∧ (s.addValidator name stake).2
            = { validators := s.validators ++ [{ name := name, stake := stake }] }) := by
  unfold addValidator
  by_cases h1 : stake ≤ 0
  · rw [if_pos h1]
    exact ⟨⟨fun _ => Or.inl h1, fun _ => rfl⟩, fun _ => rfl, fun hn => absurd (Or.inl h1) hn⟩
  · rw [if_neg h1]
    by_cases h2 : s.validators.any (fun v => decide (v.name = name)) = true
    · rw [if_pos h2]
      have hreg := (any_name_eq_true_iff s name).1 h2
      exact ⟨⟨fun _ => Or.inr hreg, fun _ => rfl⟩, fun _ => rfl,
        fun hn => absurd (Or.inr hreg) hn⟩
    · rw [if_neg h2]
      have hnreg : ¬ Registered s name := fun hr => h2 ((any_name_eq_true_iff s name).2 hr)
      refine ⟨⟨fun hf => (by cases hf), fun hor => ?_⟩, fun hor => ?_, fun _ => ⟨rfl, rfl⟩⟩
      · rcases hor with h | h
        · exact absurd h h1
        · exact absurd h hnreg
      · rcases hor with h | h
        · exact absurd h h1
        · exact absurd h hnreg

/-- C26. `removeValidator(name)` returns false and leaves the registry
unchanged if and only if no validator with that name is registered;
otherwise it returns true, afterwards no validator with that name is
registered, and all other validators remain, with their stakes, in their
original relative order. -/
theorem C26_removeValidator (s : ProofOfStake) (name : String) :
    ((s.removeValidator name).1 = false ↔ ¬ Registered s name)
    ∧ (¬ Registered s name → (s.removeValidator name).2 = s)
    ∧ (Registered s name → (s.removeValidator name).1 = true)
    ∧ ¬ Registered (s.removeValidator name).2 name
    ∧ (∀ v, v ∈ (s.removeValidator name).2.validators ↔ (v ∈ s.validators ∧ v.name ≠ name))
    ∧ List.Sublist (s.removeValidator name).2.validators s.validators
    ∧ (s.removeValidator name).2.validators
        = s.validators.filter (fun v => decide (v.name ≠ name)) := by
  have hflag := removeValidator_flag name s
  have hfilter : (s.removeValidator name).2.validators
      = s.validators.filter (fun v => decide (v.name ≠ name)) := by
    unfold removeValidator
    simp only
    split_ifs with hlen
    · rfl
    · exact (List.filter_eq_self.2 (List.filter_length_eq_length.1 (not_not.1 hlen))).symm
  refine ⟨?_, ?_, hflag.2, ?_, ?_, ?_, hfilter⟩
  · rw [← hflag]
    cases (s.removeValidator name).1 <;> simp
  · intro hn
    have hf : (s.removeValidator name).1 = false := by
      cases hx : (s.removeValidator name).1
      · rfl
      · exact absurd (hflag.1 hx) hn
    unfold removeValidator at hf ⊢
    simp only at hf ⊢
    split_ifs at hf ⊢ with hlen
    rfl
  · intro hreg
    exact ((removeValidator_registered_iff name s name).1 hreg).2 rfl
  · intro v
    rw [hfilter, List.mem_filter]
    simp
  · rw [hfilter]
    exact List.filter_sublist _

/-- The registry invariant: pairwise distinct names and positive stakes. -/
theorem registry_invariant_step (s : ProofOfStake) (op : RegistryOp)
    (h : (s.validators.map Validator.name).Nodup ∧ ∀ v ∈ s.validators, 0 < v.stake) :
    ((op.apply s).validators.map Validator.name).Nodup
      ∧ ∀ v ∈ (op.apply s).validators, 0 < v.stake := by
  obtain ⟨hnodup, hpos⟩ := h
  cases op with
  | add name stake =>
    show (((s.addValidator name stake).2).validators.map Validator.name).Nodup
      ∧ ∀ v ∈ ((s.addValidator name stake).2).validators, 0 < v.stake
    unfold addValidator
    split_ifs with h1 h2
    · exact ⟨hnodup, hpos⟩
    · exact ⟨hnodup, hpos⟩
    · have hnreg : ¬ Registered s name := fun hr => h2 ((any_name_eq_true_iff s name).2 hr)
      constructor
      · simp only [List.map_append, List.map_cons, List.map_nil]
        rw [List.nodup_append]
        refine ⟨hnodup, List.nodup_singleton _, ?_⟩
        intro a ha hb
        rw [List.mem_singleton] at hb
        rw [List.mem_map] at ha
        obtain ⟨v, hv, hva⟩ := ha
        exact hnreg ⟨v, hv, by rw [hva, hb]⟩
      · intro v hv
        simp only [List.mem_append, List.mem_singleton] at hv
        rcases hv with hv | hv
        · exact hpos v hv
        · rw [hv]
          show 0 < stake
          omega
  | remove name =>
    show (((s.removeValidator name).2).validators.map Validator.name).Nodup
      ∧ ∀ v ∈ ((s.removeValidator name).2).validators, 0 < v.stake
    have hsub : List.Sublist (s.removeValidator name).2.validators s.validators := by
      unfold removeValidator
      simp only
      split_ifs
      · exact List.filter_sublist _
      · exact List.Sublist.refl _
    exact ⟨List.Nodup.sublist (hsub.map _) hnodup, fun v hv => hpos v (hsub.subset hv)⟩

/-- C27, counterexample.  After `addValidator("A", 2147483647)` and
`addValidator("B", 1)` from the empty registry the stakes are `INT_MAX` and
1, their sum is `2^31`, and `getTotalStake` returns `INT_MIN`. -/
theorem C27_total_stake_wraps :
    (registryAfter [RegistryOp.add "A" 2147483647, RegistryOp.add "B" 1]).validators
      = [{ name := "A", stake := 2147483647 }, { name := "B", stake := 1 }]
    ∧ ((registryAfter [RegistryOp.add "A" 2147483647, RegistryOp.add "B" 1]).validators.map
        Validator.stake).sum = 2147483648
    ∧ (registryAfter [RegistryOp.add "A" 2147483647, RegistryOp.add "B" 1]).getTotalStake32
        = -2147483648
    ∧ (registryAfter [RegistryOp.add "A" 2147483647, RegistryOp.add "B" 1]).getTotalStake32
        ≠ ((registryAfter [RegistryOp.add "A" 2147483647, RegistryOp.add "B" 1]).validators.map
            Validator.stake).sum := by
  refine ⟨by decide, by decide, by decide, by decide⟩

/-- C27, amended.  In every registry state reached from the empty registry
by a sequence of `addValidator` and `removeValidator` calls, the validator
names are pairwise distinct and every stake is strictly positive;
`getTotalStake` equals the sum of the stakes of the current members reduced
to the range of `int`, which is the sum itself whenever the sum is at most
`INT_MAX`. -/
theorem C27_registry_invariant (ops : List RegistryOp) :
    ((registryAfter ops).validators.map Validator.name).Nodup
    ∧ (∀ v ∈ (registryAfter ops).validators, 0 < v.stake)
    ∧ (registryAfter ops).getTotalStake32
        = wrapInt32 (((registryAfter ops).validators.map Validator.stake).sum)
    ∧ (((registryAfter ops).validators.map Validator.stake).sum ≤ 2147483647 →
        (registryAfter ops).getTotalStake32
          = ((registryAfter ops).validators.map Validator.stake).sum) := by
  have hinv : ∀ (l : List RegistryOp) (s : ProofOfStake),
      ((s.validators.map Validator.name).Nodup ∧ ∀ v ∈ s.validators, 0 < v.stake) →
      (((l.foldl RegistryOp.apply s).validators.map Validator.name).Nodup
        ∧ ∀ v ∈ (l.foldl RegistryOp.apply s).validators, 0 < v.stake) := by
    intro l
    induction l with
    | nil => intro s h; exact h
    | cons op rest ih =>
      intro s h
      exact ih (op.apply s) (registry_invariant_step s op h)
  have h0 : ((ProofOfStake.new.validators.map Validator.name).Nodup
      ∧ ∀ v ∈ ProofOfStake.new.validators, 0 < v.stake) := by
    constructor
    · exact List.nodup_nil
    · intro v hv; cases hv
  obtain ⟨h1, h2⟩ := hinv ops ProofOfStake.new h0
  refine ⟨h1, h2, getTotalStake32_eq_wrap _, ?_⟩
  intro hsum
  rw [getTotalStake32_eq_wrap]
  have hnonneg : 0 ≤ ((registryAfter ops).validators.map Validator.stake).sum :=
    List.sum_nonneg (by
      intro x hx
      rw [List.mem_map] at hx
      obtain ⟨v, hv, hvx⟩ := hx
      have := h2 v hv
      omega)
  exact wrapInt32_of_range _ (by omega) hsum

end consensus.ProofOfStake

end blockchain

namespace blockchain

open consensus

/-! ## The nonce found by `Block::mineBlock` (C28) -/

namespace Block

end Block

namespace Block

end Block

/-! ## The nonce returned by `ProofOfWork::mine` (C29) -/

namespace consensus.ProofOfWork

end consensus.ProofOfWork

/-! ## The input of the block hash (C30) -/

namespace Block

/-- C30. `calculateHash` hashes the unseparated concatenation of decimal
index, decimal timestamp, `previousHash`, `merkleRoot`, decimal nonce and
`validator`, so it is not injective on the block fields: the blocks with
index 1, timestamp 23 and with index 12, timestamp 3, and the blocks with
nonce 1, validator `"2x"` and with nonce 12, validator `"x"`, otherwise
equal, have the same hash input and hence the same hash, whatever the hash
function. -/
theorem C30_hash_input_not_injective :
    (∀ (E : Env) (b : Block), calculateHash E b = E.sha256 (hashInput b))
    ∧ sampleFieldsBlock 1 23 0 "" ≠ sampleFieldsBlock 12 3 0 ""
    ∧ hashInput (sampleFieldsBlock 1 23 0 "") = hashInput (sampleFieldsBlock 12 3 0 "")
    ∧ (∀ E : Env, calculateHash E (sampleFieldsBlock 1 23 0 "")
        = calculateHash E (sampleFieldsBlock 12 3 0 ""))
    ∧ sampleFieldsBlock 5 7 1 "2x" ≠ sampleFieldsBlock 5 7 12 "x"
    ∧ hashInput (sampleFieldsBlock 5 7 1 "2x") = hashInput (sampleFieldsBlock 5 7 12 "x")
    ∧ (∀ E : Env, calculateHash E (sampleFieldsBlock 5 7 1 "2x")
        = calculateHash E (sampleFieldsBlock 5 7 12 "x")) := by
  have h1 : hashInput (sampleFieldsBlock 1 23 0 "") = hashInput (sampleFieldsBlock 12 3 0 "") := by
    decide
  have h2 : hashInput (sampleFieldsBlock 5 7 1 "2x") = hashInput (sampleFieldsBlock 5 7 12 "x") := by
    decide
  refine ⟨fun _ _ => rfl, by decide, h1, ?_, by decide, h2, ?_⟩
  · intro E
    show E.sha256 (hashInput _) = E.sha256 (hashInput _)
    rw [h1]
  · intro E
    show E.sha256 (hashInput _) = E.sha256 (hashInput _)
    rw [h2]

end Block

end blockchain

namespace blockchain

open consensus

/-! ## Duplicating the last leaf of an odd level (C31) -/

namespace MerkleTree

/-- One iteration of the level loop on a level of two or more nodes. -/
theorem levelLoop_succ (E : Env) (fuel : Nat) (level : List String) (h : level.length > 1) :
    levelLoop E (fuel + 1) level = levelLoop E fuel (pairUp E (dupLast level)) := by
  rw [levelLoop, if_pos h]

/-- On a level of at most one node the loop does nothing. -/
theorem levelLoop_stop (E : Env) (fuel : Nat) (level : List String)
    (h : ¬ level.length > 1) : levelLoop E fuel level = level := by
  cases fuel with
  | zero => rfl
  | succ n => rw [levelLoop, if_neg h]

/-- Once the bound covers the level, a larger bound gives the same result:
the loop has stopped on its own. -/
theorem levelLoop_fuel (E : Env) :
    ∀ (fuel : Nat) (level : List String), level.length ≤ fuel + 1 →
      levelLoop E (fuel + 1) level = levelLoop E fuel level := by
  intro fuel
  induction fuel with
  | zero =>
    intro level h
    rw [levelLoop_stop E 0 level (by omega), levelLoop_stop E (0 + 1) level (by omega)]
  | succ n ih =>
    intro level h
    by_cases hgt : level.length > 1
    · rw [levelLoop_succ E (n + 1) level hgt, levelLoop_succ E n level hgt]
      apply ih
      rw [pairUp_length, dupLast_length]
      omega
    · rw [levelLoop_stop E (n + 1) level hgt, levelLoop_stop E (n + 1 + 1) level hgt]

/-- On a level of odd length the duplication step appends the last node. -/
theorem dupLast_odd (l : List String) (x : String) (hodd : l.length % 2 = 1)
    (hlast : l.getLast? = some x) : dupLast l = l ++ [x] := by
  unfold dupLast
  rw [if_pos (by omega), hlast]

/-- On a level of even length the duplication step does nothing. -/
theorem dupLast_even (l : List String) (heven : l.length % 2 = 0) : dupLast l = l := by
  unfold dupLast
  rw [if_neg (by omega)]

/-- From two nodes on, `buildTreeIterative` returns the first node of the
level the loop ends on. -/
theorem buildTreeIterative_eq (E : Env) (l : List String) (h : 2 ≤ l.length) :
    buildTreeIterative E l = (levelLoop E l.length l).headD "" := by
  match l, h with
  | _ :: _ :: _, _ => rfl

set_option maxRecDepth 100000 in
/-- With SHA-256, the root of the single leaf `sha256("A")` is the leaf, and
the root of the leaf followed by itself is the digest of the doubled leaf. -/
theorem single_digest_leaf_roots :
    rootOfHashes shaEnv ["559aead08264d5795d3909718cdd05abd49572e84fe55590eef31a88a08fdffd"]
      = "559aead08264d5795d3909718cdd05abd49572e84fe55590eef31a88a08fdffd"
    ∧ rootOfHashes shaEnv
        (["559aead08264d5795d3909718cdd05abd49572e84fe55590eef31a88a08fdffd"]
          ++ ["559aead08264d5795d3909718cdd05abd49572e84fe55590eef31a88a08fdffd"])
      = "cb3a55635f951ed5c3185b80f17cc79031d02ab288e39354527aee04a836c037" := by
  constructor
  · decide
  · decide

/-- C31. For every leaf list `l` of odd length at least 3, `l` has a last
element `x` and the Merkle root of `l` equals the Merkle root of `l ++ [x]`,
whatever the hash function.  The equality does not extend to length 1: the
root of `[a]` is `a` itself while the root of `[a] ++ [a]` is
`sha256(a ++ a)`, and with SHA-256 the two differ for the leaf
`sha256("A")`. -/
theorem C31_odd_list_duplicated_last (E : Env) (l : List String)
    (hodd : l.length % 2 = 1) (h3 : 3 ≤ l.length) :
    (∃ x, l.getLast? = some x
      ∧ rootOfHashes E l = rootOfHashes E (l ++ [x])
      ∧ buildTreeIterative E l = buildTreeIterative E (l ++ [x]))
    ∧ (∀ a : String, rootOfHashes E [a] = a ∧ rootOfHashes E ([a] ++ [a]) = E.sha256 (a ++ a))
    ∧ rootOfHashes shaEnv ["559aead08264d5795d3909718cdd05abd49572e84fe55590eef31a88a08fdffd"]
        ≠ rootOfHashes shaEnv
            (["559aead08264d5795d3909718cdd05abd49572e84fe55590eef31a88a08fdffd"]
              ++ ["559aead08264d5795d3909718cdd05abd49572e84fe55590eef31a88a08fdffd"]) := by
  refine ⟨?_, ?_, ?_⟩
  · cases hlast : l.getLast? with
    | none =>
      rw [List.getLast?_eq_none_iff] at hlast
      rw [hlast] at h3
      simp at h3
    | some x =>
      have hbuild : buildTreeIterative E l = buildTreeIterative E (l ++ [x]) := by
        obtain ⟨n, hn⟩ : ∃ n, l.length = n + 1 := ⟨l.length - 1, by omega⟩
        have hlen : (l ++ [x]).length = n + 1 + 1 := by
          rw [List.length_append, List.length_singleton, hn]
        rw [buildTreeIterative_eq E l (by omega),
          buildTreeIterative_eq E (l ++ [x]) (by omega), hlen, hn,
          levelLoop_succ E n l (by omega),
          levelLoop_succ E (n + 1) (l ++ [x]) (by omega),
          dupLast_odd l x hodd hlast, dupLast_even (l ++ [x]) (by omega),
          levelLoop_fuel E n (pairUp E (l ++ [x])) (by rw [pairUp_length]; omega)]
      refine ⟨x, rfl, ?_, hbuild⟩
      have hne : l ≠ [] := by
        intro he
        rw [he] at h3
        simp at h3
      unfold rootOfHashes
      rw [if_neg hne, if_neg (by simp), hbuild]
  · intro a
    simp [rootOfHashes, buildTreeIterative, levelLoop, dupLast, pairUp]
  · rw [single_digest_leaf_roots.1, single_digest_leaf_roots.2]
    decide

/-- An instance of C31 with five leaves: the root of `a, b, c, d, e` is the
root of `a, b, c, d, e, e`. -/
theorem C31_odd_list_duplicated_last_witness :
    ∃ x, ["a", "b", "c", "d", "e"].getLast? = some x
      ∧ rootOfHashes shaEnv ["a", "b", "c", "d", "e"]
          = rootOfHashes shaEnv (["a", "b", "c", "d", "e"] ++ [x])
      ∧ buildTreeIterative shaEnv ["a", "b", "c", "d", "e"]
          = buildTreeIterative shaEnv (["a", "b", "c", "d", "e"] ++ [x]) :=
  (C31_odd_list_duplicated_last shaEnv ["a", "b", "c", "d", "e"] (by decide) (by decide)).1

end MerkleTree

end blockchain

namespace blockchain

open consensus

/-! ## The target test under a change of difficulty (C32) -/

/-- A hash that starts with `d` zeros starts with every smaller number of
zeros. -/
theorem StartsWithZeros_mono (hash : String) (d d1 : Nat) (hle : d1 ≤ d)
    (h : StartsWithZeros hash d) : StartsWithZeros hash d1 := by
  unfold StartsWithZeros at h ⊢
  have hpre : List.replicate d1 '0' <+: List.replicate d '0' := by
    refine ⟨List.replicate (d - d1) '0', ?_⟩
    rw [← List.replicate_add]
    congr 1
    omega
  exact hpre.trans h

/-- The comparison `hash.substr(0, d) == std::string(d, '0')` is monotone
in `d`. -/
theorem substr0_zeros_mono (hash : String) (d d1 : Nat) (hle : d1 ≤ d)
    (h : substr0 hash d = zeros d) : substr0 hash d1 = zeros d1 :=
  (substr0_eq_zeros_iff hash d1).2
    (StartsWithZeros_mono hash d d1 hle ((substr0_eq_zeros_iff hash d).1 h))

namespace Blockchain

/-- The loop body of `isChainValid` passes at a lower difficulty every pair
of blocks it passes at a higher one. -/
theorem checkBlock_difficulty_mono (E : Env) (d d1 : Nat) (hle : d1 ≤ d) (pos : ProofOfStake)
    (p c : Block) (h : checkBlock E d pos p c = none) : checkBlock E d1 pos p c = none := by
  rw [checkBlock_eq_none_iff] at h ⊢
  obtain ⟨h1, h2, h3, h4, h5⟩ := h
  exact ⟨h1, h2, h3, fun hc => StartsWithZeros_mono _ d d1 hle (h4 hc), h5⟩

/-- The same for the blocks at two consecutive positions of a chain. -/
theorem pairCheck_difficulty_mono (E : Env) (d d1 : Nat) (hle : d1 ≤ d) (pos : ProofOfStake)
    (chain : List Block) (k : Nat) (h : pairCheck E d pos chain k = none) :
    pairCheck E d1 pos chain k = none := by
  unfold pairCheck at h ⊢
  cases hp : chain[k]? with
  | none => rfl
  | some p =>
    cases hc : chain[k + 1]? with
    | none => rfl
    | some c =>
      rw [hp, hc] at h
      exact checkBlock_difficulty_mono E d d1 hle pos p c h

/-- A ledger that passes `isChainValid` passes it after `setDifficulty` with
a value that is not above the current difficulty. -/
theorem isChainValid_setDifficulty_le (E : Env) (bc : Blockchain) (d1 : Nat)
    (hle : d1 ≤ bc.powDifficulty) (hvalid : isChainValid E bc = true) :
    isChainValid E (bc.setDifficulty (d1 : Int)) = true := by
  unfold setDifficulty
  split_ifs with hout
  · exact hvalid
  · rw [isChainValid_eq_true_iff, firstViolation_eq_none_iff] at hvalid ⊢
    intro i hi1 hi2
    have e : ((d1 : Int)).toNat = d1 := Int.toNat_natCast d1
    show pairCheck E ((d1 : Int)).toNat bc.pos bc.chain (i - 1) = none
    rw [e]
    exact pairCheck_difficulty_mono E bc.powDifficulty d1 hle bc.pos bc.chain (i - 1)
      (hvalid i hi1 hi2)

/-- A value between 1 and 8 is stored by `setDifficulty`. -/
theorem setDifficulty_powDifficulty (bc : Blockchain) (d1 : Nat) (h1 : 1 ≤ d1) (h8 : d1 ≤ 8) :
    (bc.setDifficulty (d1 : Int)).powDifficulty = d1 := by
  unfold setDifficulty
  rw [if_neg (by omega)]
  exact Int.toNat_natCast d1

/-- Inside its range `setDifficulty` changes neither the chain nor the
registry. -/
theorem setDifficulty_frame (bc : Blockchain) (d : Int) :
    (bc.setDifficulty d).chain = bc.chain ∧ (bc.setDifficulty d).pos = bc.pos := by
  unfold setDifficulty
  split_ifs
  · exact ⟨rfl, rfl⟩
  · exact ⟨rfl, rfl⟩

/-- On a chain of two blocks `isChainValid` runs its loop body once, at
index 1. -/
theorem firstViolation_two (E : Env) (bc : Blockchain) (g b : Block)
    (hchain : bc.chain = [g, b]) :
    firstViolation E bc
      = (checkBlock E bc.powDifficulty bc.pos g b).map (fun rule => (1, rule)) := by
  unfold firstViolation
  rw [hchain]
  cases hc : checkBlock E bc.powDifficulty bc.pos g b with
  | none => simp only [scanFrom, hc, Option.map_none']
  | some rule => simp only [scanFrom, hc, Option.map_some']

/-- A linked PROOF_OF_WORK block whose hash misses the target of a positive
difficulty is reported as invalid. -/
theorem checkBlock_target_missed (E : Env) (d : Nat) (pos : ProofOfStake) (p c : Block)
    (hlink : c.previousHash = p.hash) (hpow : c.consensusType = ConsensusType.PROOF_OF_WORK)
    (hd : 0 < d) (hmiss : substr0 c.hash d ≠ zeros d) :
    checkBlock E d pos p c = some ChainError.blockInvalid := by
  have hinvalid : c.isValid E d = false := by
    cases hv : c.isValid E d with
    | false => rfl
    | true =>
      rw [Block.isValid_eq_true_iff] at hv
      exact absurd (hv.2.1 hpow hd) hmiss
  unfold checkBlock
  rw [if_neg (not_not.2 hlink), if_pos hinvalid]

/-- When the transactions are valid and the nonce search on top of the last
block returns, `addBlockPoW` appends the mined block. -/
theorem addBlockPoW_of_mined (E : Env) (txs : List Transaction) (now : Int) (fuel : Nat)
    (bc : Blockchain) (last b : Block) (htx : txs.any (fun tx => !tx.isValid) = false)
    (hlast : bc.chain.getLast? = some last)
    (hmine : Block.mineBlock E fuel bc.powDifficulty
      (Block.new E (bc.chain.length : Int) last.hash txs now) = some b) :
    bc.addBlockPoW E txs now fuel = some (true, { bc with chain := bc.chain ++ [b] }) := by
  unfold addBlockPoW getLastBlock
  rw [htx, hlast]
  simp only [Bool.false_eq_true, if_false]
  rw [hmine]

set_option maxRecDepth 100000 in
/-- The hash of the genesis block of `minedGenesisLedger`. -/
theorem minedLedger_genesis_hash :
    (Block.validateBlock shaEnv "System" (createGenesisBlock shaEnv 1700000000 1700000000)).hash
      = "4bf3331c22ca266448d30994513a99d83464d66cf45183c351daea14e5675070" := by
  decide

set_option maxRecDepth 100000 in
/-- The nonce search of `minedLedger`: the block built on the genesis hash
at the clock reading 1700000052 is mined at difficulty 2 with nonce 1. -/
theorem minedLedger_mining :
    Block.mineBlock shaEnv 3 2
        (Block.new shaEnv 1 "4bf3331c22ca266448d30994513a99d83464d66cf45183c351daea14e5675070"
          [] 1700000052)
      = some minedBlock := by
  decide

/-- The nonce search of `minedLedger` as `addBlockPoW` runs it on
`minedGenesisLedger`. -/
theorem minedLedger_mining_on_genesis :
    Block.mineBlock shaEnv 3 2
        (Block.new shaEnv 1
          (Block.validateBlock shaEnv "System"
            (createGenesisBlock shaEnv 1700000000 1700000000)).hash
          [] 1700000052)
      = some minedBlock := by
  rw [minedLedger_genesis_hash]
  exact minedLedger_mining

/-- The ledgers `minedGenesisLedger` and `minedLedger` are what the code
builds: the constructor `Blockchain(2)` gives the first, and `addBlockPoW`
on it returns true with the second. -/
theorem minedLedger_built :
    Blockchain.new shaEnv 2 1700000000 1700000000 = some minedGenesisLedger
    ∧ minedGenesisLedger.addBlockPoW shaEnv [] 1700000052 3 = some (true, minedLedger) :=
  ⟨rfl, addBlockPoW_of_mined shaEnv [] 1700000052 3 minedGenesisLedger
    (Block.validateBlock shaEnv "System" (createGenesisBlock shaEnv 1700000000 1700000000))
    minedBlock rfl rfl minedLedger_mining_on_genesis⟩

/-- The loop body of `isChainValid` passes `minedBlock` on top of the genesis
block at difficulty 2: the block comes out of the nonce search. -/
theorem minedBlock_check :
    checkBlock shaEnv 2 ProofOfStake.new
      (Block.validateBlock shaEnv "System" (createGenesisBlock shaEnv 1700000000 1700000000))
      minedBlock = none :=
  checkBlock_mined shaEnv 2 ProofOfStake.new
    (Block.validateBlock shaEnv "System" (createGenesisBlock shaEnv 1700000000 1700000000))
    minedBlock 1 [] 1700000052 3 (fun _ htx => nomatch htx) minedLedger_mining_on_genesis

/-- The ledger `minedLedger` passes `isChainValid`. -/
theorem minedLedger_valid : isChainValid shaEnv minedLedger = true := by
  rw [isChainValid_eq_true_iff, firstViolation_two shaEnv minedLedger _ _ rfl]
  exact congrArg (Option.map (fun rule => (1, rule))) minedBlock_check

set_option maxRecDepth 100000 in
/-- After `setDifficulty(3)` the ledger `minedLedger` has difficulty 3 and
fails `isChainValid` at its mined block, whose hash starts with two zeros
only. -/
theorem minedLedger_raised :
    (minedLedger.setDifficulty 3).powDifficulty = 3
    ∧ firstViolation shaEnv (minedLedger.setDifficulty 3) = some (1, ChainError.blockInvalid)
    ∧ isChainValid shaEnv (minedLedger.setDifficulty 3) = false := by
  have hpd : (minedLedger.setDifficulty 3).powDifficulty = 3 :=
    setDifficulty_powDifficulty minedLedger 3 (by omega) (by omega)
  have hlink : minedBlock.previousHash
      = (Block.validateBlock shaEnv "System"
          (createGenesisBlock shaEnv 1700000000 1700000000)).hash := by
    rw [minedLedger_genesis_hash]
    rfl
  have hcheck := checkBlock_target_missed shaEnv 3 ProofOfStake.new _ minedBlock hlink rfl
    (by omega) (by decide)
  have h : firstViolation shaEnv (minedLedger.setDifficulty 3)
      = some (1, ChainError.blockInvalid) := by
    rw [firstViolation_two shaEnv (minedLedger.setDifficulty 3) _ _
      (setDifficulty_frame minedLedger 3).1, hpd, (setDifficulty_frame minedLedger 3).2]
    exact congrArg (Option.map (fun rule => (1, rule))) hcheck
  refine ⟨hpd, h, ?_⟩
  unfold isChainValid
  rw [h]
  rfl

/-- C32. The target test is monotone in the difficulty: for every hash `h`
and all difficulties `d1 ≤ d`, if `h.substr(0, d)` equals `d` zeros then
`h.substr(0, d1)` equals `d1` zeros, and so for `validateHash` and
`Block::isValid`.  Hence a ledger of difficulty `d` that passes
`isChainValid` still passes after `setDifficulty(d1)`, which stores `d1`
when `1 ≤ d1 ≤ 8`.  Raising the difficulty can invalidate a valid mined
block: the ledger `minedLedger`, built by `Blockchain(2)` and one
`addBlockPoW` with SHA-256, passes, and fails after `setDifficulty(3)`. -/
theorem C32_target_monotone_in_difficulty (E : Env) (h : String) (d d1 : Nat) (hle : d1 ≤ d) :
    (substr0 h d = zeros d → substr0 h d1 = zeros d1)
    ∧ (ProofOfWork.validateHash { difficulty := d, target := zeros d } h = true →
        ProofOfWork.validateHash { difficulty := d1, target := zeros d1 } h = true)
    ∧ (∀ b : Block, b.isValid E d = true → b.isValid E d1 = true)
    ∧ (∀ bc : Blockchain, bc.powDifficulty = d → isChainValid E bc = true →
        isChainValid E (bc.setDifficulty (d1 : Int)) = true
        ∧ (1 ≤ d1 → d1 ≤ 8 → (bc.setDifficulty (d1 : Int)).powDifficulty = d1))
    ∧ (Blockchain.new shaEnv 2 1700000000 1700000000 = some minedGenesisLedger
        ∧ minedGenesisLedger.addBlockPoW shaEnv [] 1700000052 3 = some (true, minedLedger)
        ∧ isChainValid shaEnv minedLedger = true
        ∧ minedLedger.powDifficulty < (minedLedger.setDifficulty 3).powDifficulty
        ∧ isChainValid shaEnv (minedLedger.setDifficulty 3) = false) := by
  refine ⟨substr0_zeros_mono h d d1 hle, ?_, ?_, ?_, minedLedger_built.1, minedLedger_built.2,
    minedLedger_valid, ?_, minedLedger_raised.2.2⟩
  · intro hv
    unfold ProofOfWork.validateHash at hv ⊢
    rw [decide_eq_true_eq] at hv ⊢
    exact substr0_zeros_mono h d d1 hle hv
  · intro b hb
    rw [Block.isValid_eq_true_iff] at hb ⊢
    obtain ⟨h1, h2, h3⟩ := hb
    exact ⟨h1, fun hc hpos => substr0_zeros_mono _ d d1 hle (h2 hc (by omega)), h3⟩
  · intro bc hd hvalid
    exact ⟨isChainValid_setDifficulty_le E bc d1 (by omega) hvalid,
      fun h1 h8 => setDifficulty_powDifficulty bc d1 h1 h8⟩
  · rw [minedLedger_raised.1]
    decide

/-- An instance of C32: the mined hash of `minedLedger` meets the target at
difficulty 1 as it does at difficulty 2, and the ledger still passes after
`setDifficulty(1)`. -/
theorem C32_target_monotone_in_difficulty_witness :
    substr0 "00d9493e1d4011560b257e3ef3fdfc6ef3d933991ee6caf1fb3cb5c77cf82b96" 2 = zeros 2
    ∧ substr0 "00d9493e1d4011560b257e3ef3fdfc6ef3d933991ee6caf1fb3cb5c77cf82b96" 1 = zeros 1
    ∧ minedLedger.powDifficulty = 2
    ∧ isChainValid shaEnv minedLedger = true
    ∧ isChainValid shaEnv (minedLedger.setDifficulty ((1 : Nat) : Int)) = true
    ∧ (minedLedger.setDifficulty ((1 : Nat) : Int)).powDifficulty = 1 :=
  ⟨by decide,
    (C32_target_monotone_in_difficulty shaEnv
      "00d9493e1d4011560b257e3ef3fdfc6ef3d933991ee6caf1fb3cb5c77cf82b96" 2 1 (by decide)).1
      (by decide),
    rfl, minedLedger_valid,
    ((C32_target_monotone_in_difficulty shaEnv
      "00d9493e1d4011560b257e3ef3fdfc6ef3d933991ee6caf1fb3cb5c77cf82b96" 2 1 (by decide)).2.2.2.1
      minedLedger rfl minedLedger_valid).1,
    ((C32_target_monotone_in_difficulty shaEnv
      "00d9493e1d4011560b257e3ef3fdfc6ef3d933991ee6caf1fb3cb5c77cf82b96" 2 1 (by decide)).2.2.2.1
      minedLedger rfl minedLedger_valid).2 (by decide) (by decide)⟩

end Blockchain

end blockchain
